import Mathlib

/-!
# Node4 of the adaptive radix tree index

A shallow embedding of `src/execution/index/art/node4.cpp` (with the Node16
declaration of `src/include/duckdb/execution/index/art/node16.hpp`).

* bytes (`uint8_t`), `uint16_t`, `uint32_t` and `idx_t` values are natural numbers;
  wrap-around is written out with `%` where the code can reach it;
* a `unique_ptr<Node>` is an `Option Node` (`none` is the null pointer), so that a
  node owns its children as a tree;
* a fixed C array is a list, read with `arrGet` and written with `arrSet`;
* `unique_ptr<Node> &node`, the slot through which `Insert` and `Erase` replace the
  node, is the node passed in and the node returned.
-/

namespace duckdb

/-! ## Data model -/

/-- The largest `idx_t`: `DConstants::INVALID_INDEX`, the not-found and end sentinel. -/
def INVALID_INDEX : Nat := 18446744073709551615

/-- The discriminant tag of a node. -/
inductive NodeType where
  | N4
  | N16
  | N48
  | N256
  | NLeaf
deriving DecidableEq, Repr

/-- A node: the fields of the base class that node4.cpp uses (`type`, `count`,
`prefix_length`, the prefix buffer; node.hpp is not among the sources) and the three
per-slot arrays of Node4 and Node16 (`key`, `child`, `block_offsets`). `count` is a
`uint16_t` and `prefix_length` a `uint32_t`, the types `Deserialize` reads them with. -/
inductive Node where
  | mk (type : NodeType) (count : Nat) (prefix_length : Nat) (prefix_bytes : List Nat)
      (key : List Nat) (child : List (Option Node)) (block_offsets : List (Nat × Nat))

namespace Node

def type : Node → NodeType
  | mk t _ _ _ _ _ _ => t

def count : Node → Nat
  | mk _ c _ _ _ _ _ => c

def prefix_length : Node → Nat
  | mk _ _ l _ _ _ _ => l

def prefix_bytes : Node → List Nat
  | mk _ _ _ p _ _ _ => p

def key : Node → List Nat
  | mk _ _ _ _ k _ _ => k

def child : Node → List (Option Node)
  | mk _ _ _ _ _ c _ => c

def block_offsets : Node → List (Nat × Nat)
  | mk _ _ _ _ _ _ b => b

def setCount : Node → Nat → Node
  | mk t _ l p k c b, v => mk t v l p k c b

def setPrefixLength : Node → Nat → Node
  | mk t n _ p k c b, v => mk t n v p k c b

def setPrefixBytes : Node → List Nat → Node
  | mk t n l _ k c b, v => mk t n l v k c b

def setKeys : Node → List Nat → Node
  | mk t n l p _ c b, v => mk t n l p v c b

def setChildren : Node → List (Option Node) → Node
  | mk t n l p k _ b, v => mk t n l p k v b

def setBlockOffsets : Node → List (Nat × Nat) → Node
  | mk t n l p k c _, v => mk t n l p k c v

end Node

/-- Read of slot `i` of a C array; `d` stands for what lies outside the array. -/
def arrGet {α : Type} (a : List α) (i : Nat) (d : α) : α := a.getD i d

/-- Write of slot `i` of a C array. -/
def arrSet {α : Type} (a : List α) (i : Nat) (v : α) : List α := a.set i v

namespace Node

/-- The byte `key[i]`. -/
def keyAt (n : Node) (i : Nat) : Nat := arrGet n.key i 0

/-- The pointer `child[i]`. -/
def childAt (n : Node) (i : Nat) : Option Node := arrGet n.child i none

/-- The pair `block_offsets[i]`. -/
def offsetAt (n : Node) (i : Nat) : Nat × Nat := arrGet n.block_offsets i (0, 0)

/-- The assignment `key[i] = v`. -/
def setKey (n : Node) (i v : Nat) : Node := n.setKeys (arrSet n.key i v)

/-- The assignment `child[i] = v`. -/
def setChild (n : Node) (i : Nat) (v : Option Node) : Node := n.setChildren (arrSet n.child i v)

/-- The live entries of a node: the pairs `(key[i], child[i])` for `i < count`. -/
def live (n : Node) : List (Nat × Option Node) :=
  (n.key.take n.count).zip (n.child.take n.count)

/-- The live discriminant bytes `key[0], ..., key[count-1]`. -/
def liveKeys (n : Node) : List Nat := n.key.take n.count

end Node

/-- What stops an operation: a failed `D_ASSERT`, the dereference of a null pointer, an
array access at a negative index, or a read the block store cannot serve. -/
inductive Fault where
  | assertion_failure
  | null_dereference
  | out_of_bounds
  | read_failure
deriving DecidableEq, Repr

/-- Modelled from the spec: the base constructor `Node(type, compression_length)` (node.cpp
is not among the sources). It allocates a prefix buffer of `compression_length` bytes, and
by the data model `prefix_length` is the exact length of that buffer; there are no
children yet. The slot arrays are the ones of the variant: `slots` keys and children
(the keys filled with `fill`), and `offs` block offsets, value-initialised. -/
def Node.create (type : NodeType) (compression_length slots fill offs : Nat) : Node :=
  .mk type 0 compression_length (List.replicate compression_length 0)
    (List.replicate slots fill) (List.replicate slots none) (List.replicate offs (0, 0))

/-- Modelled from the spec: `Node::CopyPrefix(src, dst)` (node.cpp is not among the
sources) gives `dst` the prefix of `src`: its length and its first `prefix_length`
bytes. -/
def Node.CopyPrefix (src dst : Node) : Node :=
  (dst.setPrefixLength src.prefix_length).setPrefixBytes
    (src.prefix_bytes.take src.prefix_length ++ dst.prefix_bytes.drop src.prefix_length)

/-- Modelled from the spec: the base `Node::GetChildPos` (node.cpp is not among the
sources), reached when no key matches, returns the not-found sentinel; node16.hpp
documents the override as returning -1 when the byte does not exist. -/
def Node.GetChildPos (_k : Nat) : Nat := INVALID_INDEX

/-- Modelled from the spec: the base `Node::GetChildGreaterEqual` (node.cpp is not among the
sources), reached when no key is greater or equal, returns the not-found sentinel and
leaves `equal` as it was; node16.hpp documents the override as returning
`DConstants::INVALID_INDEX` when no child matches. -/
def Node.GetChildGreaterEqual (_k : Nat) (equal : Bool) : Nat × Bool := (INVALID_INDEX, equal)

/-! ## Node4 -/

namespace Node4

/-- `Node4::Node4(compression_length)`: a Node4 with four zeroed keys (`memset`), four null
children and four block offsets. -/
def create (compression_length : Nat) : Node := Node.create .N4 compression_length 4 0 4

/-- The loop of `GetChildPos`, from position `pos` with `fuel` iterations left. -/
def GetChildPos.loop (n : Node) (k : Nat) : Nat → Nat → Nat
  | 0, _ => Node.GetChildPos k
  | fuel + 1, pos => if n.keyAt pos = k then pos else GetChildPos.loop n k fuel (pos + 1)

/-- `Node4::GetChildPos(k)`. -/
def GetChildPos (n : Node) (k : Nat) : Nat := GetChildPos.loop n k n.count 0

/-- The loop of `GetChildGreaterEqual`, from position `pos` with `fuel` iterations left. -/
def GetChildGreaterEqual.loop (n : Node) (k : Nat) (equal : Bool) : Nat → Nat → Nat × Bool
  | 0, _ => Node.GetChildGreaterEqual k equal
  | fuel + 1, pos =>
    if n.keyAt pos ≥ k then
      if n.keyAt pos = k then (pos, true) else (pos, false)
    else GetChildGreaterEqual.loop n k equal fuel (pos + 1)

/-- `Node4::GetChildGreaterEqual(k, equal)`: the position returned and the value of the
reference parameter `equal` afterwards. -/
def GetChildGreaterEqual (n : Node) (k : Nat) (equal : Bool) : Nat × Bool :=
  GetChildGreaterEqual.loop n k equal n.count 0

/-- `Node4::GetMin()`. -/
def GetMin (_n : Node) : Nat := 0

/-- `Node4::GetNextPos(pos)`; `pos++` is an increment of an `idx_t`. -/
def GetNextPos (n : Node) (pos : Nat) : Nat :=
  if pos = INVALID_INDEX then 0
  else
    let pos1 := (pos + 1) % 18446744073709551616
    if pos1 < n.count then pos1 else INVALID_INDEX

/-- The `while` loop of `Insert`: the first position whose key is not below `key_byte`. -/
def Insert.findPos (n : Node) (key_byte : Nat) : Nat → Nat → Nat
  | 0, pos => pos
  | fuel + 1, pos =>
    if pos < n.count ∧ n.keyAt pos < key_byte then Insert.findPos n key_byte fuel (pos + 1)
    else pos

/-- The `for (i = count; i > pos; i--)` loop of `Insert`: slot `i` takes the key of slot
`i - 1` and its child, which is moved out of slot `i - 1`. -/
def Insert.shift (pos : Nat) : Nat → Node → Node
  | 0, n => n
  | i + 1, n =>
    if i + 1 > pos then
      Insert.shift pos i
        (((n.setKey (i + 1) (n.keyAt i)).setChild (i + 1) (n.childAt i)).setChild i none)
    else n

/-- The branch `count < 4` of `Insert`. -/
def Insert.place (n : Node) (key_byte : Nat) (child : Option Node) : Node :=
  let pos := Insert.findPos n key_byte n.count 0
  let n1 := if (n.childAt pos).isSome then Insert.shift pos n.count n else n
  let n2 := n1.setKey pos key_byte
  let n3 := n2.setChild pos child
  n3.setCount ((n3.count + 1) % 65536)

/-- Modelled from the spec: `Node16::Node16(compression_length)` (node16.cpp is not among
the sources), with the arrays node16.hpp declares: 16 keys, 16 children, 4 block
offsets. -/
def Node16.create (compression_length : Nat) : Node := Node.create .N16 compression_length 16 0 4

/-- The copy loop of the grow branch, slots `i, ..., 3`: the Node16 takes key and child,
the child is moved out of the Node4. The first component is the Node4. -/
def Insert.copyLoop : Nat → Nat → Node × Node → Node × Node
  | 0, _, s => s
  | fuel + 1, i, (n, new_node) =>
    Insert.copyLoop fuel (i + 1)
      (n.setChild i none, (new_node.setKey i (n.keyAt i)).setChild i (n.childAt i))

/-- The branch `count >= 4` of `Insert` up to `node = move(new_node)`: the Node4 as it is
when it is released, and the Node16 that takes its slot. -/
def Insert.grow (n : Node) : Node × Node :=
  let new_node := (Node16.create n.prefix_length).setCount 4
  let new_node := Node.CopyPrefix n new_node
  Insert.copyLoop 4 0 (n, new_node)

/-- `Node4::Insert(node, key_byte, child)`: the node in the slot afterwards. `Node16::Insert`
is declared in node16.hpp and defined outside the sources, so it is the parameter
`node16Insert`. -/
def Insert (node16Insert : Node → Nat → Option Node → Node) (node : Node) (key_byte : Nat)
    (child : Option Node) : Node :=
  if node.count < 4 then Insert.place node key_byte child
  else node16Insert (Insert.grow node).2 key_byte child

/-- The shifting loop of `Erase`, from position `pos` with `fuel` iterations left. -/
def Erase.shift : Nat → Nat → Node → Node
  | 0, _, n => n
  | fuel + 1, pos, n =>
    if pos < n.count then
      Erase.shift fuel (pos + 1)
        (((n.setKey pos (n.keyAt (pos + 1))).setChild pos (n.childAt (pos + 1))).setChild
          (pos + 1) none)
    else n

/-- The first loop of the collapse: the child's prefix goes to the end of the buffer. -/
def Erase.copyChildPrefix (new_length : Nat) (childref : Node) (new_pfx : List Nat) :
    List Nat :=
  (List.range childref.prefix_length).foldl
    (fun buf i => arrSet buf (new_length - (i + 1))
      (arrGet childref.prefix_bytes (childref.prefix_length - (i + 1)) 0))
    new_pfx

/-- The last loop of the collapse: the node's prefix goes to the start of the buffer. -/
def Erase.copyOldPrefix (node : Node) (new_pfx : List Nat) : List Nat :=
  (List.range node.prefix_length).foldl
    (fun buf i => arrSet buf i (arrGet node.prefix_bytes i 0)) new_pfx

/-- The collapse of `Erase` (`count == 1`), given the surviving child `childref`:
the child with the fused prefix. `new_length` is a `uint32_t`. -/
def Erase.collapse (n childref : Node) : Node :=
  let new_length := (n.prefix_length + childref.prefix_length + 1) % 4294967296
  let new_pfx := List.replicate new_length 0
  let new_pfx := Erase.copyChildPrefix new_length childref new_pfx
  let new_pfx := arrSet new_pfx n.prefix_length (n.keyAt 0)
  let new_pfx := Erase.copyOldPrefix n new_pfx
  (childref.setPrefixBytes new_pfx).setPrefixLength new_length

/-- `Node4::Erase(node, pos)`: the node in the slot afterwards. `pos` is an `int` and the
assertion compares it with `count` as an `int`; `count--` is a decrement of a `uint16_t`.
A null `child[0]` in the collapse is dereferenced. -/
def Erase (node : Node) (pos : Int) : Except Fault Node :=
  if ¬ (pos < (node.count : Int)) then .error .assertion_failure
  else if pos < 0 then .error .out_of_bounds
  else
    let p := pos.toNat
    let n := node.setChild p none
    let n := n.setCount ((n.count + 65535) % 65536)
    let n := Erase.shift (n.count - p) p n
    if n.count = 1 then
      match n.childAt 0 with
      | none => .error .null_dereference
      | some childref => .ok (Erase.collapse n childref)
    else .ok n

end Node4

end duckdb

namespace duckdb

/-! ## The block store -/

/-- Modelled from the spec: the `sizeof(T)` bytes `Write<T>` stores for a fixed-width
value, least significant byte first (the writer and reader of the block store are not
among the sources). -/
def toBytes : Nat → Nat → List Nat
  | 0, _ => []
  | width + 1, v => v % 256 :: toBytes width (v / 256)

/-- Modelled from the spec: the value `Read<T>` decodes from the bytes of a fixed-width
field. -/
def fromBytes : List Nat → Nat
  | [] => 0
  | b :: bs => b + 256 * fromBytes bs

/-- Modelled from the spec: `MetaBlockWriter` (meta_block_writer.hpp is not among the
sources), an append-only writer: `block_id` is `writer.block->id`, `data` the bytes of the
block so far, and the cursor `writer.offset` is where the next byte goes. -/
structure MetaBlockWriter where
  block_id : Nat
  data : List Nat

/-- The cursor `writer.offset`. -/
def MetaBlockWriter.offset (w : MetaBlockWriter) : Nat := w.data.length

/-- Modelled from the spec: `writer.Write<T>(v)` for a `T` of `width` bytes appends the
bytes of `v`. -/
def MetaBlockWriter.Write (w : MetaBlockWriter) (width v : Nat) : MetaBlockWriter :=
  ⟨w.block_id, w.data ++ toBytes width v⟩

/-- Modelled from the spec: `MetaBlockReader` (meta_block_reader.hpp is not among the
sources): the bytes of the block it was opened on and its cursor. -/
structure MetaBlockReader where
  data : List Nat
  offset : Nat

/-- Modelled from the spec: `reader.Read<T>()` for a `T` of `width` bytes decodes the bytes
at the cursor and advances the cursor past them; a read past the end of what was written
is a read failure. -/
def MetaBlockReader.Read (r : MetaBlockReader) (width : Nat) :
    Except Fault (Nat × MetaBlockReader) :=
  if r.offset + width ≤ r.data.length then
    .ok (fromBytes ((r.data.drop r.offset).take width), ⟨r.data, r.offset + width⟩)
  else .error .read_failure

/-- Modelled from the spec: the index with its backing store (`ART &art`, art.hpp is not
among the sources): the bytes of every block, by block id. -/
structure ART where
  blocks : Nat → List Nat

/-- Modelled from the spec: the byte `Write(type)` stores for the tag (the enumeration is
declared in node.hpp, which is not among the sources). -/
def NodeType.toByte : NodeType → Nat
  | .N4 => 0
  | .N16 => 1
  | .N48 => 2
  | .N256 => 3
  | .NLeaf => 4

/-! ## Serialization of a Node4 -/

/-- The part of `Node4::Serialize` after the children: tag, count, prefix length, prefix
bytes, the keys, the child offsets. -/
def Node4.Serialize.writeRecord (n : Node) (child_offsets : List (Nat × Nat))
    (writer : MetaBlockWriter) : MetaBlockWriter :=
  let writer := writer.Write 1 n.type.toByte
  let writer := writer.Write 2 n.count
  let writer := writer.Write 4 n.prefix_length
  let writer := (List.range n.prefix_length).foldl
    (fun w i => w.Write 1 (arrGet n.prefix_bytes i 0)) writer
  let writer := n.key.foldl (fun w key_v => w.Write 1 key_v) writer
  child_offsets.foldl (fun w offsets => (w.Write 8 offsets.1).Write 8 offsets.2) writer

mutual
/-- The virtual call `node->Serialize(writer)`: `Node4::Serialize` on a Node4; on the other
variants, whose `Serialize` is not among the sources, the parameter `other`. The result
is the pair `(block_id, offset)` returned and the writer afterwards. -/
def Node.Serialize (other : Node → MetaBlockWriter → (Nat × Nat) × MetaBlockWriter) :
    Node → MetaBlockWriter → (Nat × Nat) × MetaBlockWriter
  | .mk t cnt pl p k ch bo, writer =>
    match t with
    | .N4 =>
      let r := Node.Serialize.children other ch writer
      ((r.2.block_id, r.2.offset),
        Node4.Serialize.writeRecord (.mk .N4 cnt pl p k ch bo) r.1 r.2)
    | .N16 => other (.mk .N16 cnt pl p k ch bo) writer
    | .N48 => other (.mk .N48 cnt pl p k ch bo) writer
    | .N256 => other (.mk .N256 cnt pl p k ch bo) writer
    | .NLeaf => other (.mk .NLeaf cnt pl p k ch bo) writer
/-- The first loop of `Node4::Serialize`, over the child slots: a present child is
serialized and its address kept, an absent one gives the invalid pair. -/
def Node.Serialize.children (other : Node → MetaBlockWriter → (Nat × Nat) × MetaBlockWriter) :
    List (Option Node) → MetaBlockWriter → List (Nat × Nat) × MetaBlockWriter
  | [], writer => ([], writer)
  | none :: rest, writer =>
    let r := Node.Serialize.children other rest writer
    ((INVALID_INDEX, INVALID_INDEX) :: r.1, r.2)
  | some child_node :: rest, writer =>
    let a := Node.Serialize other child_node writer
    let r := Node.Serialize.children other rest a.2
    (a.1 :: r.1, r.2)
end

/-- `Node4::Serialize(writer)`. -/
def Node4.Serialize (other : Node → MetaBlockWriter → (Nat × Nat) × MetaBlockWriter)
    (n : Node) (writer : MetaBlockWriter) : (Nat × Nat) × MetaBlockWriter :=
  let r := Node.Serialize.children other n.child writer
  ((r.2.block_id, r.2.offset), Node4.Serialize.writeRecord n r.1 r.2)

/-! ## Deserialization of a Node4 -/

/-- The loop of `Node4::Deserialize` that reads the prefix bytes into the buffer. -/
def Node4.Deserialize.readPrefix : Nat → Nat → Node → MetaBlockReader →
    Except Fault (Node × MetaBlockReader)
  | 0, _, n, reader => .ok (n, reader)
  | fuel + 1, i, n, reader =>
    match reader.Read 1 with
    | .error e => .error e
    | .ok (v, reader) =>
      Node4.Deserialize.readPrefix fuel (i + 1) (n.setPrefixBytes (arrSet n.prefix_bytes i v))
        reader

/-- The loop of `Node4::Deserialize` that reads the key bytes. -/
def Node4.Deserialize.readKeys : Nat → Nat → Node → MetaBlockReader →
    Except Fault (Node × MetaBlockReader)
  | 0, _, n, reader => .ok (n, reader)
  | fuel + 1, i, n, reader =>
    match reader.Read 1 with
    | .error e => .error e
    | .ok (v, reader) => Node4.Deserialize.readKeys fuel (i + 1) (n.setKey i v) reader

/-- The loop of `Node4::Deserialize` that reads the child offsets, two `idx_t` a slot. -/
def Node4.Deserialize.readOffsets : Nat → Nat → Node → MetaBlockReader →
    Except Fault (Node × MetaBlockReader)
  | 0, _, n, reader => .ok (n, reader)
  | fuel + 1, i, n, reader =>
    match reader.Read 8 with
    | .error e => .error e
    | .ok (first, reader) =>
      match reader.Read 8 with
      | .error e => .error e
      | .ok (second, reader) =>
        Node4.Deserialize.readOffsets fuel (i + 1)
          (n.setBlockOffsets (arrSet n.block_offsets i (first, second))) reader

/-- `Node4::Deserialize(reader)`: the node returned and the reader afterwards. -/
def Node4.Deserialize (reader : MetaBlockReader) : Except Fault (Node × MetaBlockReader) :=
  match reader.Read 2 with
  | .error e => .error e
  | .ok (count, reader) =>
    match reader.Read 4 with
    | .error e => .error e
    | .ok (prefix_length, reader) =>
      let node4 := Node4.create prefix_length
      let node4 := node4.setCount count
      match Node4.Deserialize.readPrefix prefix_length 0 node4 reader with
      | .error e => .error e
      | .ok (node4, reader) =>
        match Node4.Deserialize.readKeys 4 0 node4 reader with
        | .error e => .error e
        | .ok (node4, reader) => Node4.Deserialize.readOffsets 4 0 node4 reader

/-- Modelled from the spec: `Node::Deserialize(art, block_id, offset)` (node.cpp is not
among the sources) opens a reader on the block, seeks to the offset, reads the tag and
hands the reader to the `Deserialize` of that variant; for the variants other than Node4
that is the parameter `other`. -/
def Node.Deserialize (other : Nat → MetaBlockReader → Except Fault Node) (art : ART)
    (block_id offset : Nat) : Except Fault Node :=
  match (MetaBlockReader.mk (art.blocks block_id) offset).Read 1 with
  | .error e => .error e
  | .ok (tag, reader) =>
    if tag = NodeType.N4.toByte then
      match Node4.Deserialize reader with
      | .error e => .error e
      | .ok (node4, _) => .ok node4
    else other tag reader

/-- `Node4::GetChild(art, pos)`: the node afterwards and the child in the slot the
returned pointer refers to. -/
def Node4.GetChild (other : Nat → MetaBlockReader → Except Fault Node) (art : ART)
    (n : Node) (pos : Nat) : Except Fault (Node × Node) :=
  if ¬ (pos < n.count) then .error .assertion_failure
  else
    match n.childAt pos with
    | some c => .ok (n, c)
    | none =>
      match Node.Deserialize other art (n.offsetAt pos).1 (n.offsetAt pos).2 with
      | .error e => .error e
      | .ok c => .ok (n.setChild pos (some c), c)

/-! ## Node graphs -/

mutual
/-- What structural equality of two node graphs compares: tag, count, prefix length,
prefix bytes, keys and, recursively, the children; the block offsets are left out. -/
def Node.shape : Node → Node
  | .mk t cnt pl p k ch _ => .mk t cnt pl p k (Node.shape.children ch) []
/-- The shapes of the children of a node. -/
def Node.shape.children : List (Option Node) → List (Option Node)
  | [] => []
  | none :: rest => none :: Node.shape.children rest
  | some c :: rest => some (Node.shape c) :: Node.shape.children rest
end

mutual
/-- The height of a node graph. -/
def Node.depth : Node → Nat
  | .mk _ _ _ _ _ ch _ => Node.depth.children ch + 1
/-- The largest height among the children of a node. -/
def Node.depth.children : List (Option Node) → Nat
  | [] => 0
  | none :: rest => Node.depth.children rest
  | some c :: rest => max (Node.depth c) (Node.depth.children rest)
end

mutual
/-- A graph of Node4 nodes as it is built in memory: every node is a Node4 with at most 4
children, `prefix_length` is the length of its prefix buffer and fits a `uint32_t`, prefix
and key bytes are bytes, the occupied slots hold materialized children that are such graphs
themselves, and the slots from `count` on are null. -/
def Node.IsNode4Graph : Node → Prop
  | .mk t cnt pl p k ch bo =>
    t = .N4 ∧ cnt ≤ 4 ∧ pl = p.length ∧ pl < 4294967296 ∧ (∀ b, b ∈ p → b < 256) ∧
    k.length = 4 ∧ (∀ b, b ∈ k → b < 256) ∧ ch.length = 4 ∧ bo.length = 4 ∧
    Node.IsNode4Graph.children cnt ch
/-- The first `cnt` slots hold Node4 graphs and the others are null. -/
def Node.IsNode4Graph.children : Nat → List (Option Node) → Prop
  | _, [] => True
  | 0, none :: rest => Node.IsNode4Graph.children 0 rest
  | 0, some _ :: _ => False
  | _ + 1, none :: _ => False
  | cnt + 1, some c :: rest => Node.IsNode4Graph c ∧ Node.IsNode4Graph.children cnt rest
end

/-- The loop that forces the children at the positions `pos, pos + 1, ...` of a Node4:
`GetChild` materializes the child, `force` materializes what is below it, in the slot.
`none` stands for a recursion that ran out of fuel. -/
def Node.forceAll.loop (other : Nat → MetaBlockReader → Except Fault Node) (art : ART)
    (force : Node → Option (Except Fault Node)) :
    Nat → Nat → Node → Option (Except Fault Node)
  | 0, _, n => some (.ok n)
  | left + 1, pos, n =>
    match Node4.GetChild other art n pos with
    | .error e => some (.error e)
    | .ok (n, c) =>
      match force c with
      | none => none
      | some (.error e) => some (.error e)
      | some (.ok c) => Node.forceAll.loop other art force left (pos + 1) (n.setChild pos (some c))

/-- Forcing the materialization of every child of a graph of Node4 nodes, to the depth
`fuel`: `GetChild` at every position below `count`, then the same below each child. A node
of another variant, whose `GetChild` is not among the sources, is left as it is. -/
def Node.forceAll (other : Nat → MetaBlockReader → Except Fault Node) (art : ART) :
    Nat → Node → Option (Except Fault Node)
  | 0, _ => none
  | fuel + 1, n =>
    if n.type = .N4 then
      Node.forceAll.loop other art (Node.forceAll other art fuel) n.count 0 n
    else some (.ok n)

/-- Deserializing the graph at an address: `Node::Deserialize`, then every child forced. -/
def Node.loadAll (other : Nat → MetaBlockReader → Except Fault Node) (art : ART) (fuel : Nat)
    (block_id offset : Nat) : Option (Except Fault Node) :=
  match Node.Deserialize other art block_id offset with
  | .error e => some (.error e)
  | .ok n => Node.forceAll other art fuel n

/-- The store that holds what a writer wrote: the writer's block under its id. -/
def MetaBlockWriter.store (w : MetaBlockWriter) : ART :=
  ⟨fun block_id => if block_id = w.block_id then w.data else []⟩

/-- A Node4 graph of height 2 for the examples: a Node4 with prefix 7 over two Node4
nodes without children, under the bytes 0x10 and 0x20. -/
def exampleGraph : Node :=
  .mk .N4 2 1 [7] [0x10, 0x20, 0, 0]
    [some (.mk .N4 0 0 [] [0, 0, 0, 0] [none, none, none, none] [(0, 0), (0, 0), (0, 0), (0, 0)]),
      some (.mk .N4 0 2 [1, 2] [0, 0, 0, 0] [none, none, none, none]
        [(0, 0), (0, 0), (0, 0), (0, 0)]),
      none, none]
    [(0, 0), (0, 0), (0, 0), (0, 0)]

/-- The `width` bytes of a block from offset `o` on. -/
def window (data : List Nat) (o width : Nat) : List Nat := (data.drop o).take width

/-- The values a run of `(first, second)` pairs of `idx_t` decodes to. -/
def decodePairs : List Nat → Nat → List (Nat × Nat)
  | _, 0 => []
  | bytes, k + 1 =>
    (fromBytes (bytes.take 8), fromBytes ((bytes.drop 8).take 8)) ::
      decodePairs (bytes.drop 16) k

/-- An array after the values `vs` were assigned to the slots `i, i + 1, ...` in turn. -/
def writeFrom {α : Type} : List α → Nat → List α → List α
  | buf, _, [] => buf
  | buf, i, v :: vs => writeFrom (arrSet buf i v) (i + 1) vs

/-- The bytes of the record `Node4::Serialize` appends for the node itself, given the
child offsets it collected. -/
def Node4.recordBytes (n : Node) (child_offsets : List (Nat × Nat)) : List Nat :=
  toBytes 1 n.type.toByte ++ (toBytes 2 n.count ++ (toBytes 4 n.prefix_length ++
    ((List.range n.prefix_length).flatMap (fun i => toBytes 1 (arrGet n.prefix_bytes i 0)) ++
      (n.key.flatMap (fun key_v => toBytes 1 key_v) ++
        child_offsets.flatMap (fun offsets => toBytes 8 offsets.1 ++ toBytes 8 offsets.2)))))

/-- The node `Node4::Deserialize` returns for a record: the fields of the record, no
child. -/
def Node4.lazyNode (n : Node) (child_offsets : List (Nat × Nat)) : Node :=
  .mk .N4 n.count n.prefix_length n.prefix_bytes n.key [none, none, none, none] child_offsets

/-- The layout of a Node4 object: its tag and its three arrays of four slots. -/
structure Node4.Layout (n : Node) : Prop where
  type_eq : n.type = .N4
  key_len : n.key.length = 4
  child_len : n.child.length = 4
  offsets_len : n.block_offsets.length = 4

/-- The positions a forward iteration visits: `GetNextPos` is applied again and again,
first to `pos`, until it returns the end sentinel or `fuel` calls were made. -/
def Node4.scan (n : Node) : Nat → Nat → List Nat
  | 0, _ => []
  | fuel + 1, pos =>
    if Node4.GetNextPos n pos = INVALID_INDEX then []
    else Node4.GetNextPos n pos :: Node4.scan n fuel (Node4.GetNextPos n pos)

/-- The nodes a slot holds while it still holds the Node4 that was constructed empty in
it: the empty Node4, then what `Insert` of a child under a byte not yet present leaves
while the node is below capacity (at capacity the slot gets a Node16), and what `Erase` at
a valid position leaves unless a single child remains (then the slot gets that child). -/
inductive Node4.Reachable (node16Insert : Node → Nat → Option Node → Node) : Node → Prop where
  | empty (compression_length : Nat) : Node4.Reachable node16Insert (Node4.create compression_length)
  | insert (n : Node) (k : Nat) (c : Node) :
      Node4.Reachable node16Insert n → n.count < 4 → k ∉ n.liveKeys →
      Node4.Reachable node16Insert (Node4.Insert node16Insert n k (some c))
  | erase (n : Node) (pos : Nat) (n1 : Node) :
      Node4.Reachable node16Insert n → pos < n.count → n.count - 1 ≠ 1 →
      Node4.Erase n (pos : Int) = .ok n1 → Node4.Reachable node16Insert n1

/-- A leaf with the given prefix, for the examples. -/
def exampleLeaf (p : List Nat) : Node := .mk .NLeaf 0 p.length p [] [] []

/-- The Node4 of the collapse example of the specification: empty prefix, leaf A (empty
prefix) under 0x10 and leaf B (prefix 0x05) under 0x20. -/
def exampleNode4 : Node :=
  .mk .N4 2 0 [] [0x10, 0x20, 0, 0] [some (exampleLeaf []), some (exampleLeaf [0x05]), none, none]
    [(0, 0), (0, 0), (0, 0), (0, 0)]

/-- A Node4 at capacity, for the examples: leaves under 1, 2, 3 and 4. -/
def exampleFullNode4 : Node :=
  .mk .N4 4 1 [9] [1, 2, 3, 4]
    [some (exampleLeaf []), some (exampleLeaf [1]), some (exampleLeaf [2]),
      some (exampleLeaf [3])]
    [(0, 0), (0, 0), (0, 0), (0, 0)]

/-- A Node4 as `Node4::Deserialize` returns it, for the examples: three children known only
by their block offsets, under the bytes 0x10, 0x20 and 0x30, and an unused fourth slot. -/
def exampleLazyNode4 : Node :=
  .mk .N4 3 0 [] [0x10, 0x20, 0x30, 0] [none, none, none, none]
    [(3, 8), (3, 83), (3, 160), (INVALID_INDEX, INVALID_INDEX)]

/-- A record with a corrupt header, for the examples: what follows the tag says count 5
and prefix length 0, then come 4 key bytes and 4 invalid offset pairs. -/
def exampleCorruptRecord : List Nat :=
  [5, 0, 0, 0, 0, 0, 1, 2, 3, 4] ++ List.replicate 64 255

/-- A Node4 as `Node4::Deserialize` returns it, for the examples: two children known only
by their block offsets, under the bytes 0x10 and 0x20. -/
def exampleLazyPair : Node :=
  .mk .N4 2 0 [] [0x10, 0x20, 0, 0] [none, none, none, none]
    [(3, 8), (3, 83), (INVALID_INDEX, INVALID_INDEX), (INVALID_INDEX, INVALID_INDEX)]

/-! ## Streaming LEAD and LAG (physical_streaming_window.cpp)

A `Vector` is the list of its entries, an entry being the validity bit and the value of a
row. -/

/-- Modelled from the spec: `VectorOperations::Copy(source, target, source_count,
source_offset, target_offset)` is not among the sources, and the specification leaves the
window operators to their interface; the comments at its calls in `Execute` give its
meaning: the entries `source[source_offset, source_count)` go to `target` from
`target_offset` on. `junk` stands for what a read beyond the content of `source`
finds. -/
def VectorOperations.Copy {α : Type} (junk : α) (source target : List α)
    (source_count source_offset target_offset : Nat) : List α :=
  (List.range (source_count - source_offset)).foldl
    (fun t i => arrSet t (target_offset + i) (arrGet source (source_offset + i) junk)) target

/-- Modelled from the spec: `FlatVector::Validity(v).Reset()` (not among the sources) marks
every row of the vector valid. -/
def FlatVector.ValidityReset {V : Type} (v : List (Bool × V)) : List (Bool × V) :=
  v.map (fun e => (true, e.2))

namespace StreamingWindowState

/-- What `ComputeOffset` finds in `wexpr.offset_expr`: no expression, an expression that
has a parameter or is not foldable, or a constant that is NULL, that does not cast to
BIGINT, or that is a 64-bit integer `v` (an `int64_t`: `-2^63 ≤ v < 2^63`). -/
inductive OffsetExpr where
  | absent
  | not_constant
  | null
  | no_bigint
  | value (v : Int)

/-- The state of a streaming LEAD or LAG: the constant offset, the number of buffered
rows, the constant default, and the vectors `curr`, `prev` and `temp`. -/
structure LeadLagState (V : Type) where
  offset : Int
  buffered : Nat
  dflt : Bool × V
  curr : List (Bool × V)
  prev : List (Bool × V)
  temp : List (Bool × V)

namespace LeadLagState

/-- The value an `int64_t` holds after an operation whose exact result is `v`: `v` within
the range of the type, and the two's-complement wrap-around beyond it. -/
def int64 (v : Int) : Int :=
  (v + 9223372036854775808) % 18446744073709551616 - 9223372036854775808

/-- The end of `ComputeOffset`: a LEAD negates the `int64_t` offset (the negation of the
least `int64_t` wraps around to itself), and the offset is supported when it is at least 0
and below `MAX_BUFFER`. -/
def ComputeOffset.finish (MAX_BUFFER : Nat) (is_lead : Bool) (offset : Int) : Bool × Int :=
  let offset := if is_lead then int64 (-offset) else offset
  (decide (0 ≤ offset ∧ offset.toNat < MAX_BUFFER), offset)

/-- `LeadLagState::ComputeOffset(context, wexpr, offset)`: what it returns and the offset
it leaves. `MAX_BUFFER` is `STANDARD_VECTOR_SIZE`, a constant that is not among the
sources. -/
def ComputeOffset (MAX_BUFFER : Nat) (offset_expr : OffsetExpr) (is_lead : Bool) : Bool × Int :=
  match offset_expr with
  | .absent => ComputeOffset.finish MAX_BUFFER is_lead 1
  | .not_constant => (false, 1)
  | .null => (false, 1)
  | .no_bigint => (false, 1)
  | .value v => ComputeOffset.finish MAX_BUFFER is_lead v

/-- The constructor `LeadLagState(context, wexpr)` for the offset and the default that
`ComputeOffset` and `ComputeDefault` leave: `buffered` rows of the default in `prev`
(`Reference`, `Flatten`), and a `temp` of `buffered` rows. `idx_t(offset)` is the offset
as an unsigned 64-bit number. -/
def create {V : Type} (junk : Bool × V) (offset : Int) (dflt : Bool × V) : LeadLagState V :=
  let buffered := (offset % 18446744073709551616).toNat
  ⟨offset, buffered, dflt, [], List.replicate buffered dflt, List.replicate buffered junk⟩

/-- `LeadLagState::Execute(context, input, result)`: the state and the result vector
afterwards. `input` is the column `executor.ExecuteExpression(input, curr)` computes,
one entry for each of the `input.size()` rows. -/
def Execute {V : Type} (junk : Bool × V) (s : LeadLagState V) (input : List (Bool × V))
    (result : List (Bool × V)) : LeadLagState V × List (Bool × V) :=
  let curr := input
  let count := input.length
  let source_count := min s.buffered count
  let result := VectorOperations.Copy junk s.prev result source_count 0 0
  if count < s.buffered then
    let source_count := s.buffered - count
    let temp := FlatVector.ValidityReset s.temp
    let temp := VectorOperations.Copy junk s.prev temp s.buffered source_count 0
    let prev := FlatVector.ValidityReset s.prev
    let prev := VectorOperations.Copy junk temp prev count 0 0
    let prev := VectorOperations.Copy junk curr prev source_count 0 count
    (⟨s.offset, s.buffered, s.dflt, curr, prev, temp⟩, result)
  else
    let source_count := count - s.buffered
    let result := VectorOperations.Copy junk curr result source_count 0 s.buffered
    let prev := FlatVector.ValidityReset s.prev
    let prev := VectorOperations.Copy junk curr prev count source_count 0
    (⟨s.offset, s.buffered, s.dflt, curr, prev, s.temp⟩, result)

/-- The results of `Execute` over the chunks of a stream, one after the other; each chunk
gets a result vector of its size. -/
def run {V : Type} (junk : Bool × V) : LeadLagState V → List (List (Bool × V)) →
    List (Bool × V)
  | _, [] => []
  | s, input :: rest =>
    (Execute junk s input (List.replicate input.length junk)).2 ++
      run junk (Execute junk s input (List.replicate input.length junk)).1 rest

end LeadLagState

end StreamingWindowState

/-- The input shifted by `n` rows: the default in the first `n` rows, then the input. -/
def shiftedBy {α : Type} (n : Nat) (d : α) (rows : List α) : List α :=
  (List.replicate n d ++ rows).take rows.length


/-- A Node4 built by `Insert` for the examples: an empty Node4 after the insertion of a
leaf under 0x20 and then of a leaf under 0x10, each with a `Node16::Insert` that is never
reached. -/
def exampleBuilt2 : Node :=
  Node4.Insert (fun n _ _ => n)
    (Node4.Insert (fun n _ _ => n) (Node4.create 0) 0x20 (some (exampleLeaf [2])))
    0x10 (some (exampleLeaf [1]))

/-- The Node4 `exampleBuilt2` after the insertion of a leaf under 0x30. -/
def exampleBuilt3 : Node :=
  Node4.Insert (fun n _ _ => n) exampleBuilt2 0x30 (some (exampleLeaf [3]))

/-- The Node4 `exampleBuilt3` after the insertion of a leaf under 0x18: a full Node4 with
the keys 0x10, 0x18, 0x20, 0x30. -/
def exampleBuilt4 : Node :=
  Node4.Insert (fun n _ _ => n) exampleBuilt3 0x18 (some (exampleLeaf [4]))

/-- The Node4 that `Erase` at position 1 leaves of `exampleBuilt4`: the keys 0x10, 0x20,
0x30, and the last key once more in the slot that is no longer used. -/
def exampleErased : Node :=
  .mk .N4 3 0 [] [0x10, 0x20, 0x30, 0x30]
    [some (exampleLeaf [1]), some (exampleLeaf [2]), some (exampleLeaf [3]), none]
    [(0, 0), (0, 0), (0, 0), (0, 0)]


/-! ## Graphs with nodes of other variants -/

/-- What the round trip of a graph needs of the `Serialize` and `Deserialize` of a node `c`
of another variant, which are not among the sources: `Serialize` appends to the block of
the writer and returns an address in it, and `Node::Deserialize` at that address, whatever
is appended to the block later, returns a node structurally equal to `c`. -/
def Node.Stored (other : Node → MetaBlockWriter → (Nat × Nat) × MetaBlockWriter)
    (otherD : Nat → MetaBlockReader → Except Fault Node) (c : Node) : Prop :=
  ∀ w : MetaBlockWriter,
    (other c w).2.block_id = w.block_id ∧
    (∃ bytes, (other c w).2.data = w.data ++ bytes) ∧
    (other c w).1.1 = w.block_id ∧
    (other c w).1.2 < (other c w).2.data.length ∧
    ∀ post art, art.blocks w.block_id = (other c w).2.data ++ post →
      ∃ c1, Node.Deserialize otherD art (other c w).1.1 (other c w).1.2 = .ok c1 ∧
        c1.shape = c.shape

mutual
/-- A node graph as it is built in memory, whatever the variants of the nodes below a
Node4: a Node4 holds at most 4 children, its `prefix_length` is the length of its prefix
buffer and fits a `uint32_t`, prefix and key bytes are bytes, the occupied slots hold
materialized children that are such graphs themselves, and the slots from `count` on are
null; a node of another variant is one that `other` and `otherD` store and give back. -/
def Node.IsGraph (other : Node → MetaBlockWriter → (Nat × Nat) × MetaBlockWriter)
    (otherD : Nat → MetaBlockReader → Except Fault Node) : Node → Prop
  | .mk t cnt pl p k ch bo =>
    (t = .N4 →
      cnt ≤ 4 ∧ pl = p.length ∧ pl < 4294967296 ∧ (∀ b, b ∈ p → b < 256) ∧
      k.length = 4 ∧ (∀ b, b ∈ k → b < 256) ∧ ch.length = 4 ∧ bo.length = 4 ∧
      Node.IsGraph.children other otherD cnt ch) ∧
    (t ≠ .N4 → Node.Stored other otherD (.mk t cnt pl p k ch bo))
/-- The first `cnt` slots hold graphs and the others are null. -/
def Node.IsGraph.children (other : Node → MetaBlockWriter → (Nat × Nat) × MetaBlockWriter)
    (otherD : Nat → MetaBlockReader → Except Fault Node) : Nat → List (Option Node) → Prop
  | _, [] => True
  | 0, none :: rest => Node.IsGraph.children other otherD 0 rest
  | 0, some _ :: _ => False
  | _ + 1, none :: _ => False
  | cnt + 1, some c :: rest =>
    Node.IsGraph other otherD c ∧ Node.IsGraph.children other otherD cnt rest
end

/-- A `Serialize` of leaves with a prefix of at most one byte, for the examples (the
`Serialize` of the other variants is not among the sources): it writes the tag, the prefix
length and the first prefix byte, a byte each, and returns where the tag is. -/
def exampleLeafSerialize (n : Node) (writer : MetaBlockWriter) :
    (Nat × Nat) × MetaBlockWriter :=
  ((writer.block_id, writer.offset),
    ((writer.Write 1 n.type.toByte).Write 1 n.prefix_length).Write 1
      (arrGet n.prefix_bytes 0 0))

/-- The `Deserialize` that reads what `exampleLeafSerialize` wrote after the tag. -/
def exampleLeafDeserialize (_tag : Nat) (reader : MetaBlockReader) : Except Fault Node :=
  match reader.Read 1 with
  | .error e => .error e
  | .ok (prefix_length, reader) =>
    match reader.Read 1 with
    | .error e => .error e
    | .ok (b, _) => .ok (exampleLeaf (if prefix_length = 0 then [] else [b]))

/-- A graph of height 3 for the examples: a Node4 with prefix 7 over the Node4 of the
collapse example, under 0x10, and over a leaf with prefix 9, under 0x20. -/
def exampleTree : Node :=
  .mk .N4 2 1 [7] [0x10, 0x20, 0, 0] [some exampleNode4, some (exampleLeaf [9]), none, none]
    [(0, 0), (0, 0), (0, 0), (0, 0)]


/-- A store for the examples: every block holds 8 bytes and then, at offset 8, the record
of a Node4 without children and without prefix. -/
def exampleStore : ART :=
  ⟨fun _ => List.replicate 8 0 ++ ([0, 0, 0, 0, 0, 0, 0, 0, 0, 0, 0] ++ List.replicate 64 255)⟩

end duckdb

/-! ## Theorems -/

namespace duckdb

/-! ### Reading a field after an assignment -/

namespace Node

@[simp] theorem type_setCount (n : Node) (v : Nat) : (n.setCount v).type = n.type := by
  cases n; rfl

@[simp] theorem count_setCount (n : Node) (v : Nat) : (n.setCount v).count = v := by
  cases n; rfl

@[simp] theorem prefix_length_setCount (n : Node) (v : Nat) : (n.setCount v).prefix_length = n.prefix_length := by
  cases n; rfl

@[simp] theorem prefix_bytes_setCount (n : Node) (v : Nat) : (n.setCount v).prefix_bytes = n.prefix_bytes := by
  cases n; rfl

@[simp] theorem key_setCount (n : Node) (v : Nat) : (n.setCount v).key = n.key := by
  cases n; rfl

@[simp] theorem child_setCount (n : Node) (v : Nat) : (n.setCount v).child = n.child := by
  cases n; rfl

@[simp] theorem block_offsets_setCount (n : Node) (v : Nat) : (n.setCount v).block_offsets = n.block_offsets := by
  cases n; rfl

@[simp] theorem type_setPrefixLength (n : Node) (v : Nat) : (n.setPrefixLength v).type = n.type := by
  cases n; rfl

@[simp] theorem count_setPrefixLength (n : Node) (v : Nat) : (n.setPrefixLength v).count = n.count := by
  cases n; rfl

@[simp] theorem prefix_length_setPrefixLength (n : Node) (v : Nat) : (n.setPrefixLength v).prefix_length = v := by
  cases n; rfl

@[simp] theorem prefix_bytes_setPrefixLength (n : Node) (v : Nat) : (n.setPrefixLength v).prefix_bytes = n.prefix_bytes := by
  cases n; rfl

@[simp] theorem key_setPrefixLength (n : Node) (v : Nat) : (n.setPrefixLength v).key = n.key := by
  cases n; rfl

@[simp] theorem child_setPrefixLength (n : Node) (v : Nat) : (n.setPrefixLength v).child = n.child := by
  cases n; rfl

@[simp] theorem block_offsets_setPrefixLength (n : Node) (v : Nat) : (n.setPrefixLength v).block_offsets = n.block_offsets := by
  cases n; rfl

@[simp] theorem type_setPrefixBytes (n : Node) (v : List Nat) : (n.setPrefixBytes v).type = n.type := by
  cases n; rfl

@[simp] theorem count_setPrefixBytes (n : Node) (v : List Nat) : (n.setPrefixBytes v).count = n.count := by
  cases n; rfl

@[simp] theorem prefix_length_setPrefixBytes (n : Node) (v : List Nat) : (n.setPrefixBytes v).prefix_length = n.prefix_length := by
  cases n; rfl

@[simp] theorem prefix_bytes_setPrefixBytes (n : Node) (v : List Nat) : (n.setPrefixBytes v).prefix_bytes = v := by
  cases n; rfl

@[simp] theorem key_setPrefixBytes (n : Node) (v : List Nat) : (n.setPrefixBytes v).key = n.key := by
  cases n; rfl

@[simp] theorem child_setPrefixBytes (n : Node) (v : List Nat) : (n.setPrefixBytes v).child = n.child := by
  cases n; rfl

@[simp] theorem block_offsets_setPrefixBytes (n : Node) (v : List Nat) : (n.setPrefixBytes v).block_offsets = n.block_offsets := by
  cases n; rfl

@[simp] theorem type_setKeys (n : Node) (v : List Nat) : (n.setKeys v).type = n.type := by
  cases n; rfl

@[simp] theorem count_setKeys (n : Node) (v : List Nat) : (n.setKeys v).count = n.count := by
  cases n; rfl

@[simp] theorem prefix_length_setKeys (n : Node) (v : List Nat) : (n.setKeys v).prefix_length = n.prefix_length := by
  cases n; rfl

@[simp] theorem prefix_bytes_setKeys (n : Node) (v : List Nat) : (n.setKeys v).prefix_bytes = n.prefix_bytes := by
  cases n; rfl

@[simp] theorem key_setKeys (n : Node) (v : List Nat) : (n.setKeys v).key = v := by
  cases n; rfl

@[simp] theorem child_setKeys (n : Node) (v : List Nat) : (n.setKeys v).child = n.child := by
  cases n; rfl

@[simp] theorem block_offsets_setKeys (n : Node) (v : List Nat) : (n.setKeys v).block_offsets = n.block_offsets := by
  cases n; rfl

@[simp] theorem type_setChildren (n : Node) (v : List (Option Node)) : (n.setChildren v).type = n.type := by
  cases n; rfl

@[simp] theorem count_setChildren (n : Node) (v : List (Option Node)) : (n.setChildren v).count = n.count := by
  cases n; rfl

@[simp] theorem prefix_length_setChildren (n : Node) (v : List (Option Node)) : (n.setChildren v).prefix_length = n.prefix_length := by
  cases n; rfl

@[simp] theorem prefix_bytes_setChildren (n : Node) (v : List (Option Node)) : (n.setChildren v).prefix_bytes = n.prefix_bytes := by
  cases n; rfl

@[simp] theorem key_setChildren (n : Node) (v : List (Option Node)) : (n.setChildren v).key = n.key := by
  cases n; rfl

@[simp] theorem child_setChildren (n : Node) (v : List (Option Node)) : (n.setChildren v).child = v := by
  cases n; rfl

@[simp] theorem block_offsets_setChildren (n : Node) (v : List (Option Node)) : (n.setChildren v).block_offsets = n.block_offsets := by
  cases n; rfl

@[simp] theorem type_setBlockOffsets (n : Node) (v : List (Nat × Nat)) : (n.setBlockOffsets v).type = n.type := by
  cases n; rfl

@[simp] theorem count_setBlockOffsets (n : Node) (v : List (Nat × Nat)) : (n.setBlockOffsets v).count = n.count := by
  cases n; rfl

@[simp] theorem prefix_length_setBlockOffsets (n : Node) (v : List (Nat × Nat)) : (n.setBlockOffsets v).prefix_length = n.prefix_length := by
  cases n; rfl

@[simp] theorem prefix_bytes_setBlockOffsets (n : Node) (v : List (Nat × Nat)) : (n.setBlockOffsets v).prefix_bytes = n.prefix_bytes := by
  cases n; rfl

@[simp] theorem key_setBlockOffsets (n : Node) (v : List (Nat × Nat)) : (n.setBlockOffsets v).key = n.key := by
  cases n; rfl

@[simp] theorem child_setBlockOffsets (n : Node) (v : List (Nat × Nat)) : (n.setBlockOffsets v).child = n.child := by
  cases n; rfl

@[simp] theorem block_offsets_setBlockOffsets (n : Node) (v : List (Nat × Nat)) : (n.setBlockOffsets v).block_offsets = v := by
  cases n; rfl

@[simp] theorem type_setKey (n : Node) (i v : Nat) : (n.setKey i v).type = n.type := by
  cases n; rfl

@[simp] theorem type_setChild (n : Node) (i : Nat) (v : Option Node) :
    (n.setChild i v).type = n.type := by
  cases n; rfl

@[simp] theorem count_setKey (n : Node) (i v : Nat) : (n.setKey i v).count = n.count := by
  cases n; rfl

@[simp] theorem count_setChild (n : Node) (i : Nat) (v : Option Node) :
    (n.setChild i v).count = n.count := by
  cases n; rfl

@[simp] theorem prefix_length_setKey (n : Node) (i v : Nat) : (n.setKey i v).prefix_length = n.prefix_length := by
  cases n; rfl

@[simp] theorem prefix_length_setChild (n : Node) (i : Nat) (v : Option Node) :
    (n.setChild i v).prefix_length = n.prefix_length := by
  cases n; rfl

@[simp] theorem prefix_bytes_setKey (n : Node) (i v : Nat) : (n.setKey i v).prefix_bytes = n.prefix_bytes := by
  cases n; rfl

@[simp] theorem prefix_bytes_setChild (n : Node) (i : Nat) (v : Option Node) :
    (n.setChild i v).prefix_bytes = n.prefix_bytes := by
  cases n; rfl

@[simp] theorem key_setChild (n : Node) (i : Nat) (v : Option Node) :
    (n.setChild i v).key = n.key := by
  cases n; rfl

@[simp] theorem child_setKey (n : Node) (i v : Nat) : (n.setKey i v).child = n.child := by
  cases n; rfl

@[simp] theorem block_offsets_setKey (n : Node) (i v : Nat) : (n.setKey i v).block_offsets = n.block_offsets := by
  cases n; rfl

@[simp] theorem block_offsets_setChild (n : Node) (i : Nat) (v : Option Node) :
    (n.setChild i v).block_offsets = n.block_offsets := by
  cases n; rfl

@[simp] theorem key_setKey (n : Node) (i v : Nat) : (n.setKey i v).key = n.key.set i v := by
  cases n; rfl

@[simp] theorem child_setChild (n : Node) (i : Nat) (v : Option Node) :
    (n.setChild i v).child = n.child.set i v := by
  cases n; rfl

theorem eta (n : Node) :
    n = .mk n.type n.count n.prefix_length n.prefix_bytes n.key n.child n.block_offsets := by
  cases n; rfl

end Node


/-! ### Live keys -/

theorem Node.liveKeys_length (n : Node) (h : n.count ≤ n.key.length) :
    n.liveKeys.length = n.count := by
  simp [Node.liveKeys, h]

theorem Node.keyAt_eq_getElem (n : Node) (i : Nat) (h : i < n.key.length) :
    n.keyAt i = n.key[i] := by
  simp [Node.keyAt, arrGet, List.getD_eq_getElem, h]

theorem Node.mem_liveKeys_iff (n : Node) (x : Nat) (h : n.count ≤ n.key.length) :
    x ∈ n.liveKeys ↔ ∃ i, i < n.count ∧ n.keyAt i = x := by
  constructor
  · intro hx
    obtain ⟨i, hi, rfl⟩ := List.mem_iff_getElem.mp hx
    have hi2 : i < n.count := by simpa [Node.liveKeys_length n h] using hi
    refine ⟨i, hi2, ?_⟩
    rw [Node.keyAt_eq_getElem n i (by omega)]
    simp [Node.liveKeys]
  · rintro ⟨i, hi, rfl⟩
    rw [Node.keyAt_eq_getElem n i (by omega)]
    apply List.mem_iff_getElem.mpr
    refine ⟨i, by simpa [Node.liveKeys_length n h] using hi, ?_⟩
    simp [Node.liveKeys]

/-! ### GetChildPos -/

theorem Node4.GetChildPos.scan_spec (n : Node) (k : Nat) (fuel pos : Nat) :
    (Node4.GetChildPos.loop n k fuel pos = INVALID_INDEX ∧
        ∀ i, pos ≤ i → i < pos + fuel → n.keyAt i ≠ k) ∨
    (pos ≤ Node4.GetChildPos.loop n k fuel pos ∧
        Node4.GetChildPos.loop n k fuel pos < pos + fuel ∧
        n.keyAt (Node4.GetChildPos.loop n k fuel pos) = k ∧
        ∀ i, pos ≤ i → i < Node4.GetChildPos.loop n k fuel pos → n.keyAt i ≠ k) := by
  induction fuel generalizing pos with
  | zero =>
    left
    exact ⟨rfl, fun i h1 h2 => by omega⟩
  | succ fuel ih =>
    unfold Node4.GetChildPos.loop
    by_cases hk : n.keyAt pos = k
    · right
      rw [if_pos hk]
      exact ⟨le_refl _, by omega, hk, fun i h1 h2 => by omega⟩
    · rw [if_neg hk]
      rcases ih (pos + 1) with ⟨h1, h2⟩ | ⟨h1, h2, h3, h4⟩
      · left
        refine ⟨h1, fun i hi1 hi2 => ?_⟩
        by_cases hip : i = pos
        · subst hip; exact hk
        · exact h2 i (by omega) (by omega)
      · right
        refine ⟨by omega, by omega, h3, fun i hi1 hi2 => ?_⟩
        by_cases hip : i = pos
        · subst hip; exact hk
        · exact h4 i (by omega) hi2

/-- C8: `Node4::GetChildPos(k)` returns a position below `count` holding `k` when `k` is
among the first `count` keys, and the not-found sentinel otherwise; whatever it returns
other than the sentinel is a position below `count`, so a stale byte in a slot at or
after `count` is never reported. -/
theorem Node4.GetChildPos_correct (n : Node) (k : Nat) (hl : Node4.Layout n)
    (hc : n.count ≤ 4) :
    (k ∈ n.liveKeys →
      Node4.GetChildPos n k < n.count ∧ n.keyAt (Node4.GetChildPos n k) = k) ∧
    (k ∉ n.liveKeys → Node4.GetChildPos n k = INVALID_INDEX) ∧
    (Node4.GetChildPos n k ≠ INVALID_INDEX → Node4.GetChildPos n k < n.count) := by
  have hlen : n.count ≤ n.key.length := by rw [hl.key_len]; exact hc
  have hinv : ¬ (INVALID_INDEX < n.count) := by unfold INVALID_INDEX; omega
  rw [Node.mem_liveKeys_iff n k hlen]
  unfold Node4.GetChildPos
  rcases Node4.GetChildPos.scan_spec n k n.count 0 with ⟨h1, h2⟩ | ⟨_, h2, h3, _⟩
  · refine ⟨?_, fun _ => h1, fun h => absurd h1 h⟩
    rintro ⟨i, hi, hik⟩
    exact absurd hik (h2 i (Nat.zero_le _) (by omega))
  · refine ⟨fun _ => ⟨by omega, h3⟩, fun h => ?_, fun _ => by omega⟩
    exact absurd ⟨_, by omega, h3⟩ h

/-- Witness of C8: a Node4 of count 2 with keys 3, 7 and the stale byte 9 in slot 2. -/
theorem Node4.GetChildPos_correct_witness :
    Node4.Layout (.mk .N4 2 0 [] [3, 7, 9, 0] [none, none, none, none]
        [(0, 0), (0, 0), (0, 0), (0, 0)]) ∧
    Node4.GetChildPos (.mk .N4 2 0 [] [3, 7, 9, 0] [none, none, none, none]
        [(0, 0), (0, 0), (0, 0), (0, 0)]) 9 = INVALID_INDEX :=
  ⟨⟨rfl, rfl, rfl, rfl⟩,
    (Node4.GetChildPos_correct (.mk .N4 2 0 [] [3, 7, 9, 0] [none, none, none, none]
        [(0, 0), (0, 0), (0, 0), (0, 0)]) 9 ⟨rfl, rfl, rfl, rfl⟩ (by decide)).2.1
      (by decide)⟩

/-! ### GetChildGreaterEqual -/

theorem Node4.GetChildGreaterEqual.lower_bound_spec (n : Node) (k : Nat) (equal : Bool)
    (fuel pos : Nat) :
    (Node4.GetChildGreaterEqual.loop n k equal fuel pos = (INVALID_INDEX, equal) ∧
        ∀ i, pos ≤ i → i < pos + fuel → n.keyAt i < k) ∨
    (pos ≤ (Node4.GetChildGreaterEqual.loop n k equal fuel pos).1 ∧
        (Node4.GetChildGreaterEqual.loop n k equal fuel pos).1 < pos + fuel ∧
        k ≤ n.keyAt (Node4.GetChildGreaterEqual.loop n k equal fuel pos).1 ∧
        ((Node4.GetChildGreaterEqual.loop n k equal fuel pos).2 = true ↔
          n.keyAt (Node4.GetChildGreaterEqual.loop n k equal fuel pos).1 = k) ∧
        ∀ i, pos ≤ i → i < (Node4.GetChildGreaterEqual.loop n k equal fuel pos).1 →
          n.keyAt i < k) := by
  induction fuel generalizing pos with
  | zero =>
    left
    exact ⟨rfl, fun i h1 h2 => by omega⟩
  | succ fuel ih =>
    unfold Node4.GetChildGreaterEqual.loop
    by_cases hk : n.keyAt pos ≥ k
    · right
      rw [if_pos hk]
      by_cases he : n.keyAt pos = k
      · rw [if_pos he]
        exact ⟨le_refl _, by simp, hk, by simp [he], fun i h1 h2 => by simp at h2; omega⟩
      · rw [if_neg he]
        exact ⟨le_refl _, by simp, hk, by simp [he], fun i h1 h2 => by simp at h2; omega⟩
    · rw [if_neg hk]
      rcases ih (pos + 1) with ⟨h1, h2⟩ | ⟨h1, h2, h3, h4, h5⟩
      · left
        refine ⟨h1, fun i hi1 hi2 => ?_⟩
        by_cases hip : i = pos
        · subst hip; omega
        · exact h2 i (by omega) (by omega)
      · right
        refine ⟨by omega, by omega, h3, h4, fun i hi1 hi2 => ?_⟩
        by_cases hip : i = pos
        · subst hip; omega
        · exact h5 i (by omega) hi2

/-- C7: on a Node4 whose first `count` keys are strictly ascending,
`Node4::GetChildGreaterEqual(k)` returns the position of the smallest key that is at least
`k` among the first `count` keys, with `equal` true exactly when that key is `k`; when no
such key exists it returns the not-found sentinel. -/
theorem Node4.GetChildGreaterEqual_correct (n : Node) (k : Nat) (equal : Bool)
    (hl : Node4.Layout n) (hc : n.count ≤ 4)
    (hs : n.liveKeys.Pairwise (fun a b => a < b)) :
    ((∃ x, x ∈ n.liveKeys ∧ k ≤ x) →
      (Node4.GetChildGreaterEqual n k equal).1 < n.count ∧
      k ≤ n.keyAt (Node4.GetChildGreaterEqual n k equal).1 ∧
      (∀ x, x ∈ n.liveKeys → k ≤ x → n.keyAt (Node4.GetChildGreaterEqual n k equal).1 ≤ x) ∧
      ((Node4.GetChildGreaterEqual n k equal).2 = true ↔
        n.keyAt (Node4.GetChildGreaterEqual n k equal).1 = k)) ∧
    ((∀ x, x ∈ n.liveKeys → x < k) →
      (Node4.GetChildGreaterEqual n k equal).1 = INVALID_INDEX) := by
  have hlen : n.count ≤ n.key.length := by rw [hl.key_len]; exact hc
  have hll := Node.liveKeys_length n hlen
  have hget : ∀ i (hi : i < n.count), n.keyAt i = n.liveKeys[i] := by
    intro i hi
    rw [Node.keyAt_eq_getElem n i (by omega)]
    simp [Node.liveKeys]
  unfold Node4.GetChildGreaterEqual
  rcases Node4.GetChildGreaterEqual.lower_bound_spec n k equal n.count 0 with
    ⟨h1, h2⟩ | ⟨_, h2, h3, h4, h5⟩
  · constructor
    · rintro ⟨x, hx, hkx⟩
      obtain ⟨i, hi, hix⟩ := (Node.mem_liveKeys_iff n x hlen).mp hx
      have := h2 i (Nat.zero_le _) (by omega)
      omega
    · intro _
      rw [h1]
  · constructor
    · intro _
      refine ⟨by omega, h3, ?_, h4⟩
      intro x hx hkx
      obtain ⟨i, hi, hix⟩ := (Node.mem_liveKeys_iff n x hlen).mp hx
      rcases Nat.lt_trichotomy i (Node4.GetChildGreaterEqual.loop n k equal n.count 0).1 with
        hlt | heq | hgt
      · have := h5 i (Nat.zero_le _) hlt
        omega
      · rw [← heq, hix]
      · have hp := List.pairwise_iff_getElem.mp hs
          (Node4.GetChildGreaterEqual.loop n k equal n.count 0).1 i (by omega) (by omega) hgt
        rw [← hget _ (by omega), ← hget i hi, hix] at hp
        omega
    · intro hall
      have hlast := hall (n.keyAt (Node4.GetChildGreaterEqual.loop n k equal n.count 0).1)
        ((Node.mem_liveKeys_iff n _ hlen).mpr ⟨_, by omega, rfl⟩)
      omega

/-- Witness of C7: the keys 0x05, 0x0A, 0x0F of the specification; `k = 0x08` gives
position 1 with `equal` false, `k = 0x0A` position 1 with `equal` true, `k = 0x10` the
sentinel. -/
theorem Node4.GetChildGreaterEqual_correct_witness :
    Node4.Layout (.mk .N4 3 0 [] [5, 10, 15, 0] [none, none, none, none]
        [(0, 0), (0, 0), (0, 0), (0, 0)]) ∧
    Node4.GetChildGreaterEqual (.mk .N4 3 0 [] [5, 10, 15, 0] [none, none, none, none]
        [(0, 0), (0, 0), (0, 0), (0, 0)]) 8 true = (1, false) ∧
    Node4.GetChildGreaterEqual (.mk .N4 3 0 [] [5, 10, 15, 0] [none, none, none, none]
        [(0, 0), (0, 0), (0, 0), (0, 0)]) 10 false = (1, true) ∧
    (Node4.GetChildGreaterEqual (.mk .N4 3 0 [] [5, 10, 15, 0] [none, none, none, none]
        [(0, 0), (0, 0), (0, 0), (0, 0)]) 16 false).1 = INVALID_INDEX :=
  ⟨⟨rfl, rfl, rfl, rfl⟩, by decide, by decide,
    (Node4.GetChildGreaterEqual_correct (.mk .N4 3 0 [] [5, 10, 15, 0]
        [none, none, none, none] [(0, 0), (0, 0), (0, 0), (0, 0)]) 16 false
      ⟨rfl, rfl, rfl, rfl⟩ (by decide) (by decide)).2 (by decide)⟩

/-! ### GetNextPos -/

theorem Node4.scan_from (n : Node) (hc : n.count ≤ 4) (fuel pos : Nat)
    (hp : pos < n.count) (hf : n.count - pos ≤ fuel) :
    Node4.scan n fuel pos = (List.range' (pos + 1) (n.count - (pos + 1))) := by
  induction fuel generalizing pos with
  | zero => omega
  | succ fuel ih =>
    have hpi : pos ≠ INVALID_INDEX := by unfold INVALID_INDEX; omega
    have hmod : (pos + 1) % 18446744073709551616 = pos + 1 := by omega
    unfold Node4.scan
    by_cases hnext : pos + 1 < n.count
    · have hg : Node4.GetNextPos n pos = pos + 1 := by
        simp [Node4.GetNextPos, hpi, hmod, hnext]
      have hne : pos + 1 ≠ INVALID_INDEX := by unfold INVALID_INDEX; omega
      rw [hg, if_neg hne, ih (pos + 1) hnext (by omega)]
      have : n.count - (pos + 1) = (n.count - (pos + 1 + 1)) + 1 := by omega
      rw [this, List.range'_succ]
    · have hg : Node4.GetNextPos n pos = INVALID_INDEX := by
        simp [Node4.GetNextPos, hpi, hmod, hnext]
      rw [hg, if_pos rfl]
      have : n.count - (pos + 1) = 0 := by omega
      rw [this]
      rfl

/-- On a Node4 with at least one child the forward iteration from the before-first
sentinel visits exactly the positions `0, ..., count - 1`, in that order, and then gets
the end sentinel. -/
theorem Node4.scan_nonempty (n : Node) (hc : n.count ≤ 4) (h0 : 0 < n.count) (fuel : Nat)
    (hf : n.count < fuel) :
    Node4.scan n fuel INVALID_INDEX = List.range n.count := by
  obtain ⟨fuel, rfl⟩ : ∃ f, fuel = f + 1 := ⟨fuel - 1, by omega⟩
  unfold Node4.scan
  have hg : Node4.GetNextPos n INVALID_INDEX = 0 := by simp [Node4.GetNextPos]
  have hne : (0 : Nat) ≠ INVALID_INDEX := by unfold INVALID_INDEX; omega
  rw [hg, if_neg hne, Node4.scan_from n hc fuel 0 h0 (by omega)]
  have : n.count = (n.count - (0 + 1)) + 1 := by omega
  conv_rhs => rw [this]
  rw [List.range_eq_range', List.range'_succ]

/-- C9: on a freshly constructed Node4, which has no child, `Node4::GetNextPos` applied to
the before-first sentinel returns position 0, which is not below `count`; the iteration
visits that unoccupied position before it gets the end sentinel. -/
theorem Node4.GetNextPos_empty :
    (Node4.create 0).count = 0 ∧
    Node4.GetNextPos (Node4.create 0) INVALID_INDEX = 0 ∧
    Node4.scan (Node4.create 0) 5 INVALID_INDEX = [0] := by
  refine ⟨rfl, by decide, by decide⟩

/-! ### Arrays -/

theorem arrGet_arrSet {α : Type} (a : List α) (i j : Nat) (v d : α) :
    arrGet (arrSet a i v) j d = if i = j ∧ i < a.length then v else arrGet a j d := by
  unfold arrGet arrSet
  simp only [List.getD_eq_getElem?_getD, List.getElem?_set]
  by_cases h : i = j
  · subst h
    by_cases h2 : i < a.length
    · simp [h2]
    · simp [h2, List.getElem?_eq_none (Nat.le_of_not_lt h2)]
  · simp [h]

@[simp] theorem arrSet_length {α : Type} (a : List α) (i : Nat) (v : α) :
    (arrSet a i v).length = a.length := by
  simp [arrSet]

theorem countP_lt_of_split (L : List Nat) (k p : Nat) (hp : p ≤ L.length)
    (h1 : ∀ j (_ : j < L.length), j < p → L[j] < k)
    (h2 : ∀ j (_ : j < L.length), p ≤ j → ¬ L[j] < k) :
    L.countP (fun a => decide (a < k)) = p := by
  conv_lhs => rw [← List.take_append_drop p L]
  rw [List.countP_append]
  have e1 : (L.take p).countP (fun a => decide (a < k)) = (L.take p).length := by
    rw [List.countP_eq_length]
    intro a ha
    obtain ⟨j, hj, rfl⟩ := List.mem_iff_getElem.mp ha
    simp only [List.length_take] at hj
    simp only [List.getElem_take, decide_eq_true_eq]
    exact h1 j (by omega) (by omega)
  have e2 : (L.drop p).countP (fun a => decide (a < k)) = 0 := by
    rw [List.countP_eq_zero]
    intro a ha
    obtain ⟨j, hj, rfl⟩ := List.mem_iff_getElem.mp ha
    simp only [List.length_drop] at hj
    simp only [List.getElem_drop, decide_eq_true_eq]
    exact h2 (p + j) (by omega) (by omega)
  rw [e1, e2, List.length_take]
  omega

theorem getElem?_insertAt {α : Type} (L : List α) (x : α) (p j : Nat) (hp : p ≤ L.length) :
    (L.take p ++ x :: L.drop p)[j]? =
      if j < p then L[j]? else if j = p then some x else L[j - 1]? := by
  have hlen : (L.take p).length = p := by simp [hp]
  by_cases h1 : j < p
  · rw [if_pos h1, List.getElem?_append_left (by omega), List.getElem?_take_of_lt h1]
  · rw [if_neg h1, List.getElem?_append_right (by omega), hlen]
    by_cases h2 : j = p
    · subst h2
      simp
    · rw [if_neg h2]
      obtain ⟨m, hm⟩ : ∃ m, j - p = m + 1 := ⟨j - p - 1, by omega⟩
      rw [hm, List.getElem?_cons_succ, List.getElem?_drop]
      congr 1
      omega

theorem getElem?_eraseAt {α : Type} (L : List α) (p j : Nat) :
    (L.eraseIdx p)[j]? = if j < p then L[j]? else L[j + 1]? := by
  rw [List.getElem?_eraseIdx]

/-! ### Slots of a node -/

namespace Node

theorem keyAt_setKey (n : Node) (i v j : Nat) :
    (n.setKey i v).keyAt j = if i = j ∧ i < n.key.length then v else n.keyAt j := by
  simp [keyAt, arrGet_arrSet, ← arrSet.eq_1]

theorem childAt_setChild (n : Node) (i j : Nat) (v : Option Node) :
    (n.setChild i v).childAt j = if i = j ∧ i < n.child.length then v else n.childAt j := by
  simp [childAt, arrGet_arrSet, ← arrSet.eq_1]

@[simp] theorem keyAt_setChild (n : Node) (i j : Nat) (v : Option Node) :
    (n.setChild i v).keyAt j = n.keyAt j := by
  simp [keyAt]

@[simp] theorem childAt_setKey (n : Node) (i v j : Nat) :
    (n.setKey i v).childAt j = n.childAt j := by
  simp [childAt]

@[simp] theorem keyAt_setCount (n : Node) (v j : Nat) : (n.setCount v).keyAt j = n.keyAt j := by
  simp [keyAt]

@[simp] theorem childAt_setCount (n : Node) (v j : Nat) :
    (n.setCount v).childAt j = n.childAt j := by
  simp [childAt]

theorem live_getElem? (n : Node) (j : Nat) (hk : n.count ≤ n.key.length)
    (hc : n.count ≤ n.child.length) :
    n.live[j]? = if j < n.count then some (n.keyAt j, n.childAt j) else none := by
  unfold live keyAt childAt arrGet
  by_cases h : j < n.count
  · rw [if_pos h, List.getElem?_eq_getElem (by simp; omega)]
    simp [List.getD_eq_getElem, show j < n.key.length by omega,
      show j < n.child.length by omega]
  · rw [if_neg h, List.getElem?_eq_none (by simp; omega)]

theorem live_length (n : Node) (hk : n.count ≤ n.key.length) (hc : n.count ≤ n.child.length) :
    n.live.length = n.count := by
  simp [live, hk, hc]

theorem liveKeys_getElem? (n : Node) (j : Nat) (hk : n.count ≤ n.key.length) :
    n.liveKeys[j]? = if j < n.count then some (n.keyAt j) else none := by
  unfold liveKeys keyAt arrGet
  by_cases h : j < n.count
  · rw [if_pos h, List.getElem?_eq_getElem (by simp; omega)]
    simp [List.getD_eq_getElem, show j < n.key.length by omega]
  · rw [if_neg h, List.getElem?_eq_none (by simp; omega)]

end Node

/-! ### Insert below capacity -/

namespace Node4

theorem Insert.findPos_spec (n : Node) (k : Nat) (fuel pos : Nat) (hf : n.count ≤ pos + fuel)
    (hp : pos ≤ n.count) :
    pos ≤ Insert.findPos n k fuel pos ∧ Insert.findPos n k fuel pos ≤ n.count ∧
    (∀ j, pos ≤ j → j < Insert.findPos n k fuel pos → n.keyAt j < k) ∧
    (Insert.findPos n k fuel pos < n.count → ¬ n.keyAt (Insert.findPos n k fuel pos) < k) := by
  induction fuel generalizing pos with
  | zero =>
    unfold Insert.findPos
    exact ⟨le_refl _, hp, fun j h1 h2 => by omega, fun h => by omega⟩
  | succ fuel ih =>
    unfold Insert.findPos
    by_cases hcond : pos < n.count ∧ n.keyAt pos < k
    · rw [if_pos hcond]
      obtain ⟨h1, h2, h3, h4⟩ := ih (pos + 1) (by omega) (by omega)
      refine ⟨by omega, h2, fun j hj1 hj2 => ?_, h4⟩
      by_cases hjp : j = pos
      · subst hjp; exact hcond.2
      · exact h3 j (by omega) hj2
    · rw [if_neg hcond]
      refine ⟨le_refl _, hp, fun j h1 h2 => by omega, fun h hlt => hcond ⟨h, hlt⟩⟩

theorem Insert.shift_of_le (pos i : Nat) (n : Node) (h : i ≤ pos) : Insert.shift pos i n = n := by
  cases i with
  | zero => rfl
  | succ i =>
    unfold Insert.shift
    rw [if_neg (by omega)]

theorem Insert.shift_right_fields (pos i : Nat) (n : Node) :
    (Insert.shift pos i n).type = n.type ∧ (Insert.shift pos i n).count = n.count ∧
    (Insert.shift pos i n).prefix_length = n.prefix_length ∧
    (Insert.shift pos i n).prefix_bytes = n.prefix_bytes ∧
    (Insert.shift pos i n).block_offsets = n.block_offsets ∧
    (Insert.shift pos i n).key.length = n.key.length ∧
    (Insert.shift pos i n).child.length = n.child.length := by
  induction i generalizing n with
  | zero => simp [Insert.shift]
  | succ i ih =>
    unfold Insert.shift
    by_cases h : i + 1 > pos
    · rw [if_pos h]
      obtain ⟨h1, h2, h3, h4, h5, h6, h7⟩ := ih
        (((n.setKey (i + 1) (n.keyAt i)).setChild (i + 1) (n.childAt i)).setChild i none)
      simp only [h1, h2, h3, h4, h5, h6, h7]
      simp
    · rw [if_neg h]
      simp

theorem Insert.shift_right_keyAt (pos i : Nat) (n : Node) (j : Nat) (hi : i < n.key.length) :
    (Insert.shift pos i n).keyAt j =
      if pos < j ∧ j ≤ i then n.keyAt (j - 1) else n.keyAt j := by
  induction i generalizing n with
  | zero =>
    unfold Insert.shift
    rw [if_neg (by omega)]
  | succ i ih =>
    unfold Insert.shift
    by_cases h : i + 1 > pos
    · rw [if_pos h, ih _ (by simpa using (by omega : i < n.key.length))]
      simp only [Node.keyAt_setChild, Node.keyAt_setKey]
      split_ifs <;> first | rfl | omega | (congr 1; omega)
    · rw [if_neg h, if_neg (by omega)]

theorem Insert.shift_right_childAt (pos i : Nat) (n : Node) (j : Nat) (hi : i < n.child.length) :
    (Insert.shift pos i n).childAt j =
      if pos < j ∧ j ≤ i then n.childAt (j - 1)
      else if j = pos ∧ pos < i then none else n.childAt j := by
  induction i generalizing n with
  | zero =>
    unfold Insert.shift
    rw [if_neg (by omega), if_neg (by omega)]
  | succ i ih =>
    unfold Insert.shift
    by_cases h : i + 1 > pos
    · rw [if_pos h, ih _ (by simpa using (by omega : i < n.child.length))]
      simp only [Node.childAt_setChild, Node.childAt_setKey, Node.child_setChild,
        Node.child_setKey, List.length_set]
      split_ifs <;> first | rfl | omega | (congr 1; omega)
    · rw [if_neg h, if_neg (by omega), if_neg (by omega)]

theorem Insert.place_slots (n : Node) (k : Nat) (c : Option Node)
    (hk4 : n.count < n.key.length) (hc4 : n.count < n.child.length)
    (hm : ∀ i, i < n.count → (n.childAt i).isSome = true) :
    (Insert.place n k c).count = (n.count + 1) % 65536 ∧
    (∀ j, (Insert.place n k c).keyAt j =
      if j = Insert.findPos n k n.count 0 then k
      else if Insert.findPos n k n.count 0 < j ∧ j ≤ n.count then n.keyAt (j - 1)
      else n.keyAt j) ∧
    (∀ j, (Insert.place n k c).childAt j =
      if j = Insert.findPos n k n.count 0 then c
      else if Insert.findPos n k n.count 0 < j ∧ j ≤ n.count then n.childAt (j - 1)
      else n.childAt j) ∧
    (Insert.place n k c).type = n.type ∧
    (Insert.place n k c).prefix_length = n.prefix_length ∧
    (Insert.place n k c).prefix_bytes = n.prefix_bytes ∧
    (Insert.place n k c).block_offsets = n.block_offsets ∧
    (Insert.place n k c).key.length = n.key.length ∧
    (Insert.place n k c).child.length = n.child.length := by
  obtain ⟨hp1, hp2, -, -⟩ := Insert.findPos_spec n k n.count 0 (by omega) (Nat.zero_le _)
  have hn1 : (if (n.childAt (Insert.findPos n k n.count 0)).isSome then
      Insert.shift (Insert.findPos n k n.count 0) n.count n else n) =
      Insert.shift (Insert.findPos n k n.count 0) n.count n := by
    by_cases hg : (n.childAt (Insert.findPos n k n.count 0)).isSome = true
    · rw [if_pos hg]
    · rw [if_neg hg]
      have : ¬ Insert.findPos n k n.count 0 < n.count := fun h => hg (hm _ h)
      rw [Insert.shift_of_le _ _ _ (by omega)]
  obtain ⟨f1, f2, f3, f4, f5, f6, f7⟩ :=
    Insert.shift_right_fields (Insert.findPos n k n.count 0) n.count n
  unfold Insert.place
  simp only [hn1]
  refine ⟨by simp [f2], ?_, ?_, by simp [f1], by simp [f3], by simp [f4], by simp [f5],
    by simp [f6], by simp [f7]⟩
  · intro j
    simp only [Node.keyAt_setCount, Node.keyAt_setChild, Node.keyAt_setKey, f6,
      Insert.shift_right_keyAt _ _ _ _ hk4]
    split_ifs <;> first | rfl | omega
  · intro j
    simp only [Node.childAt_setCount, Node.childAt_setChild, Node.childAt_setKey,
      Node.child_setKey, f7, Insert.shift_right_childAt _ _ _ _ hc4]
    split_ifs <;> first | rfl | omega

/-- C1: on a Node4 with `count < 4`, strictly ascending live keys and materialized occupied
children, `Node4::Insert(k, c)` leaves a Node4 whose count is one more and whose live
`(key, child)` sequence is the old one with `(k, c)` put at the position equal to the
number of old keys below `k`; the old pairs all remain in their order, and the prefix is
as before. This holds for every byte `k`, in particular for one not among the live keys. -/
theorem Insert_below_capacity (node16Insert : Node → Nat → Option Node → Node) (n : Node)
    (k : Nat) (c : Option Node) (hl : Layout n) (hcount : n.count < 4)
    (hs : n.liveKeys.Pairwise (fun a b => a < b))
    (hm : ∀ i, i < n.count → (n.childAt i).isSome = true) :
    Layout (Insert node16Insert n k c) ∧
    (Insert node16Insert n k c).count = n.count + 1 ∧
    (Insert node16Insert n k c).live =
      n.live.take (n.liveKeys.countP (fun a => decide (a < k))) ++
        (k, c) :: n.live.drop (n.liveKeys.countP (fun a => decide (a < k))) ∧
    n.live.Sublist (Insert node16Insert n k c).live ∧
    (Insert node16Insert n k c).prefix_bytes = n.prefix_bytes ∧
    (Insert node16Insert n k c).prefix_length = n.prefix_length := by
  have hkl := hl.key_len
  have hcl := hl.child_len
  obtain ⟨g1, g2, g3, g4, g5, g6, g7, g8, g9⟩ :=
    Insert.place_slots n k c (by omega) (by omega) hm
  obtain ⟨-, hp2, hp3, hp4⟩ := Insert.findPos_spec n k n.count 0 (by omega) (Nat.zero_le _)
  have hII : Insert node16Insert n k c = Insert.place n k c := by
    unfold Insert
    rw [if_pos hcount]
  have hcnt : (Insert.place n k c).count = n.count + 1 := by rw [g1]; omega
  have hkget : ∀ j (h : j < n.liveKeys.length), n.liveKeys[j] = n.keyAt j := by
    intro j h
    have h2 : j < n.count := by simpa [Node.liveKeys_length n (by omega)] using h
    have := Node.liveKeys_getElem? n j (by omega)
    rw [if_pos h2, List.getElem?_eq_getElem h] at this
    exact Option.some.inj this
  have hpos : n.liveKeys.countP (fun a => decide (a < k)) = Insert.findPos n k n.count 0 := by
    apply countP_lt_of_split
    · rw [Node.liveKeys_length n (by omega)]; exact hp2
    · intro j hj hjp
      rw [hkget j hj]
      exact hp3 j (Nat.zero_le _) hjp
    · intro j hj hjp
      have hjc : j < n.count := by simpa [Node.liveKeys_length n (by omega)] using hj
      have hpc : Insert.findPos n k n.count 0 < n.count := by omega
      have hge := hp4 hpc
      rcases Nat.eq_or_lt_of_le hjp with heq | hlt
      · rw [hkget j hj, ← heq]; exact hge
      · have hpw := List.pairwise_iff_getElem.mp hs (Insert.findPos n k n.count 0) j
          (by rw [Node.liveKeys_length n (by omega)]; exact hpc) hj hlt
        have e1 := hkget j hj
        have e2 := hkget (Insert.findPos n k n.count 0)
          (by rw [Node.liveKeys_length n (by omega)]; exact hpc)
        omega
  have hlive : (Insert.place n k c).live =
      n.live.take (Insert.findPos n k n.count 0) ++
        (k, c) :: n.live.drop (Insert.findPos n k n.count 0) := by
    apply List.ext_getElem?
    intro j
    rw [getElem?_insertAt _ _ _ _ (by rw [Node.live_length n (by omega) (by omega)]; exact hp2),
      Node.live_getElem? _ _ (by omega) (by omega),
      Node.live_getElem? n _ (by omega) (by omega),
      Node.live_getElem? n _ (by omega) (by omega), hcnt, g2 j, g3 j]
    split_ifs <;> first | rfl | omega
  rw [hII, hpos]
  refine ⟨⟨by rw [g4]; exact hl.type_eq, by omega, by omega,
    by rw [g7]; exact hl.offsets_len⟩, hcnt, hlive, ?_, g6, g5⟩
  rw [hlive]
  conv_lhs => rw [← List.take_append_drop (Insert.findPos n k n.count 0) n.live]
  exact List.Sublist.append (List.Sublist.refl _) (List.sublist_cons_self _ _)

/-! ### Erase -/

theorem Erase.shift_left_fields (fuel pos : Nat) (n : Node) :
    (Erase.shift fuel pos n).type = n.type ∧ (Erase.shift fuel pos n).count = n.count ∧
    (Erase.shift fuel pos n).prefix_length = n.prefix_length ∧
    (Erase.shift fuel pos n).prefix_bytes = n.prefix_bytes ∧
    (Erase.shift fuel pos n).block_offsets = n.block_offsets ∧
    (Erase.shift fuel pos n).key.length = n.key.length ∧
    (Erase.shift fuel pos n).child.length = n.child.length := by
  induction fuel generalizing pos n with
  | zero => simp [Erase.shift]
  | succ fuel ih =>
    unfold Erase.shift
    by_cases h : pos < n.count
    · rw [if_pos h]
      obtain ⟨h1, h2, h3, h4, h5, h6, h7⟩ := ih (pos + 1)
        (((n.setKey pos (n.keyAt (pos + 1))).setChild pos (n.childAt (pos + 1))).setChild
          (pos + 1) none)
      simp only [h1, h2, h3, h4, h5, h6, h7]
      simp
    · rw [if_neg h]
      simp

theorem Erase.shift_left_keyAt (fuel pos : Nat) (n : Node) (j : Nat) (hf : n.count ≤ pos + fuel)
    (hlen : n.count < n.key.length) :
    (Erase.shift fuel pos n).keyAt j =
      if pos ≤ j ∧ j < n.count then n.keyAt (j + 1) else n.keyAt j := by
  induction fuel generalizing pos n with
  | zero =>
    unfold Erase.shift
    rw [if_neg (by omega)]
  | succ fuel ih =>
    unfold Erase.shift
    by_cases h : pos < n.count
    · rw [if_pos h, ih _ _ (by simpa using (by omega : n.count ≤ pos + 1 + fuel))
        (by simpa using hlen)]
      simp only [Node.keyAt_setChild, Node.keyAt_setKey, Node.count_setChild,
        Node.count_setKey]
      split_ifs <;> first | rfl | omega | (congr 1; omega)
    · rw [if_neg h, if_neg (by omega)]

theorem Erase.shift_left_childAt (fuel pos : Nat) (n : Node) (j : Nat) (hf : n.count ≤ pos + fuel)
    (hlen : n.count < n.child.length) :
    (Erase.shift fuel pos n).childAt j =
      if pos ≤ j ∧ j < n.count then n.childAt (j + 1)
      else if j = n.count ∧ pos < n.count then none else n.childAt j := by
  induction fuel generalizing pos n with
  | zero =>
    unfold Erase.shift
    rw [if_neg (by omega), if_neg (by omega)]
  | succ fuel ih =>
    unfold Erase.shift
    by_cases h : pos < n.count
    · rw [if_pos h, ih _ _ (by simpa using (by omega : n.count ≤ pos + 1 + fuel))
        (by simpa using hlen)]
      simp only [Node.childAt_setChild, Node.childAt_setKey, Node.child_setChild,
        Node.child_setKey, List.length_set, Node.count_setChild, Node.count_setKey]
      split_ifs <;> first | rfl | omega | (congr 1; omega)
    · rw [if_neg h, if_neg (by omega), if_neg (by omega)]

/-- The node `Erase` holds after the child was released, `count` decremented and the
entries shifted, before it looks whether a single child is left. -/
theorem Erase.shifted_slots (n : Node) (pos : Nat) (hk : n.count ≤ n.key.length)
    (hc : n.count ≤ n.child.length) (hcount : n.count ≤ 4) (hpos : pos < n.count) :
    (Erase.shift (n.count - 1 - pos) pos
        ((n.setChild pos none).setCount (n.count - 1))).count = n.count - 1 ∧
    (∀ j, j < n.count - 1 →
      (Erase.shift (n.count - 1 - pos) pos
        ((n.setChild pos none).setCount (n.count - 1))).keyAt j =
        if j < pos then n.keyAt j else n.keyAt (j + 1)) ∧
    (∀ j, j < n.count - 1 →
      (Erase.shift (n.count - 1 - pos) pos
        ((n.setChild pos none).setCount (n.count - 1))).childAt j =
        if j < pos then n.childAt j else n.childAt (j + 1)) := by
  obtain ⟨-, f2, -, -, -, -, -⟩ := Erase.shift_left_fields (n.count - 1 - pos) pos
    ((n.setChild pos none).setCount (n.count - 1))
  refine ⟨by simp [f2], ?_, ?_⟩
  · intro j hj
    rw [Erase.shift_left_keyAt _ _ _ _ (by simp; omega) (by simp; omega)]
    simp only [Node.keyAt_setCount, Node.keyAt_setChild, Node.count_setCount]
    split_ifs <;> first | rfl | omega
  · intro j hj
    rw [Erase.shift_left_childAt _ _ _ _ (by simp; omega) (by simp; omega)]
    simp only [Node.childAt_setCount, Node.childAt_setChild, Node.count_setCount]
    split_ifs <;> first | rfl | omega

/-- The steps of `Erase` before the collapse test, at a valid position. -/
theorem Erase_eq (n : Node) (pos : Nat) (hcount : n.count ≤ 4) (hpos : pos < n.count) :
    Erase n (pos : Int) =
      if (Erase.shift (n.count - 1 - pos) pos
          ((n.setChild pos none).setCount (n.count - 1))).count = 1 then
        match (Erase.shift (n.count - 1 - pos) pos
          ((n.setChild pos none).setCount (n.count - 1))).childAt 0 with
        | none => .error .null_dereference
        | some childref => .ok (Erase.collapse (Erase.shift (n.count - 1 - pos) pos
            ((n.setChild pos none).setCount (n.count - 1))) childref)
      else .ok (Erase.shift (n.count - 1 - pos) pos
          ((n.setChild pos none).setCount (n.count - 1))) := by
  unfold Erase
  have h1 : ((pos : Int) < (n.count : Int)) := by omega
  have h2 : ¬ ((pos : Int) < 0) := by omega
  have h3 : (n.count + 65535) % 65536 = n.count - 1 := by omega
  simp only [h1, not_true_eq_false, if_false, h2, Int.toNat_ofNat, Node.count_setChild, h3,
    Node.count_setCount]

/-- C4: on a Node4 with `count = n` and a position `pos < n` with `n - 1` other than 1,
`Node4::Erase(pos)` leaves the same Node4 in the slot with count `n - 1`, its live
`(key, child)` sequence being the old one without the entry at `pos`, the other entries in
their order, and the prefix as before. -/
theorem Erase_without_collapse (n : Node) (pos : Nat) (hl : Layout n) (hcount : n.count ≤ 4)
    (hpos : pos < n.count) (hne : n.count - 1 ≠ 1) :
    ∃ n1, Erase n (pos : Int) = .ok n1 ∧ Layout n1 ∧ n1.count = n.count - 1 ∧
      n1.live = n.live.eraseIdx pos ∧
      n1.prefix_bytes = n.prefix_bytes ∧ n1.prefix_length = n.prefix_length := by
  have hkl := hl.key_len
  have hcl := hl.child_len
  obtain ⟨s1, s2, s3⟩ := Erase.shifted_slots n pos (by omega) (by omega) hcount hpos
  obtain ⟨f1, -, f3, f4, f5, f6, f7⟩ := Erase.shift_left_fields (n.count - 1 - pos) pos
    ((n.setChild pos none).setCount (n.count - 1))
  refine ⟨_, ?_, ?_, s1, ?_, by rw [f4]; simp, by rw [f3]; simp⟩
  · rw [Erase_eq n pos hcount hpos, if_neg (by rw [s1]; exact hne)]
  · exact ⟨by rw [f1]; simpa using hl.type_eq, by rw [f6]; simpa using hkl,
      by rw [f7]; simpa using hcl, by rw [f5]; simpa using hl.offsets_len⟩
  · apply List.ext_getElem?
    intro j
    rw [getElem?_eraseAt, Node.live_getElem? _ _ (by rw [s1, f6]; simp; omega)
      (by rw [s1, f7]; simp; omega), Node.live_getElem? n _ (by omega) (by omega),
      Node.live_getElem? n _ (by omega) (by omega), s1]
    by_cases hj : j < n.count - 1
    · rw [if_pos hj, s2 j hj, s3 j hj]
      split_ifs <;> first | rfl | omega
    · rw [if_neg hj]
      split_ifs <;> first | rfl | omega

/-! ### The collapse of a node with a single child -/

theorem ext_arrGet (l1 l2 : List Nat) (hlen : l1.length = l2.length)
    (h : ∀ i, i < l1.length → arrGet l1 i 0 = arrGet l2 i 0) : l1 = l2 := by
  apply List.ext_getElem hlen
  intro i h1 h2
  have := h i h1
  simpa [arrGet, List.getD_eq_getElem, h1, h2] using this

theorem arrGet_insertMid (P C : List Nat) (x j : Nat) :
    arrGet (P ++ x :: C) j 0 =
      if j < P.length then arrGet P j 0
      else if j = P.length then x else arrGet C (j - P.length - 1) 0 := by
  unfold arrGet
  by_cases h1 : j < P.length
  · rw [if_pos h1, List.getD_append _ _ _ _ h1]
  · rw [if_neg h1, List.getD_append_right _ _ _ _ (by omega)]
    by_cases h2 : j = P.length
    · subst h2
      simp
    · rw [if_neg h2]
      obtain ⟨m, hm⟩ : ∃ m, j - P.length = m + 1 := ⟨j - P.length - 1, by omega⟩
      rw [hm]
      simp

theorem Erase.copyChild_fold (L cl : Nat) (src buf : List Nat) (m : Nat) (hm : m ≤ cl)
    (hcl : cl ≤ L) (hbuf : buf.length = L) :
    ((List.range m).foldl (fun b i => arrSet b (L - (i + 1)) (arrGet src (cl - (i + 1)) 0))
        buf).length = L ∧
    ∀ j, arrGet ((List.range m).foldl
        (fun b i => arrSet b (L - (i + 1)) (arrGet src (cl - (i + 1)) 0)) buf) j 0 =
      if L - m ≤ j ∧ j < L then arrGet src (j - (L - cl)) 0 else arrGet buf j 0 := by
  induction m with
  | zero =>
    refine ⟨by simpa using hbuf, fun j => ?_⟩
    rw [if_neg (by omega)]
    rfl
  | succ m ih =>
    obtain ⟨ih1, ih2⟩ := ih (by omega)
    rw [List.range_succ, List.foldl_append]
    refine ⟨by simpa using ih1, fun j => ?_⟩
    simp only [List.foldl_cons, List.foldl_nil, arrGet_arrSet, ih1, ih2]
    split_ifs <;> first | rfl | omega | (congr 1; omega)

theorem Erase.copyOld_fold (src buf : List Nat) (m : Nat) (hm : m ≤ buf.length) :
    ((List.range m).foldl (fun b i => arrSet b i (arrGet src i 0)) buf).length = buf.length ∧
    ∀ j, arrGet ((List.range m).foldl (fun b i => arrSet b i (arrGet src i 0)) buf) j 0 =
      if j < m then arrGet src j 0 else arrGet buf j 0 := by
  induction m with
  | zero =>
    refine ⟨rfl, fun j => ?_⟩
    rw [if_neg (by omega)]
    rfl
  | succ m ih =>
    obtain ⟨ih1, ih2⟩ := ih (by omega)
    rw [List.range_succ, List.foldl_append]
    refine ⟨by simpa using ih1, fun j => ?_⟩
    simp only [List.foldl_cons, List.foldl_nil, arrGet_arrSet, ih1, ih2]
    split_ifs <;> first | rfl | omega | (congr 1; omega)

theorem arrGet_replicate_zero (m j : Nat) : arrGet (List.replicate m 0) j 0 = 0 := by
  unfold arrGet
  by_cases h : j < m
  · rw [List.getD_eq_getElem _ _ (by simpa using h)]
    simp
  · rw [List.getD_eq_default _ _ (by simpa using (by omega : m ≤ j))]

/-- The fused prefix the collapse builds: the node's prefix, the byte of the surviving
child, the child's prefix. -/
theorem Erase.collapse_prefix (n childref : Node)
    (hn : n.prefix_length = n.prefix_bytes.length)
    (hc : childref.prefix_length = childref.prefix_bytes.length)
    (hno : n.prefix_length + childref.prefix_length + 1 < 4294967296) :
    (Erase.collapse n childref).prefix_bytes =
      n.prefix_bytes ++ n.keyAt 0 :: childref.prefix_bytes ∧
    (Erase.collapse n childref).prefix_length =
      n.prefix_length + 1 + childref.prefix_length := by
  have hmod : (n.prefix_length + childref.prefix_length + 1) % 4294967296 =
      n.prefix_length + childref.prefix_length + 1 := Nat.mod_eq_of_lt hno
  unfold Erase.collapse Erase.copyOldPrefix Erase.copyChildPrefix
  simp only [hmod, Node.prefix_bytes_setPrefixLength, Node.prefix_bytes_setPrefixBytes,
    Node.prefix_length_setPrefixLength]
  obtain ⟨a1, a2⟩ := Erase.copyChild_fold (n.prefix_length + childref.prefix_length + 1)
    childref.prefix_length childref.prefix_bytes
    (List.replicate (n.prefix_length + childref.prefix_length + 1) 0)
    childref.prefix_length (le_refl _) (by omega) (by simp)
  obtain ⟨b1, b2⟩ := Erase.copyOld_fold n.prefix_bytes
    (arrSet ((List.range childref.prefix_length).foldl
      (fun b i => arrSet b (n.prefix_length + childref.prefix_length + 1 - (i + 1))
        (arrGet childref.prefix_bytes (childref.prefix_length - (i + 1)) 0))
      (List.replicate (n.prefix_length + childref.prefix_length + 1) 0))
      n.prefix_length (n.keyAt 0)) n.prefix_length (by rw [arrSet_length, a1]; omega)
  refine ⟨?_, by omega⟩
  apply ext_arrGet
  · rw [b1, arrSet_length, a1]
    simp
    omega
  · intro j hj
    rw [b1, arrSet_length, a1] at hj
    rw [b2 j, arrGet_arrSet, a1, a2 j, arrGet_insertMid, arrGet_replicate_zero, ← hn]
    split_ifs <;> first | rfl | omega | (congr 1; omega)

/-- C2: on a Node4 with prefix `P` and exactly two materialized children, `Node4::Erase`
at position 0 or 1 puts the surviving child in the slot; its prefix is `P`, then the
byte that led to the surviving child, then the child's own prefix, its `prefix_length` is
`|P| + 1 +` the child's, and its tag, count, keys, children and block offsets are as they
were. The byte of the erased sibling is not in the fused prefix. -/
theorem Erase_collapse (n a b : Node) (pos : Nat) (hl : Layout n) (hcount : n.count = 2)
    (ha : n.childAt 0 = some a) (hb : n.childAt 1 = some b) (hpos : pos < 2)
    (hn : n.prefix_length = n.prefix_bytes.length)
    (hpa : a.prefix_length = a.prefix_bytes.length)
    (hpb : b.prefix_length = b.prefix_bytes.length)
    (hna : n.prefix_length + a.prefix_length + 1 < 4294967296)
    (hnb : n.prefix_length + b.prefix_length + 1 < 4294967296) :
    ∃ r, Erase n (pos : Int) = .ok r ∧
      r.prefix_bytes = n.prefix_bytes ++
        n.keyAt (1 - pos) :: (if pos = 0 then b else a).prefix_bytes ∧
      r.prefix_length = n.prefix_length + 1 + (if pos = 0 then b else a).prefix_length ∧
      r.type = (if pos = 0 then b else a).type ∧
      r.count = (if pos = 0 then b else a).count ∧
      r.key = (if pos = 0 then b else a).key ∧
      r.child = (if pos = 0 then b else a).child ∧
      r.block_offsets = (if pos = 0 then b else a).block_offsets := by
  have hkl := hl.key_len
  have hcl := hl.child_len
  obtain ⟨s1, s2, s3⟩ := Erase.shifted_slots n pos (by omega) (by omega) (by omega)
    (by omega)
  obtain ⟨-, -, f3, f4, -, -, -⟩ := Erase.shift_left_fields (n.count - 1 - pos) pos
    ((n.setChild pos none).setCount (n.count - 1))
  have hsurv : (Erase.shift (n.count - 1 - pos) pos
      ((n.setChild pos none).setCount (n.count - 1))).childAt 0 =
      some (if pos = 0 then b else a) := by
    rw [s3 0 (by omega)]
    by_cases hp : pos = 0
    · rw [if_neg (by omega), if_pos hp]; exact hb
    · rw [if_pos (by omega), if_neg hp]; exact ha
  have hkey : (Erase.shift (n.count - 1 - pos) pos
      ((n.setChild pos none).setCount (n.count - 1))).keyAt 0 = n.keyAt (1 - pos) := by
    rw [s2 0 (by omega)]
    by_cases hp : pos = 0
    · rw [if_neg (by omega), hp]
    · rw [if_pos (by omega)]
      congr 1
      omega
  have hpl : (Erase.shift (n.count - 1 - pos) pos
      ((n.setChild pos none).setCount (n.count - 1))).prefix_length = n.prefix_length := by
    rw [f3]; simp
  have hpb2 : (Erase.shift (n.count - 1 - pos) pos
      ((n.setChild pos none).setCount (n.count - 1))).prefix_bytes = n.prefix_bytes := by
    rw [f4]; simp
  have hsl : (if pos = 0 then b else a).prefix_length =
      (if pos = 0 then b else a).prefix_bytes.length := by
    split_ifs <;> assumption
  have hso : n.prefix_length + (if pos = 0 then b else a).prefix_length + 1 < 4294967296 := by
    split_ifs <;> assumption
  obtain ⟨c1, c2⟩ := Erase.collapse_prefix (Erase.shift (n.count - 1 - pos) pos
      ((n.setChild pos none).setCount (n.count - 1))) (if pos = 0 then b else a)
      (by rw [hpl, hpb2]; exact hn) hsl (by rw [hpl]; exact hso)
  refine ⟨Erase.collapse (Erase.shift (n.count - 1 - pos) pos
      ((n.setChild pos none).setCount (n.count - 1))) (if pos = 0 then b else a),
    ?_, ?_, ?_, ?_, ?_, ?_, ?_, ?_⟩
  · rw [Erase_eq n pos (by omega) (by omega), if_pos (by rw [s1]; omega), hsurv]
  · rw [c1, hpb2, hkey]
  · rw [c2, hpl]
  all_goals simp [Erase.collapse]

/-! ### Insert at capacity -/

theorem Insert.grow_eq (n : Node) :
    Insert.grow n =
      ((((n.setChild 0 none).setChild 1 none).setChild 2 none).setChild 3 none,
        ((((((((Node.CopyPrefix n ((Node16.create n.prefix_length).setCount 4)).setKey 0
          (n.keyAt 0)).setChild 0 (n.childAt 0)).setKey 1 (n.keyAt 1)).setChild 1
          (n.childAt 1)).setKey 2 (n.keyAt 2)).setChild 2 (n.childAt 2)).setKey 3
          (n.keyAt 3)).setChild 3 (n.childAt 3)) := by
  simp only [Insert.grow, Insert.copyLoop, Node.keyAt_setChild, Node.childAt_setChild]
  simp

theorem Insert.grow_base (n : Node) :
    (Node.CopyPrefix n ((Node16.create n.prefix_length).setCount 4)).type = .N16 ∧
    (Node.CopyPrefix n ((Node16.create n.prefix_length).setCount 4)).count = 4 ∧
    (Node.CopyPrefix n ((Node16.create n.prefix_length).setCount 4)).prefix_length =
      n.prefix_length ∧
    (Node.CopyPrefix n ((Node16.create n.prefix_length).setCount 4)).prefix_bytes =
      n.prefix_bytes.take n.prefix_length ++
        (List.replicate n.prefix_length 0).drop n.prefix_length ∧
    (Node.CopyPrefix n ((Node16.create n.prefix_length).setCount 4)).key.length = 16 ∧
    (Node.CopyPrefix n ((Node16.create n.prefix_length).setCount 4)).child.length = 16 :=
  ⟨rfl, rfl, rfl, rfl, rfl, rfl⟩

/-- C3: `Node4::Insert(k, c)` on a Node4 that holds 4 children hands `(k, c)` to
`Node16::Insert` on a Node16 that takes the slot and has the prefix bytes and
`prefix_length` of the Node4, count 4, and at every position below 4 the key and the
child of the Node4. The Node4 is released with its keys and count as they were and its
children moved out: the new entry is not written into it. -/
theorem Insert_at_capacity (node16Insert : Node → Nat → Option Node → Node) (n : Node)
    (k : Nat) (c : Option Node) (hl : Layout n) (hcount : n.count = 4)
    (hn : n.prefix_length = n.prefix_bytes.length) :
    Insert node16Insert n k c = node16Insert (Insert.grow n).2 k c ∧
    (Insert.grow n).2.type = .N16 ∧
    (Insert.grow n).2.count = 4 ∧
    (Insert.grow n).2.prefix_bytes = n.prefix_bytes ∧
    (Insert.grow n).2.prefix_length = n.prefix_length ∧
    (Insert.grow n).2.key.length = 16 ∧
    (Insert.grow n).2.child.length = 16 ∧
    (∀ i, i < 4 → (Insert.grow n).2.keyAt i = n.keyAt i ∧
      (Insert.grow n).2.childAt i = n.childAt i) ∧
    (Insert.grow n).1.key = n.key ∧
    (Insert.grow n).1.count = n.count ∧
    (∀ i, (Insert.grow n).1.childAt i = none) := by
  have hkl := hl.key_len
  have hcl := hl.child_len
  have hpre : n.prefix_bytes.take n.prefix_length ++
      (List.replicate n.prefix_length 0).drop n.prefix_length = n.prefix_bytes := by
    rw [hn]
    simp
  obtain ⟨b1, b2, b3, b4, b5, b6⟩ := Insert.grow_base n
  rw [Insert.grow_eq]
  refine ⟨?_, ?_, ?_, ?_, ?_, ?_, ?_, ?_, ?_, ?_, ?_⟩
  · unfold Insert
    rw [if_neg (by omega), Insert.grow_eq]
  · simpa using b1
  · simpa using b2
  · simp only [Node.prefix_bytes_setChild, Node.prefix_bytes_setKey]
    rw [b4, hpre]
  · simpa using b3
  · simpa using b5
  · simpa using b6
  · intro i hi
    simp only [Node.keyAt_setChild, Node.keyAt_setKey, Node.childAt_setChild,
      Node.childAt_setKey, Node.key_setKey, Node.key_setChild, Node.child_setKey,
      Node.child_setChild, List.length_set, b5, b6]
    interval_cases i <;> simp
  · simp
  · simp
  · intro i
    simp only [Node.childAt_setChild, Node.child_setChild, List.length_set, hcl]
    by_cases h4 : i < 4
    · interval_cases i <;> simp
    · have : n.childAt i = none := by
        unfold Node.childAt arrGet
        rw [List.getD_eq_default _ _ (by omega)]
      split_ifs <;> first | rfl | exact this

/-! ### The nodes reachable from the empty Node4 -/

theorem sorted_iff_keyAt (n : Node) (h : n.count ≤ n.key.length) :
    n.liveKeys.Pairwise (fun a b => a < b) ↔
      ∀ i j, i < j → j < n.count → n.keyAt i < n.keyAt j := by
  have hlen := Node.liveKeys_length n h
  have hget : ∀ j (hj : j < n.liveKeys.length), n.liveKeys[j] = n.keyAt j := by
    intro j hj
    have h2 : j < n.count := by rw [hlen] at hj; exact hj
    have := Node.liveKeys_getElem? n j h
    rw [if_pos h2, List.getElem?_eq_getElem hj] at this
    exact Option.some.inj this
  rw [List.pairwise_iff_getElem]
  constructor
  · intro hp i j hij hj
    have := hp i j (by omega) (by omega) hij
    rw [hget, hget] at this
    exact this
  · intro hp i j hi hj hij
    rw [hget, hget]
    exact hp i j hij (by omega)

/-- What every reachable node satisfies: it is laid out as a Node4, holds at most 4
children, its live keys ascend strictly and its occupied children are materialized. -/
theorem Reachable.invariant (node16Insert : Node → Nat → Option Node → Node) (n : Node)
    (h : Reachable node16Insert n) :
    Layout n ∧ n.count ≤ 4 ∧ (∀ i j, i < j → j < n.count → n.keyAt i < n.keyAt j) ∧
    (∀ i, i < n.count → (n.childAt i).isSome = true) := by
  induction h with
  | empty L =>
    refine ⟨⟨rfl, rfl, rfl, rfl⟩, by simp [create, Node.create, Node.count], ?_, ?_⟩
    · intro i j _ hj
      simp [create, Node.create, Node.count] at hj
    · intro i hi
      simp [create, Node.create, Node.count] at hi
  | insert n k c _ hcount hk ih =>
    obtain ⟨hl, -, hs, hm⟩ := ih
    have hkl := hl.key_len
    have hcl := hl.child_len
    obtain ⟨g1, g2, g3, g4, g5, g6, g7, g8, g9⟩ :=
      Insert.place_slots n k (some c) (by omega) (by omega) hm
    obtain ⟨-, hp2, hp3, hp4⟩ := Insert.findPos_spec n k n.count 0 (by omega) (Nat.zero_le _)
    have hII : Insert node16Insert n k (some c) = Insert.place n k (some c) := by
      unfold Insert
      rw [if_pos hcount]
    have hcnt : (Insert.place n k (some c)).count = n.count + 1 := by rw [g1]; omega
    have hnk : ∀ i, i < n.count → n.keyAt i ≠ k := by
      intro i hi he
      exact hk ((Node.mem_liveKeys_iff n k (by omega)).mpr ⟨i, hi, he⟩)
    rw [hII]
    refine ⟨⟨by rw [g4]; exact hl.type_eq, by omega, by omega,
      by rw [g7]; exact hl.offsets_len⟩, by omega, ?_, ?_⟩
    · intro i j hij hj
      rw [hcnt] at hj
      rw [g2 i, g2 j]
      have hge : ∀ x, Insert.findPos n k n.count 0 ≤ x → x < n.count → k < n.keyAt x := by
        intro x hx1 hx2
        have h1 := hp4 (by omega)
        have h2 := hnk x hx2
        rcases Nat.eq_or_lt_of_le hx1 with he | hlt
        · rw [← he]
          have := hnk _ (by omega : Insert.findPos n k n.count 0 < n.count)
          omega
        · have := hs _ x hlt hx2
          omega
      split_ifs with c1 c2 c3 c4 c5 c6 c7 c8
      all_goals first
        | omega
        | exact hp3 _ (Nat.zero_le _) (by omega)
        | exact hge _ (by omega) (by omega)
        | exact hs _ _ (by omega) (by omega)
    · intro i hi
      rw [hcnt] at hi
      rw [g3 i]
      split_ifs with c1 c2
      · rfl
      · exact hm _ (by omega)
      · exact hm _ (by omega)
  | erase n pos n1 _ hpos hne he ih =>
    obtain ⟨hl, hc4, hs, hm⟩ := ih
    have hkl := hl.key_len
    have hcl := hl.child_len
    obtain ⟨s1, s2, s3⟩ := Erase.shifted_slots n pos (by omega) (by omega) hc4 hpos
    obtain ⟨f1, -, f3, f4, f5, f6, f7⟩ := Erase.shift_left_fields (n.count - 1 - pos) pos
      ((n.setChild pos none).setCount (n.count - 1))
    rw [Erase_eq n pos hc4 hpos, if_neg (by rw [s1]; exact hne)] at he
    have he2 := Except.ok.inj he
    subst he2
    refine ⟨⟨by rw [f1]; simpa using hl.type_eq, by rw [f6]; simpa using hkl,
      by rw [f7]; simpa using hcl, by rw [f5]; simpa using hl.offsets_len⟩,
      by rw [s1]; omega, ?_, ?_⟩
    · intro i j hij hj
      rw [s1] at hj
      rw [s2 i (by omega), s2 j hj]
      split_ifs <;> first | omega | exact hs _ _ (by omega) (by omega)
    · intro i hi
      rw [s1] at hi
      rw [s3 i hi]
      split_ifs <;> exact hm _ (by omega)

/-- C5: every Node4 obtained from an empty Node4 by `Node4::Insert` calls with bytes not
already present and `Node4::Erase` calls at valid positions, for as long as the slot still
holds that Node4, has `key[i] < key[j]` for all positions `i < j < count`. -/
theorem Reachable.keys_ascending (node16Insert : Node → Nat → Option Node → Node) (n : Node)
    (h : Reachable node16Insert n) :
    n.type = .N4 ∧ n.liveKeys.Pairwise (fun a b => a < b) ∧
    ∀ i j, i < j → j < n.count → n.keyAt i < n.keyAt j := by
  obtain ⟨hl, hc, hs, -⟩ := Reachable.invariant node16Insert n h
  exact ⟨hl.type_eq, (sorted_iff_keyAt n (by rw [hl.key_len]; exact hc)).mpr hs, hs⟩

/-! ### Instances on the example nodes -/

/-- Witness of C1: 0x15 goes between 0x10 and 0x20. -/
theorem Insert_below_capacity_witness :
    Layout exampleNode4 ∧ exampleNode4.count < 4 ∧
    (Insert (fun n _ _ => n) exampleNode4 0x15 (some (exampleLeaf [7]))).live =
      [(0x10, some (exampleLeaf [])), (0x15, some (exampleLeaf [7])),
        (0x20, some (exampleLeaf [0x05]))] :=
  ⟨⟨rfl, rfl, rfl, rfl⟩, by decide,
    (Insert_below_capacity (fun n _ _ => n) exampleNode4 0x15 (some (exampleLeaf [7]))
      ⟨rfl, rfl, rfl, rfl⟩ (by decide) (by decide)
      (by intro i hi; have : i < 2 := hi; interval_cases i <;> rfl)).2.2.1⟩

/-- Witness of C2: the example of the specification; erasing position 0 (byte 0x10) leaves
leaf B with the prefix 0x20, 0x05. -/
theorem Erase_collapse_witness :
    Layout exampleNode4 ∧ exampleNode4.count = 2 ∧
    ∃ r, Erase exampleNode4 ((0 : Nat) : Int) = .ok r ∧ r.prefix_bytes = [0x20, 0x05] ∧
      r.prefix_length = 2 :=
  ⟨⟨rfl, rfl, rfl, rfl⟩, rfl,
    (Erase_collapse exampleNode4 (exampleLeaf []) (exampleLeaf [0x05]) 0 ⟨rfl, rfl, rfl, rfl⟩
      rfl rfl rfl (by decide) rfl rfl rfl (by decide) (by decide)).imp
      (fun _ h => ⟨h.1, h.2.1, h.2.2.1⟩)⟩

/-- Witness of C3: a fifth child for the full example node. -/
theorem Insert_at_capacity_witness :
    Layout exampleFullNode4 ∧ exampleFullNode4.count = 4 ∧
    (Insert.grow exampleFullNode4).2.prefix_bytes = [9] ∧
    (Insert.grow exampleFullNode4).1.key = [1, 2, 3, 4] :=
  ⟨⟨rfl, rfl, rfl, rfl⟩, rfl,
    (Insert_at_capacity (fun n _ _ => n) exampleFullNode4 7 (some (exampleLeaf []))
      ⟨rfl, rfl, rfl, rfl⟩ rfl rfl).2.2.2.1,
    (Insert_at_capacity (fun n _ _ => n) exampleFullNode4 7 (some (exampleLeaf []))
      ⟨rfl, rfl, rfl, rfl⟩ rfl rfl).2.2.2.2.2.2.2.2.1⟩

/-- Witness of C4: erasing position 1 of the full example node. -/
theorem Erase_without_collapse_witness :
    Layout exampleFullNode4 ∧ 1 < exampleFullNode4.count ∧
    ∃ n1, Erase exampleFullNode4 ((1 : Nat) : Int) = .ok n1 ∧ n1.count = 3 ∧
      n1.live = [(1, some (exampleLeaf [])), (3, some (exampleLeaf [2])),
        (4, some (exampleLeaf [3]))] :=
  ⟨⟨rfl, rfl, rfl, rfl⟩, by decide,
    (Erase_without_collapse exampleFullNode4 1 ⟨rfl, rfl, rfl, rfl⟩ (by decide) (by decide)
      (by decide)).imp (fun _ h => ⟨h.1, h.2.2.1, h.2.2.2.1⟩)⟩

theorem exampleBuilt2_reachable : Reachable (fun n _ _ => n) exampleBuilt2 :=
  Reachable.insert _ 0x10 (exampleLeaf [1])
    (Reachable.insert _ 0x20 (exampleLeaf [2]) (Reachable.empty 0) (by decide) (by decide))
    (by decide) (by decide)

theorem exampleBuilt3_reachable : Reachable (fun n _ _ => n) exampleBuilt3 :=
  Reachable.insert _ 0x30 (exampleLeaf [3]) exampleBuilt2_reachable (by decide) (by decide)

theorem exampleBuilt4_reachable : Reachable (fun n _ _ => n) exampleBuilt4 :=
  Reachable.insert _ 0x18 (exampleLeaf [4]) exampleBuilt3_reachable (by decide) (by decide)

theorem exampleErased_reachable : Reachable (fun n _ _ => n) exampleErased :=
  Reachable.erase exampleBuilt4 1 exampleErased exampleBuilt4_reachable (by decide) (by decide)
    rfl

/-- Witness of C5: leaves inserted under 0x20, 0x10, 0x30 and 0x18, in this order, then
the entry at position 1 erased: the keys 0x10, 0x20, 0x30 ascend. -/
theorem Reachable.keys_ascending_witness :
    Reachable (fun n _ _ => n) exampleErased ∧
    exampleBuilt4.liveKeys = [0x10, 0x18, 0x20, 0x30] ∧
    exampleErased.liveKeys = [0x10, 0x20, 0x30] ∧
    (exampleErased.type = .N4 ∧ exampleErased.liveKeys.Pairwise (fun a b => a < b) ∧
      ∀ i j, i < j → j < exampleErased.count → exampleErased.keyAt i < exampleErased.keyAt j) :=
  ⟨exampleErased_reachable, rfl, rfl,
    Reachable.keys_ascending (fun n _ _ => n) exampleErased exampleErased_reachable⟩

end Node4

/-! ### Bytes and readers -/

theorem toBytes_length (width v : Nat) : (toBytes width v).length = width := by
  induction width generalizing v with
  | zero => rfl
  | succ width ih => simp [toBytes, ih]

theorem fromBytes_toBytes (width v : Nat) : fromBytes (toBytes width v) = v % 256 ^ width := by
  induction width generalizing v with
  | zero => simp [toBytes, fromBytes, Nat.mod_one]
  | succ width ih =>
    simp only [toBytes, fromBytes, ih]
    rw [pow_succ, Nat.mul_comm (256 ^ width) 256, Nat.mod_mul]

theorem fromBytes_toBytes_of_lt (width v : Nat) (h : v < 256 ^ width) :
    fromBytes (toBytes width v) = v := by
  rw [fromBytes_toBytes, Nat.mod_eq_of_lt h]

theorem writeFrom_all {α : Type} (buf vs : List α) (h : buf.length = vs.length) :
    writeFrom buf 0 vs = vs := by
  have gen : ∀ (vs buf : List α) (i : Nat), i + vs.length = buf.length →
      writeFrom buf i vs = buf.take i ++ vs := by
    intro vs
    induction vs with
    | nil =>
      intro buf i hi
      simp only [List.length_nil, Nat.add_zero] at hi
      simp [writeFrom, hi]
    | cons v vs ih =>
      intro buf i hi
      simp only [List.length_cons] at hi
      rw [writeFrom, ih _ _ (by rw [arrSet_length]; omega)]
      unfold arrSet
      rw [List.take_succ, List.getElem?_set_self (by omega), List.set_take,
        List.set_eq_of_length_le (by simp)]
      simp
  rw [gen vs buf 0 (by omega)]
  simp

theorem window_succ (data : List Nat) (o width : Nat) (h : o < data.length) :
    window data o (width + 1) = data[o] :: window data (o + 1) width := by
  unfold window
  rw [List.drop_eq_getElem_cons h, List.take_succ_cons]

theorem window_length (data : List Nat) (o width : Nat) (h : o + width ≤ data.length) :
    (window data o width).length = width := by
  unfold window
  simp
  omega

theorem window_one (data : List Nat) (o : Nat) (h : o < data.length) :
    fromBytes (window data o 1) = data[o] := by
  rw [window_succ data o 0 h]
  simp [window, fromBytes]

theorem MetaBlockReader.Read_ok (data : List Nat) (o width : Nat) (h : o + width ≤ data.length) :
    (MetaBlockReader.mk data o).Read width =
      .ok (fromBytes (window data o width), ⟨data, o + width⟩) := by
  unfold MetaBlockReader.Read window
  rw [if_pos h]

theorem MetaBlockReader.Read_fail (data : List Nat) (o width : Nat)
    (h : ¬ o + width ≤ data.length) :
    (MetaBlockReader.mk data o).Read width = .error .read_failure := by
  unfold MetaBlockReader.Read
  rw [if_neg h]

/-! ### The loops of Deserialize -/

namespace Node4

theorem Deserialize.readPrefix_eq (fuel i : Nat) (n : Node) (data : List Nat) (o : Nat)
    (ho : o ≤ data.length) :
    Deserialize.readPrefix fuel i n ⟨data, o⟩ =
      if o + fuel ≤ data.length then
        .ok (n.setPrefixBytes (writeFrom n.prefix_bytes i (window data o fuel)),
          ⟨data, o + fuel⟩)
      else .error .read_failure := by
  induction fuel generalizing i n o with
  | zero =>
    unfold Deserialize.readPrefix
    rw [if_pos (by omega)]
    cases n
    simp [window, writeFrom, Node.setPrefixBytes, Node.prefix_bytes]
  | succ fuel ih =>
    unfold Deserialize.readPrefix
    by_cases h1 : o + 1 ≤ data.length
    · rw [MetaBlockReader.Read_ok data o 1 h1]
      simp only
      rw [ih _ _ _ (by omega), window_one data o (by omega),
        window_succ data o fuel (by omega)]
      by_cases h2 : o + (fuel + 1) ≤ data.length
      · rw [if_pos (by omega), if_pos h2]
        cases n
        simp [writeFrom, Node.setPrefixBytes, Node.prefix_bytes, Nat.add_assoc,
          Nat.add_comm 1 fuel]
      · rw [if_neg (by omega), if_neg h2]
    · rw [MetaBlockReader.Read_fail data o 1 h1, if_neg (by omega)]

theorem Deserialize.readKeys_eq (fuel i : Nat) (n : Node) (data : List Nat) (o : Nat)
    (ho : o ≤ data.length) :
    Deserialize.readKeys fuel i n ⟨data, o⟩ =
      if o + fuel ≤ data.length then
        .ok (n.setKeys (writeFrom n.key i (window data o fuel)), ⟨data, o + fuel⟩)
      else .error .read_failure := by
  induction fuel generalizing i n o with
  | zero =>
    unfold Deserialize.readKeys
    rw [if_pos (by omega)]
    cases n
    simp [window, writeFrom, Node.setKeys, Node.key]
  | succ fuel ih =>
    unfold Deserialize.readKeys
    by_cases h1 : o + 1 ≤ data.length
    · rw [MetaBlockReader.Read_ok data o 1 h1]
      simp only
      rw [ih _ _ _ (by omega), window_one data o (by omega),
        window_succ data o fuel (by omega)]
      by_cases h2 : o + (fuel + 1) ≤ data.length
      · rw [if_pos (by omega), if_pos h2]
        cases n
        simp [writeFrom, Node.setKey, Node.setKeys, Node.key, Nat.add_assoc,
          Nat.add_comm 1 fuel]
      · rw [if_neg (by omega), if_neg h2]
    · rw [MetaBlockReader.Read_fail data o 1 h1, if_neg (by omega)]

theorem Deserialize.readOffsets_eq (fuel i : Nat) (n : Node) (data : List Nat) (o : Nat)
    (ho : o ≤ data.length) :
    Deserialize.readOffsets fuel i n ⟨data, o⟩ =
      if o + 16 * fuel ≤ data.length then
        .ok (n.setBlockOffsets (writeFrom n.block_offsets i (decodePairs (data.drop o) fuel)),
          ⟨data, o + 16 * fuel⟩)
      else .error .read_failure := by
  induction fuel generalizing i n o with
  | zero =>
    unfold Deserialize.readOffsets
    rw [if_pos (by omega)]
    cases n
    simp [decodePairs, writeFrom, Node.setBlockOffsets, Node.block_offsets]
  | succ fuel ih =>
    unfold Deserialize.readOffsets
    by_cases h1 : o + 16 ≤ data.length
    · rw [MetaBlockReader.Read_ok data o 8 (by omega)]
      simp only
      rw [MetaBlockReader.Read_ok data (o + 8) 8 (by omega)]
      simp only
      rw [ih _ _ _ (by omega)]
      by_cases h2 : o + 16 * (fuel + 1) ≤ data.length
      · rw [if_pos (by omega), if_pos h2]
        cases n
        simp [writeFrom, decodePairs, window, Node.setBlockOffsets, Node.block_offsets,
          Nat.add_assoc, Nat.mul_add, Nat.add_comm 16]
      · rw [if_neg (by omega), if_neg h2]
    · by_cases h0 : o + 8 ≤ data.length
      · rw [MetaBlockReader.Read_ok data o 8 h0]
        simp only
        rw [MetaBlockReader.Read_fail data (o + 8) 8 (by omega), if_neg (by omega)]
      · rw [MetaBlockReader.Read_fail data o 8 h0, if_neg (by omega)]

/-- The closed form of `Node4::Deserialize` on a reader at offset `o`: the node built from
the fields at `o` when the block holds the whole record, a read failure otherwise. -/
theorem Deserialize_eq (data : List Nat) (o : Nat) :
    Deserialize ⟨data, o⟩ =
      if o + 6 ≤ data.length ∧ o + 74 + fromBytes (window data (o + 2) 4) ≤ data.length then
        .ok (.mk .N4 (fromBytes (window data o 2)) (fromBytes (window data (o + 2) 4))
            (window data (o + 6) (fromBytes (window data (o + 2) 4)))
            (window data (o + 6 + fromBytes (window data (o + 2) 4)) 4)
            [none, none, none, none]
            (decodePairs (data.drop (o + 10 + fromBytes (window data (o + 2) 4))) 4),
          ⟨data, o + 74 + fromBytes (window data (o + 2) 4)⟩)
      else .error .read_failure := by
  unfold Deserialize
  by_cases h2 : o + 2 ≤ data.length
  · rw [MetaBlockReader.Read_ok data o 2 h2]
    simp only
    by_cases h6 : o + 6 ≤ data.length
    · rw [MetaBlockReader.Read_ok data (o + 2) 4 (by omega)]
      simp only
      generalize fromBytes (window data (o + 2) 4) = pl
      generalize fromBytes (window data o 2) = cnt
      rw [Deserialize.readPrefix_eq _ _ _ _ _ (by omega)]
      by_cases hp : o + 2 + 4 + pl ≤ data.length
      · rw [if_pos hp]
        simp only
        rw [Deserialize.readKeys_eq _ _ _ _ _ (by omega)]
        by_cases hk : o + 2 + 4 + pl + 4 ≤ data.length
        · rw [if_pos hk]
          simp only
          rw [Deserialize.readOffsets_eq _ _ _ _ _ (by omega)]
          by_cases ho : o + 2 + 4 + pl + 4 + 16 * 4 ≤ data.length
          · rw [if_pos ho, if_pos ⟨h6, by omega⟩]
            have e1 : writeFrom (List.replicate pl 0) 0 (window data (o + 2 + 4) pl) =
                window data (o + 2 + 4) pl :=
              writeFrom_all _ _ (by rw [window_length _ _ _ hp]; simp)
            have e2 : writeFrom [0, 0, 0, 0] 0 (window data (o + 2 + 4 + pl) 4) =
                window data (o + 2 + 4 + pl) 4 :=
              writeFrom_all _ _ (by rw [window_length _ _ _ hk]; rfl)
            have e3 : writeFrom [((0 : Nat), (0 : Nat)), (0, 0), (0, 0), (0, 0)] 0
                (decodePairs (data.drop (o + 2 + 4 + pl + 4)) 4) =
                decodePairs (data.drop (o + 2 + 4 + pl + 4)) 4 :=
              writeFrom_all _ _ (by simp [decodePairs])
            simp only [create, Node.create, Node.setCount, Node.setPrefixBytes,
              Node.prefix_bytes, Node.setKeys, Node.key, Node.setBlockOffsets,
              Node.block_offsets, List.replicate, e1, e2, e3]
            have a1 : o + 2 + 4 = o + 6 := by omega
            have a2 : o + 6 + pl + 4 = o + 10 + pl := by omega
            have a3 : o + 10 + pl + 16 * 4 = o + 74 + pl := by omega
            rw [a1, a2, a3]
          · rw [if_neg ho, if_neg (fun h => ho (by omega))]
        · rw [if_neg hk]
          simp only
          rw [if_neg (fun h => hk (by omega))]
      · rw [if_neg hp]
        simp only
        rw [if_neg (fun h => hp (by omega))]
    · rw [MetaBlockReader.Read_fail data (o + 2) 4 (by omega), if_neg (fun h => h6 h.1)]
  · rw [MetaBlockReader.Read_fail data o 2 h2, if_neg (fun h => h2 (by omega))]

/-- C10: `Node4::Deserialize` is lazy. From a reader at offset `o` it reads, one after the
other, the count (2 bytes), the prefix length (4 bytes), that many prefix bytes, 4 key
bytes and 4 pairs of 8-byte offsets, and it fails when the block ends before them.
Whenever it returns a node, the four child references of the node are absent, its block
offsets are the four pairs read, and the reader is on the same block right after the
last pair, `74 + prefix_length` bytes after `o`: no byte outside the node's own record is
read and the cursor is never moved otherwise. -/
theorem Deserialize_lazy (data : List Nat) (o : Nat) :
    Deserialize ⟨data, o⟩ =
      (if o + 6 ≤ data.length ∧ o + 74 + fromBytes (window data (o + 2) 4) ≤ data.length then
        .ok (.mk .N4 (fromBytes (window data o 2)) (fromBytes (window data (o + 2) 4))
            (window data (o + 6) (fromBytes (window data (o + 2) 4)))
            (window data (o + 6 + fromBytes (window data (o + 2) 4)) 4)
            [none, none, none, none]
            (decodePairs (data.drop (o + 10 + fromBytes (window data (o + 2) 4))) 4),
          ⟨data, o + 74 + fromBytes (window data (o + 2) 4)⟩)
      else .error .read_failure) ∧
    ∀ n r, Deserialize ⟨data, o⟩ = .ok (n, r) →
      n.child = [none, none, none, none] ∧ (∀ i, n.childAt i = none) ∧
      n.block_offsets =
        [(fromBytes (window data (o + 10 + n.prefix_length) 8),
            fromBytes (window data (o + 18 + n.prefix_length) 8)),
          (fromBytes (window data (o + 26 + n.prefix_length) 8),
            fromBytes (window data (o + 34 + n.prefix_length) 8)),
          (fromBytes (window data (o + 42 + n.prefix_length) 8),
            fromBytes (window data (o + 50 + n.prefix_length) 8)),
          (fromBytes (window data (o + 58 + n.prefix_length) 8),
            fromBytes (window data (o + 66 + n.prefix_length) 8))] ∧
      r.data = data ∧ r.offset = o + 2 + 4 + n.prefix_length + 4 + 64 := by
  refine ⟨Deserialize_eq data o, fun n r h => ?_⟩
  rw [Deserialize_eq] at h
  by_cases hc : o + 6 ≤ data.length ∧
      o + 74 + fromBytes (window data (o + 2) 4) ≤ data.length
  · rw [if_pos hc] at h
    have h1 := congrArg Prod.fst (Except.ok.inj h)
    have h2 := congrArg Prod.snd (Except.ok.inj h)
    simp only at h1 h2
    subst h1 h2
    refine ⟨rfl, fun i => ?_, ?_, rfl, ?_⟩
    · rcases i with _ | _ | _ | _ | i <;> rfl
    · simp only [Node.block_offsets, Node.prefix_length, decodePairs, window, List.drop_drop,
        List.cons.injEq, Prod.mk.injEq, and_true]
      refine ⟨⟨trivial, ?_⟩, ⟨?_, ?_⟩, ⟨?_, ?_⟩, ?_, ?_⟩ <;> congr 3 <;> omega
    · simp only [Node.prefix_length]
      omega
  · rw [if_neg hc] at h
    cases h

end Node4

namespace Node4

/-! ### The record of a Node4 -/

theorem foldl_Write {α : Type} (g : α → List Nat) (l : List α) (w : MetaBlockWriter) :
    l.foldl (fun w x => (⟨w.block_id, w.data ++ g x⟩ : MetaBlockWriter)) w =
      ⟨w.block_id, w.data ++ l.flatMap g⟩ := by
  induction l generalizing w with
  | nil => simp
  | cons x l ih => simp [ih, List.append_assoc]

theorem Serialize.writeRecord_eq (n : Node) (offs : List (Nat × Nat)) (w : MetaBlockWriter) :
    Serialize.writeRecord n offs w = ⟨w.block_id, w.data ++ recordBytes n offs⟩ := by
  unfold Serialize.writeRecord recordBytes
  have h1 := foldl_Write (fun i => toBytes 1 (arrGet n.prefix_bytes i 0))
  have h2 := foldl_Write (fun key_v => toBytes 1 key_v)
  have h3 := foldl_Write (fun (offsets : Nat × Nat) => toBytes 8 offsets.1 ++ toBytes 8 offsets.2)
  simp only [MetaBlockWriter.Write, List.append_assoc] at h1 h2 h3 ⊢
  rw [h1, h2, h3]
  simp only [List.append_assoc]

theorem recordBytes_length (n : Node) (offs : List (Nat × Nat)) (hk : n.key.length = 4)
    (ho : offs.length = 4) : (recordBytes n offs).length = 75 + n.prefix_length := by
  have h1 : ∀ m, ((List.range m).flatMap
      (fun i => toBytes 1 (arrGet n.prefix_bytes i 0))).length = m := by
    intro m
    induction m with
    | zero => rfl
    | succ m ih => rw [List.range_succ, List.flatMap_append]; simp [toBytes_length, ih]
  have h2 : ∀ l : List Nat, (l.flatMap (fun key_v => toBytes 1 key_v)).length = l.length := by
    intro l
    induction l with
    | nil => rfl
    | cons x l ih => simp [toBytes_length, ih]; omega
  have h3 : ∀ l : List (Nat × Nat), (l.flatMap
      (fun offsets => toBytes 8 offsets.1 ++ toBytes 8 offsets.2)).length = 16 * l.length := by
    intro l
    induction l with
    | nil => rfl
    | cons x l ih => simp [toBytes_length, ih]; omega
  unfold recordBytes
  simp only [List.length_append, toBytes_length, h1, h2, h3, hk, ho]
  omega

theorem window_of_eq (data A X B : List Nat) (o w : Nat) (h : data = A ++ (X ++ B))
    (ho : A.length = o) (hw : X.length = w) : window data o w = X := by
  unfold window
  rw [h, List.drop_left' ho, List.take_left' hw]

theorem flatMap_bytes (l : List Nat) (h : ∀ b, b ∈ l → b < 256) :
    l.flatMap (fun key_v => toBytes 1 key_v) = l := by
  induction l with
  | nil => rfl
  | cons x l ih =>
    have hx : x % 256 = x := Nat.mod_eq_of_lt (h x (List.mem_cons_self _ _))
    rw [List.flatMap_cons, ih (fun b hb => h b (List.mem_cons_of_mem _ hb))]
    simp [toBytes, hx]

theorem flatMap_range_bytes (l : List Nat) (h : ∀ b, b ∈ l → b < 256) :
    (List.range l.length).flatMap (fun i => toBytes 1 (arrGet l i 0)) = l := by
  have : (List.range l.length).flatMap (fun i => toBytes 1 (arrGet l i 0)) =
      ((List.range l.length).map (fun i => arrGet l i 0)).flatMap
        (fun key_v => toBytes 1 key_v) := by
    rw [List.flatMap_map]
  rw [this]
  have hm : (List.range l.length).map (fun i => arrGet l i 0) = l := by
    apply List.ext_getElem (by simp)
    intro i h1 h2
    simp [arrGet, List.getD_eq_getElem, h2]
  rw [hm]
  exact flatMap_bytes l h

theorem decodePairs_encode (offs : List (Nat × Nat)) (post : List Nat)
    (h : ∀ x, x ∈ offs → x.1 < 18446744073709551616 ∧ x.2 < 18446744073709551616) :
    decodePairs (offs.flatMap (fun offsets => toBytes 8 offsets.1 ++ toBytes 8 offsets.2) ++ post)
      offs.length = offs := by
  induction offs with
  | nil => rfl
  | cons x offs ih =>
    obtain ⟨h1, h2⟩ := h x (List.mem_cons_self _ _)
    simp only [List.flatMap_cons, List.length_cons, decodePairs, List.append_assoc]
    rw [List.take_left' (toBytes_length 8 x.1), List.drop_left' (toBytes_length 8 x.1),
      List.take_left' (toBytes_length 8 x.2)]
    have e : List.drop 16 (toBytes 8 x.1 ++ (toBytes 8 x.2 ++
        (offs.flatMap (fun offsets => toBytes 8 offsets.1 ++ toBytes 8 offsets.2) ++ post))) =
        offs.flatMap (fun offsets => toBytes 8 offsets.1 ++ toBytes 8 offsets.2) ++ post := by
      rw [← List.append_assoc]
      exact List.drop_left' (by simp [toBytes_length])
    rw [e, ih (fun y hy => h y (List.mem_cons_of_mem _ hy)),
      fromBytes_toBytes_of_lt 8 x.1 (by norm_num; exact h1),
      fromBytes_toBytes_of_lt 8 x.2 (by norm_num; exact h2)]

/-- Reading back a record. When the fields of a Node4 fit their on-disk widths (the count
a `uint16_t`, the prefix length a `uint32_t` equal to the length of the buffer, bytes in
the prefix and in the four keys, `idx_t` offsets), the byte before the reader is the tag
of a Node4 and `Node4::Deserialize` right after the tag returns the fields written. -/
theorem Deserialize_record (n : Node) (offs : List (Nat × Nat)) (pre post : List Nat)
    (ht : n.type = .N4) (hcnt : n.count < 65536) (hpl : n.prefix_length < 4294967296)
    (hlen : n.prefix_length = n.prefix_bytes.length)
    (hp : ∀ b, b ∈ n.prefix_bytes → b < 256) (hk : n.key.length = 4)
    (hkb : ∀ b, b ∈ n.key → b < 256) (ho : offs.length = 4)
    (hob : ∀ x, x ∈ offs → x.1 < 18446744073709551616 ∧ x.2 < 18446744073709551616) :
    fromBytes (window (pre ++ (recordBytes n offs ++ post)) pre.length 1) = 0 ∧
    Deserialize ⟨pre ++ (recordBytes n offs ++ post), pre.length + 1⟩ =
      .ok (lazyNode n offs,
        ⟨pre ++ (recordBytes n offs ++ post), pre.length + (recordBytes n offs).length⟩) := by
  have hrl := recordBytes_length n offs hk ho
  have hrec : recordBytes n offs = [0] ++ (toBytes 2 n.count ++ (toBytes 4 n.prefix_length ++
      (n.prefix_bytes ++ (n.key ++
        offs.flatMap (fun offsets => toBytes 8 offsets.1 ++ toBytes 8 offsets.2))))) := by
    unfold recordBytes
    rw [ht, hlen, flatMap_range_bytes _ hp, flatMap_bytes _ hkb]
    rfl
  have hdata : (pre ++ (recordBytes n offs ++ post)).length =
      pre.length + 75 + n.prefix_length + post.length := by
    simp only [List.length_append, hrl]
    omega
  generalize hD : pre ++ (recordBytes n offs ++ post) = data at hdata ⊢
  rw [hrec] at hD
  generalize hOB : offs.flatMap (fun offsets => toBytes 8 offsets.1 ++ toBytes 8 offsets.2) =
    ob at hD
  have w0 : window data pre.length 1 = [0] :=
    window_of_eq data pre [0] (toBytes 2 n.count ++ (toBytes 4 n.prefix_length ++
      (n.prefix_bytes ++ (n.key ++ (ob ++ post))))) _ _ (by rw [← hD]; simp) rfl rfl
  have w1 : window data (pre.length + 1) 2 = toBytes 2 n.count :=
    window_of_eq data (pre ++ [0]) (toBytes 2 n.count) (toBytes 4 n.prefix_length ++
      (n.prefix_bytes ++ (n.key ++ (ob ++ post)))) _ _ (by rw [← hD]; simp) (by simp)
      (toBytes_length _ _)
  have w2 : window data (pre.length + 1 + 2) 4 = toBytes 4 n.prefix_length :=
    window_of_eq data (pre ++ [0] ++ toBytes 2 n.count) (toBytes 4 n.prefix_length)
      (n.prefix_bytes ++ (n.key ++ (ob ++ post))) _ _ (by rw [← hD]; simp)
      (by simp [toBytes_length]) (toBytes_length _ _)
  have w3 : window data (pre.length + 1 + 6) n.prefix_length = n.prefix_bytes :=
    window_of_eq data (pre ++ [0] ++ toBytes 2 n.count ++ toBytes 4 n.prefix_length)
      n.prefix_bytes (n.key ++ (ob ++ post)) _ _
      (by rw [← hD]; simp) (by simp [toBytes_length]) hlen.symm
  have w4 : window data (pre.length + 1 + 6 + n.prefix_length) 4 = n.key :=
    window_of_eq data (pre ++ [0] ++ toBytes 2 n.count ++ toBytes 4 n.prefix_length ++
      n.prefix_bytes) n.key (ob ++ post) _ _ (by rw [← hD]; simp)
      (by simp [toBytes_length]; omega) hk
  have w5 : data.drop (pre.length + 1 + 10 + n.prefix_length) = ob ++ post := by
    have : data = (pre ++ [0] ++ toBytes 2 n.count ++ toBytes 4 n.prefix_length ++
        n.prefix_bytes ++ n.key) ++ (ob ++ post) := by
      rw [← hD]; simp
    rw [this]
    exact List.drop_left' (by simp [toBytes_length, hk]; omega)
  have v1 : fromBytes (window data (pre.length + 1) 2) = n.count := by
    rw [w1, fromBytes_toBytes_of_lt 2 _ (by norm_num; exact hcnt)]
  have v2 : fromBytes (window data (pre.length + 1 + 2) 4) = n.prefix_length := by
    rw [w2, fromBytes_toBytes_of_lt 4 _ (by norm_num; exact hpl)]
  refine ⟨by rw [w0]; rfl, ?_⟩
  rw [Deserialize_eq, v1, v2, if_pos ⟨by omega, by omega⟩, w3, w4, w5]
  have hdp := decodePairs_encode offs post hob
  rw [ho, hOB] at hdp
  rw [hdp, hrl]
  unfold lazyNode
  have a1 : pre.length + 1 + 74 + n.prefix_length = pre.length + (75 + n.prefix_length) := by
    omega
  rw [a1]

end Node4

/-! ### Node graphs -/

theorem Node.Serialize_of_N4 (other : Node → MetaBlockWriter → (Nat × Nat) × MetaBlockWriter)
    (n : Node) (w : MetaBlockWriter) (h : n.type = .N4) :
    Node.Serialize other n w = Node4.Serialize other n w := by
  obtain ⟨t, cnt, pl, p, k, ch, bo⟩ := n
  simp only [Node.type] at h
  subst h
  simp [Node.Serialize, Node4.Serialize, Node.child]

theorem Node.shape_children_eq_map (ch : List (Option Node)) :
    Node.shape.children ch = ch.map (Option.map Node.shape) := by
  induction ch with
  | nil => simp [Node.shape.children]
  | cons x rest ih =>
    cases x with
    | none => simp [Node.shape.children, ih]
    | some c => simp [Node.shape.children, ih]

theorem Node.shape_eq (n : Node) :
    n.shape = .mk n.type n.count n.prefix_length n.prefix_bytes n.key
      (n.child.map (Option.map Node.shape)) [] := by
  obtain ⟨t, cnt, pl, p, k, ch, bo⟩ := n
  simp [Node.shape, Node.shape_children_eq_map, Node.type, Node.count, Node.prefix_length,
    Node.prefix_bytes, Node.key, Node.child]

theorem Node.depth_eq (n : Node) : n.depth = Node.depth.children n.child + 1 := by
  obtain ⟨t, cnt, pl, p, k, ch, bo⟩ := n
  simp [Node.depth, Node.child]

theorem Node.depth_le_of_mem (ch : List (Option Node)) (c : Node) (h : some c ∈ ch) :
    c.depth ≤ Node.depth.children ch := by
  induction ch with
  | nil => simp at h
  | cons x rest ih =>
    cases x with
    | none =>
      simp only [Node.depth.children]
      exact ih (by simpa using h)
    | some c0 =>
      simp only [Node.depth.children]
      rcases List.mem_cons.mp h with h1 | h1
      · have : c = c0 := Option.some.inj h1
        subst this
        exact le_max_left _ _
      · exact le_trans (ih h1) (le_max_right _ _)

theorem Node.IsNode4Graph_iff (n : Node) :
    n.IsNode4Graph ↔
      (n.type = .N4 ∧ n.count ≤ 4 ∧ n.prefix_length = n.prefix_bytes.length ∧
        n.prefix_length < 4294967296 ∧ (∀ b, b ∈ n.prefix_bytes → b < 256) ∧
        n.key.length = 4 ∧ (∀ b, b ∈ n.key → b < 256) ∧ n.child.length = 4 ∧
        n.block_offsets.length = 4 ∧ Node.IsNode4Graph.children n.count n.child) := by
  obtain ⟨t, cnt, pl, p, k, ch, bo⟩ := n
  simp [Node.IsNode4Graph, Node.type, Node.count, Node.prefix_length, Node.prefix_bytes,
    Node.key, Node.child, Node.block_offsets]

theorem Node.IsNode4Graph.children_slots (cnt : Nat) (ch : List (Option Node))
    (h : Node.IsNode4Graph.children cnt ch) :
    (∀ c, some c ∈ ch → c.IsNode4Graph) ∧
    (∀ i, i < cnt → i < ch.length → ∃ c, ch[i]? = some (some c)) ∧
    (∀ i, cnt ≤ i → i < ch.length → ch[i]? = some none) := by
  induction ch generalizing cnt with
  | nil => simp
  | cons x rest ih =>
    cases x with
    | none =>
      cases cnt with
      | zero =>
        simp only [Node.IsNode4Graph.children] at h
        obtain ⟨h1, h2, h3⟩ := ih 0 h
        refine ⟨fun c hc => h1 c (by simpa using hc), fun i hi => by omega, fun i hi hl => ?_⟩
        cases i with
        | zero => simp
        | succ i =>
          simp only [List.length_cons] at hl
          simpa using h3 i (Nat.zero_le _) (by omega)
      | succ cnt => simp [Node.IsNode4Graph.children] at h
    | some c0 =>
      cases cnt with
      | zero => simp [Node.IsNode4Graph.children] at h
      | succ cnt =>
        simp only [Node.IsNode4Graph.children] at h
        obtain ⟨h1, h2, h3⟩ := ih cnt h.2
        refine ⟨fun c hc => ?_, fun i hi hl => ?_, fun i hi hl => ?_⟩
        · rcases List.mem_cons.mp hc with e | e
          · rw [Option.some.inj e]; exact h.1
          · exact h1 c e
        · cases i with
          | zero => exact ⟨c0, by simp⟩
          | succ i =>
            simp only [List.length_cons] at hl
            simpa using h2 i (by omega) (by omega)
        · cases i with
          | zero => omega
          | succ i =>
            simp only [List.length_cons] at hl
            simpa using h3 i (by omega) (by omega)

theorem Node.childAt_of_getElem? (n : Node) (i : Nat) (x : Option Node)
    (h : n.child[i]? = some x) : n.childAt i = x := by
  simp [Node.childAt, arrGet, List.getD_eq_getElem?_getD, h]

theorem Node.offsetAt_setChild (n : Node) (i j : Nat) (v : Option Node) :
    (n.setChild i v).offsetAt j = n.offsetAt j := by
  simp [Node.offsetAt]

theorem Node.loadAll_ok (other : Nat → MetaBlockReader → Except Fault Node) (art : ART)
    (fuel block_id offset : Nat) (c : Node)
    (h : Node.loadAll other art fuel block_id offset = some (.ok c)) :
    ∃ lz, Node.Deserialize other art block_id offset = .ok lz ∧
      Node.forceAll other art fuel lz = some (.ok c) := by
  unfold Node.loadAll at h
  cases hd : Node.Deserialize other art block_id offset with
  | error e => rw [hd] at h; simp at h
  | ok lz => rw [hd] at h; exact ⟨lz, rfl, h⟩

theorem Node.forceAll.loop_spec (other : Nat → MetaBlockReader → Except Fault Node) (art : ART)
    (force : Node → Option (Except Fault Node)) (target : Nat → Node) (left pos : Nat)
    (N : Node) (hcount : pos + left = N.count) (hlen : N.count ≤ N.child.length)
    (h : ∀ i, pos ≤ i → i < N.count → N.childAt i = none ∧
      ∃ lz c, Node.Deserialize other art (N.offsetAt i).1 (N.offsetAt i).2 = .ok lz ∧
        force lz = some (.ok c) ∧ c.shape = (target i).shape) :
    ∃ N1, Node.forceAll.loop other art force left pos N = some (.ok N1) ∧
      N1.type = N.type ∧ N1.count = N.count ∧ N1.prefix_length = N.prefix_length ∧
      N1.prefix_bytes = N.prefix_bytes ∧ N1.key = N.key ∧
      N1.child.length = N.child.length ∧
      (∀ i, pos ≤ i → i < N.count → ∃ c, N1.childAt i = some c ∧ c.shape = (target i).shape) ∧
      (∀ i, ¬ (pos ≤ i ∧ i < N.count) → N1.childAt i = N.childAt i) := by
  induction left generalizing pos N with
  | zero =>
    refine ⟨N, rfl, rfl, rfl, rfl, rfl, rfl, rfl, fun i h1 h2 => by omega, fun i _ => rfl⟩
  | succ left ih =>
    obtain ⟨hnone, lz, c, hd, hf, hs⟩ := h pos (le_refl _) (by omega)
    have hget : Node4.GetChild other art N pos = .ok (N.setChild pos (some lz), lz) := by
      unfold Node4.GetChild
      rw [if_neg (by omega), hnone]
      simp only
      rw [hd]
    unfold Node.forceAll.loop
    rw [hget]
    simp only
    rw [hf]
    simp only
    obtain ⟨N1, g1, g2, g3, g4, g5, g6, g7, g8, g9⟩ := ih (pos + 1)
      ((N.setChild pos (some lz)).setChild pos (some c)) (by simpa using (by omega))
      (by simpa using hlen)
      (by
        intro i hi1 hi2
        simp only [Node.count_setChild] at hi2
        obtain ⟨a1, a2⟩ := h i (by omega) hi2
        refine ⟨?_, ?_⟩
        · rw [Node.childAt_setChild, Node.childAt_setChild, if_neg (by omega),
            if_neg (by omega)]
          exact a1
        · rw [Node.offsetAt_setChild, Node.offsetAt_setChild]
          exact a2)
    simp only [Node.count_setChild, Node.type_setChild, Node.prefix_length_setChild,
      Node.prefix_bytes_setChild, Node.key_setChild, Node.child_setChild, List.length_set]
      at g2 g3 g4 g5 g6 g7 g8 g9
    refine ⟨N1, g1, g2, g3, g4, g5, g6, g7, ?_, ?_⟩
    · intro i hi1 hi2
      by_cases hip : i = pos
      · subst hip
        rw [g9 i (by omega), Node.childAt_setChild, if_pos ⟨rfl, by simpa using (by omega)⟩]
        exact ⟨c, rfl, hs⟩
      · exact g8 i (by omega) hi2
    · intro i hi
      rw [g9 i (by omega), Node.childAt_setChild, Node.childAt_setChild, if_neg (by omega),
        if_neg (by omega)]

theorem Node.Serialize.children_addresses
    (other : Node → MetaBlockWriter → (Nat × Nat) × MetaBlockWriter)
    (otherD : Nat → MetaBlockReader → Except Fault Node) (ch : List (Option Node))
    (hP : ∀ c, some c ∈ ch → ∀ w : MetaBlockWriter,
      (Node.Serialize other c w).2.block_id = w.block_id ∧
      (∃ bytes, (Node.Serialize other c w).2.data = w.data ++ bytes) ∧
      (Node.Serialize other c w).1.1 = w.block_id ∧
      (Node.Serialize other c w).1.2 < (Node.Serialize other c w).2.data.length ∧
      (w.block_id < 18446744073709551616 →
        (Node.Serialize other c w).2.data.length < 18446744073709551616 →
        ∀ post art, art.blocks w.block_id = (Node.Serialize other c w).2.data ++ post →
        ∀ fuel, c.depth ≤ fuel →
        ∃ c1, Node.loadAll otherD art fuel (Node.Serialize other c w).1.1
            (Node.Serialize other c w).1.2 = some (.ok c1) ∧ c1.shape = c.shape))
    (w : MetaBlockWriter) :
    (Node.Serialize.children other ch w).2.block_id = w.block_id ∧
    (∃ bytes, (Node.Serialize.children other ch w).2.data = w.data ++ bytes) ∧
    (Node.Serialize.children other ch w).1.length = ch.length ∧
    (w.block_id < 18446744073709551616 →
      (Node.Serialize.children other ch w).2.data.length < 18446744073709551616 →
      (∀ x, x ∈ (Node.Serialize.children other ch w).1 →
        x.1 < 18446744073709551616 ∧ x.2 < 18446744073709551616) ∧
      ∀ i c, ch[i]? = some (some c) →
        ∀ post art, art.blocks w.block_id = (Node.Serialize.children other ch w).2.data ++ post →
        ∀ fuel, c.depth ≤ fuel →
        ∃ c1, Node.loadAll otherD art fuel
            (arrGet (Node.Serialize.children other ch w).1 i (0, 0)).1
            (arrGet (Node.Serialize.children other ch w).1 i (0, 0)).2 = some (.ok c1) ∧
          c1.shape = c.shape) := by
  induction ch generalizing w with
  | nil =>
    rw [show Node.Serialize.children other [] w = ([], w) by simp [Node.Serialize.children]]
    refine ⟨rfl, ⟨[], by simp⟩, rfl, fun _ _ => ⟨fun x hx => by simp at hx, fun i c hc => ?_⟩⟩
    simp at hc
  | cons x rest ih =>
    have ihr := ih (fun c hc => hP c (List.mem_cons_of_mem _ hc))
    cases x with
    | none =>
      simp only [Node.Serialize.children]
      obtain ⟨r1, r2, r3, r4⟩ := ihr w
      refine ⟨r1, r2, by simp [r3], fun hb hl => ?_⟩
      obtain ⟨q1, q2⟩ := r4 hb hl
      refine ⟨fun x hx => ?_, fun i c hc post art hart fuel hf => ?_⟩
      · rcases List.mem_cons.mp hx with e | e
        · rw [e]
          simp [INVALID_INDEX]
        · exact q1 x e
      · cases i with
        | zero => simp at hc
        | succ i =>
          have hc2 : rest[i]? = some (some c) := by simpa using hc
          have := q2 i c hc2 post art hart fuel hf
          simpa [arrGet] using this
    | some c0 =>
      simp only [Node.Serialize.children]
      obtain ⟨p1, ⟨b1, p2⟩, p3, p4, p5⟩ := hP c0 (List.mem_cons_self _ _) w
      obtain ⟨r1, ⟨b2, r2⟩, r3, r4⟩ := ihr (Node.Serialize other c0 w).2
      refine ⟨by rw [r1, p1], ⟨b1 ++ b2, by rw [r2, p2, List.append_assoc]⟩, by simp [r3],
        fun hb hl => ?_⟩
      have hl0 : (Node.Serialize other c0 w).2.data.length < 18446744073709551616 := by
        rw [r2, List.length_append] at hl
        omega
      obtain ⟨q1, q2⟩ := r4 (by rw [p1]; exact hb) hl
      refine ⟨fun x hx => ?_, fun i c hc post art hart fuel hf => ?_⟩
      · rcases List.mem_cons.mp hx with e | e
        · rw [e, p3]
          exact ⟨hb, by omega⟩
        · exact q1 x e
      · cases i with
        | zero =>
          have hc2 : c0 = c := by simpa using hc
          subst hc2
          have := p5 hb hl0 (b2 ++ post) art (by rw [hart, r2, List.append_assoc]) fuel hf
          simpa [arrGet] using this
        | succ i =>
          have hc2 : rest[i]? = some (some c) := by simpa using hc
          have := q2 i c hc2 post art (by rw [p1]; exact hart) fuel hf
          simpa [arrGet] using this

theorem Node4.lazyNode_childAt (n : Node) (offs : List (Nat × Nat)) (i : Nat) :
    (Node4.lazyNode n offs).childAt i = none := by
  rcases i with _ | _ | _ | _ | i <;> rfl

theorem Node.getElem?_child (n : Node) (i : Nat) (h : i < n.child.length) :
    n.child[i]? = some (n.childAt i) := by
  simp [Node.childAt, arrGet, List.getD_eq_getElem?_getD, List.getElem?_eq_getElem h]

theorem Node.Deserialize_of_record (otherD : Nat → MetaBlockReader → Except Fault Node)
    (art : ART) (block_id : Nat) (n : Node) (offs : List (Nat × Nat)) (pre post : List Nat)
    (hart : art.blocks block_id = pre ++ (Node4.recordBytes n offs ++ post))
    (ht : n.type = .N4) (hcnt : n.count < 65536) (hpl : n.prefix_length < 4294967296)
    (hlen : n.prefix_length = n.prefix_bytes.length)
    (hp : ∀ b, b ∈ n.prefix_bytes → b < 256) (hk : n.key.length = 4)
    (hkb : ∀ b, b ∈ n.key → b < 256) (ho : offs.length = 4)
    (hob : ∀ x, x ∈ offs → x.1 < 18446744073709551616 ∧ x.2 < 18446744073709551616) :
    Node.Deserialize otherD art block_id pre.length = .ok (Node4.lazyNode n offs) := by
  obtain ⟨h0, h1⟩ := Node4.Deserialize_record n offs pre post ht hcnt hpl hlen hp hk hkb ho hob
  have hrl := Node4.recordBytes_length n offs hk ho
  unfold Node.Deserialize
  rw [hart, MetaBlockReader.Read_ok _ _ 1 (by simp only [List.length_append, hrl]; omega)]
  simp only
  rw [h0, if_pos (show (0 : Nat) = NodeType.N4.toByte from rfl), h1]

/-- Serializing a graph of Node4 nodes appends to the block, returns an address in the
writer's block, and loading from that address with enough fuel gives back a graph of the
same shape, whatever is appended to the block later. -/
theorem Node.Serialize_loadAll
    (other : Node → MetaBlockWriter → (Nat × Nat) × MetaBlockWriter)
    (otherD : Nat → MetaBlockReader → Except Fault Node) (d : Nat) :
    ∀ g : Node, g.depth ≤ d → g.IsNode4Graph → ∀ w : MetaBlockWriter,
      (Node.Serialize other g w).2.block_id = w.block_id ∧
      (∃ bytes, (Node.Serialize other g w).2.data = w.data ++ bytes) ∧
      (Node.Serialize other g w).1.1 = w.block_id ∧
      (Node.Serialize other g w).1.2 < (Node.Serialize other g w).2.data.length ∧
      (w.block_id < 18446744073709551616 →
        (Node.Serialize other g w).2.data.length < 18446744073709551616 →
        ∀ post art, art.blocks w.block_id = (Node.Serialize other g w).2.data ++ post →
        ∀ fuel, g.depth ≤ fuel →
        ∃ g1, Node.loadAll otherD art fuel (Node.Serialize other g w).1.1
            (Node.Serialize other g w).1.2 = some (.ok g1) ∧ g1.shape = g.shape) := by
  induction d with
  | zero =>
    intro g hd
    rw [Node.depth_eq] at hd
    omega
  | succ d ih =>
    intro g hd hg w
    obtain ⟨ht, hc4, hlen, hpl, hp, hk, hkb, hcl, hbo, hch⟩ := (Node.IsNode4Graph_iff g).mp hg
    obtain ⟨c1, c2, c3⟩ := Node.IsNode4Graph.children_slots _ _ hch
    have hdg := Node.depth_eq g
    have hP := fun c (hc : some c ∈ g.child) =>
      ih c (le_trans (Node.depth_le_of_mem _ c hc) (by omega)) (c1 c hc)
    obtain ⟨r1, ⟨b, r2⟩, r3, r4⟩ := Node.Serialize.children_addresses other otherD g.child hP w
    have hrl := Node4.recordBytes_length g (Node.Serialize.children other g.child w).1 hk
      (by rw [r3, hcl])
    rw [Node.Serialize_of_N4 other g w ht]
    unfold Node4.Serialize
    simp only [Node4.Serialize.writeRecord_eq, MetaBlockWriter.offset]
    refine ⟨r1, ⟨b ++ Node4.recordBytes g (Node.Serialize.children other g.child w).1,
      by rw [r2, List.append_assoc]⟩, r1, by rw [List.length_append, hrl]; omega, ?_⟩
    intro hb hl post art hart fuel hf
    rw [List.length_append, hrl] at hl
    obtain ⟨q1, q2⟩ := r4 hb (by omega)
    rw [List.append_assoc] at hart
    have hdes := Node.Deserialize_of_record otherD art w.block_id g
      (Node.Serialize.children other g.child w).1 _ post hart ht (by omega) hpl hlen hp hk hkb
      (by rw [r3, hcl]) q1
    obtain ⟨f, rfl⟩ : ∃ f, fuel = f + 1 := ⟨fuel - 1, by omega⟩
    obtain ⟨N1, g1, g2, g3, g4, g5, g6, g7, g8, g9⟩ := Node.forceAll.loop_spec otherD art
      (Node.forceAll otherD art f) (fun i => (g.childAt i).getD g) g.count 0
      (Node4.lazyNode g (Node.Serialize.children other g.child w).1) (by simp [Node4.lazyNode, Node.count])
      (by simp [Node4.lazyNode, Node.count, Node.child]; exact hc4)
      (by
        intro i _ hi
        have hi2 : i < g.count := by simpa [Node4.lazyNode, Node.count] using hi
        refine ⟨Node4.lazyNode_childAt _ _ _, ?_⟩
        obtain ⟨c, hci⟩ := c2 i hi2 (by omega)
        have hmem : some c ∈ g.child := List.getElem?_mem hci
        obtain ⟨cc, hl1, hl2⟩ := q2 i c hci _ art hart f
          (by have := Node.depth_le_of_mem _ c hmem; omega)
        obtain ⟨lz, hz1, hz2⟩ := Node.loadAll_ok _ _ _ _ _ _ hl1
        refine ⟨lz, cc, hz1, hz2, ?_⟩
        show cc.shape = ((g.childAt i).getD g).shape
        rw [hl2, Node.childAt_of_getElem? g i _ hci]
        rfl)
    refine ⟨N1, ?_, ?_⟩
    · unfold Node.loadAll
      rw [r1, hdes]
      simp only
      unfold Node.forceAll
      rw [if_pos (show (Node4.lazyNode g (Node.Serialize.children other g.child w).1).type =
        NodeType.N4 from rfl)]
      exact g1
    · rw [Node.shape_eq N1, Node.shape_eq g, g2, g3, g4, g5, g6]
      have hN1len : N1.child.length = 4 := by rw [g7]; rfl
      have hchildren : N1.child.map (Option.map Node.shape) =
          g.child.map (Option.map Node.shape) := by
        apply List.ext_getElem?
        intro i
        rw [List.getElem?_map, List.getElem?_map]
        by_cases hi4 : i < 4
        · rw [Node.getElem?_child N1 i (by omega)]
          by_cases hic : i < g.count
          · obtain ⟨c, hci⟩ := c2 i hic (by omega)
            obtain ⟨cc, hcc1, hcc2⟩ := g8 i (Nat.zero_le _)
              (by simpa [Node4.lazyNode, Node.count] using hic)
            rw [hcc1, hci]
            simp only [Option.map_some']
            rw [hcc2]
            have e : (g.childAt i).getD g = c := by
              rw [Node.childAt_of_getElem? g i _ hci]
              rfl
            show some (some ((g.childAt i).getD g).shape) = some (some c.shape)
            rw [e]
          · rw [g9 i (fun h => hic (by simpa [Node4.lazyNode, Node.count] using h.2)),
              Node4.lazyNode_childAt, c3 i (by omega) (by omega)]
        · rw [List.getElem?_eq_none (by omega), List.getElem?_eq_none (by omega)]
      rw [hchildren, ht]
      rfl

/-! ### Graphs with nodes of other variants -/

theorem Node.Serialize_of_other (other : Node → MetaBlockWriter → (Nat × Nat) × MetaBlockWriter)
    (n : Node) (w : MetaBlockWriter) (h : n.type ≠ .N4) :
    Node.Serialize other n w = other n w := by
  obtain ⟨t, cnt, pl, p, k, ch, bo⟩ := n
  simp only [Node.type] at h
  cases t <;> first | exact absurd rfl h | simp [Node.Serialize]

theorem Node.type_of_shape_eq (a b : Node) (h : a.shape = b.shape) : a.type = b.type := by
  rw [Node.shape_eq a, Node.shape_eq b] at h
  injection h

theorem Node.IsGraph_iff (other : Node → MetaBlockWriter → (Nat × Nat) × MetaBlockWriter)
    (otherD : Nat → MetaBlockReader → Except Fault Node) (n : Node) :
    n.IsGraph other otherD ↔
      ((n.type = .N4 →
        n.count ≤ 4 ∧ n.prefix_length = n.prefix_bytes.length ∧
        n.prefix_length < 4294967296 ∧ (∀ b, b ∈ n.prefix_bytes → b < 256) ∧
        n.key.length = 4 ∧ (∀ b, b ∈ n.key → b < 256) ∧ n.child.length = 4 ∧
        n.block_offsets.length = 4 ∧ Node.IsGraph.children other otherD n.count n.child) ∧
      (n.type ≠ .N4 → Node.Stored other otherD n)) := by
  obtain ⟨t, cnt, pl, p, k, ch, bo⟩ := n
  simp [Node.IsGraph, Node.type, Node.count, Node.prefix_length, Node.prefix_bytes,
    Node.key, Node.child, Node.block_offsets]

theorem Node.IsGraph.slots (other : Node → MetaBlockWriter → (Nat × Nat) × MetaBlockWriter)
    (otherD : Nat → MetaBlockReader → Except Fault Node) (cnt : Nat) (ch : List (Option Node))
    (h : Node.IsGraph.children other otherD cnt ch) :
    (∀ c, some c ∈ ch → c.IsGraph other otherD) ∧
    (∀ i, i < cnt → i < ch.length → ∃ c, ch[i]? = some (some c)) ∧
    (∀ i, cnt ≤ i → i < ch.length → ch[i]? = some none) := by
  induction ch generalizing cnt with
  | nil => simp
  | cons x rest ih =>
    cases x with
    | none =>
      cases cnt with
      | zero =>
        simp only [Node.IsGraph.children] at h
        obtain ⟨h1, h2, h3⟩ := ih 0 h
        refine ⟨fun c hc => h1 c (by simpa using hc), fun i hi => by omega, fun i hi hl => ?_⟩
        cases i with
        | zero => simp
        | succ i =>
          simp only [List.length_cons] at hl
          simpa using h3 i (Nat.zero_le _) (by omega)
      | succ cnt => simp [Node.IsGraph.children] at h
    | some c0 =>
      cases cnt with
      | zero => simp [Node.IsGraph.children] at h
      | succ cnt =>
        simp only [Node.IsGraph.children] at h
        obtain ⟨h1, h2, h3⟩ := ih cnt h.2
        refine ⟨fun c hc => ?_, fun i hi hl => ?_, fun i hi hl => ?_⟩
        · rcases List.mem_cons.mp hc with e | e
          · rw [Option.some.inj e]; exact h.1
          · exact h1 c e
        · cases i with
          | zero => exact ⟨c0, by simp⟩
          | succ i =>
            simp only [List.length_cons] at hl
            simpa using h2 i (by omega) (by omega)
        · cases i with
          | zero => omega
          | succ i =>
            simp only [List.length_cons] at hl
            simpa using h3 i (by omega) (by omega)

/-- The step of the round trip at a Node4: when the children in its slots are serialized
to addresses from which they load again, so is the Node4. -/
theorem Node.Serialize_loadAll_step
    (other : Node → MetaBlockWriter → (Nat × Nat) × MetaBlockWriter)
    (otherD : Nat → MetaBlockReader → Except Fault Node) (g : Node)
    (ht : g.type = .N4) (hc4 : g.count ≤ 4) (hlen : g.prefix_length = g.prefix_bytes.length)
    (hpl : g.prefix_length < 4294967296) (hp : ∀ b, b ∈ g.prefix_bytes → b < 256)
    (hk : g.key.length = 4) (hkb : ∀ b, b ∈ g.key → b < 256) (hcl : g.child.length = 4)
    (c2 : ∀ i, i < g.count → i < g.child.length → ∃ c, g.child[i]? = some (some c))
    (c3 : ∀ i, g.count ≤ i → i < g.child.length → g.child[i]? = some none)
    (hP : ∀ c, some c ∈ g.child → ∀ w : MetaBlockWriter,
      (Node.Serialize other c w).2.block_id = w.block_id ∧
      (∃ bytes, (Node.Serialize other c w).2.data = w.data ++ bytes) ∧
      (Node.Serialize other c w).1.1 = w.block_id ∧
      (Node.Serialize other c w).1.2 < (Node.Serialize other c w).2.data.length ∧
      (w.block_id < 18446744073709551616 →
        (Node.Serialize other c w).2.data.length < 18446744073709551616 →
        ∀ post art, art.blocks w.block_id = (Node.Serialize other c w).2.data ++ post →
        ∀ fuel, c.depth ≤ fuel →
        ∃ c1, Node.loadAll otherD art fuel (Node.Serialize other c w).1.1
            (Node.Serialize other c w).1.2 = some (.ok c1) ∧ c1.shape = c.shape))
    (w : MetaBlockWriter) :
    (Node.Serialize other g w).2.block_id = w.block_id ∧
    (∃ bytes, (Node.Serialize other g w).2.data = w.data ++ bytes) ∧
    (Node.Serialize other g w).1.1 = w.block_id ∧
    (Node.Serialize other g w).1.2 < (Node.Serialize other g w).2.data.length ∧
    (w.block_id < 18446744073709551616 →
      (Node.Serialize other g w).2.data.length < 18446744073709551616 →
      ∀ post art, art.blocks w.block_id = (Node.Serialize other g w).2.data ++ post →
      ∀ fuel, g.depth ≤ fuel →
      ∃ g1, Node.loadAll otherD art fuel (Node.Serialize other g w).1.1
          (Node.Serialize other g w).1.2 = some (.ok g1) ∧ g1.shape = g.shape) := by
  have hdg := Node.depth_eq g
  obtain ⟨r1, ⟨b, r2⟩, r3, r4⟩ := Node.Serialize.children_addresses other otherD g.child hP w
  have hrl := Node4.recordBytes_length g (Node.Serialize.children other g.child w).1 hk
    (by rw [r3, hcl])
  rw [Node.Serialize_of_N4 other g w ht]
  unfold Node4.Serialize
  simp only [Node4.Serialize.writeRecord_eq, MetaBlockWriter.offset]
  refine ⟨r1, ⟨b ++ Node4.recordBytes g (Node.Serialize.children other g.child w).1,
    by rw [r2, List.append_assoc]⟩, r1, by rw [List.length_append, hrl]; omega, ?_⟩
  intro hb hl post art hart fuel hf
  rw [List.length_append, hrl] at hl
  obtain ⟨q1, q2⟩ := r4 hb (by omega)
  rw [List.append_assoc] at hart
  have hdes := Node.Deserialize_of_record otherD art w.block_id g
    (Node.Serialize.children other g.child w).1 _ post hart ht (by omega) hpl hlen hp hk hkb
    (by rw [r3, hcl]) q1
  obtain ⟨f, rfl⟩ : ∃ f, fuel = f + 1 := ⟨fuel - 1, by omega⟩
  obtain ⟨N1, g1, g2, g3, g4, g5, g6, g7, g8, g9⟩ := Node.forceAll.loop_spec otherD art
    (Node.forceAll otherD art f) (fun i => (g.childAt i).getD g) g.count 0
    (Node4.lazyNode g (Node.Serialize.children other g.child w).1) (by simp [Node4.lazyNode, Node.count])
    (by simp [Node4.lazyNode, Node.count, Node.child]; exact hc4)
    (by
      intro i _ hi
      have hi2 : i < g.count := by simpa [Node4.lazyNode, Node.count] using hi
      refine ⟨Node4.lazyNode_childAt _ _ _, ?_⟩
      obtain ⟨c, hci⟩ := c2 i hi2 (by omega)
      have hmem : some c ∈ g.child := List.getElem?_mem hci
      obtain ⟨cc, hl1, hl2⟩ := q2 i c hci _ art hart f
        (by have := Node.depth_le_of_mem _ c hmem; omega)
      obtain ⟨lz, hz1, hz2⟩ := Node.loadAll_ok _ _ _ _ _ _ hl1
      refine ⟨lz, cc, hz1, hz2, ?_⟩
      show cc.shape = ((g.childAt i).getD g).shape
      rw [hl2, Node.childAt_of_getElem? g i _ hci]
      rfl)
  refine ⟨N1, ?_, ?_⟩
  · unfold Node.loadAll
    rw [r1, hdes]
    simp only
    unfold Node.forceAll
    rw [if_pos (show (Node4.lazyNode g (Node.Serialize.children other g.child w).1).type =
      NodeType.N4 from rfl)]
    exact g1
  · rw [Node.shape_eq N1, Node.shape_eq g, g2, g3, g4, g5, g6]
    have hN1len : N1.child.length = 4 := by rw [g7]; rfl
    have hchildren : N1.child.map (Option.map Node.shape) =
        g.child.map (Option.map Node.shape) := by
      apply List.ext_getElem?
      intro i
      rw [List.getElem?_map, List.getElem?_map]
      by_cases hi4 : i < 4
      · rw [Node.getElem?_child N1 i (by omega)]
        by_cases hic : i < g.count
        · obtain ⟨c, hci⟩ := c2 i hic (by omega)
          obtain ⟨cc, hcc1, hcc2⟩ := g8 i (Nat.zero_le _)
            (by simpa [Node4.lazyNode, Node.count] using hic)
          rw [hcc1, hci]
          simp only [Option.map_some']
          rw [hcc2]
          have e : (g.childAt i).getD g = c := by
            rw [Node.childAt_of_getElem? g i _ hci]
            rfl
          show some (some ((g.childAt i).getD g).shape) = some (some c.shape)
          rw [e]
        · rw [g9 i (fun h => hic (by simpa [Node4.lazyNode, Node.count] using h.2)),
            Node4.lazyNode_childAt, c3 i (by omega) (by omega)]
      · rw [List.getElem?_eq_none (by omega), List.getElem?_eq_none (by omega)]
    rw [hchildren, ht]
    rfl

/-- Serializing a graph appends to the block, returns an address in the writer's block,
and loading from that address with enough fuel gives back a graph of the same shape,
whatever is appended to the block later. -/
theorem Node.Serialize_loadAll_graph
    (other : Node → MetaBlockWriter → (Nat × Nat) × MetaBlockWriter)
    (otherD : Nat → MetaBlockReader → Except Fault Node) (d : Nat) :
    ∀ g : Node, g.depth ≤ d → g.IsGraph other otherD → ∀ w : MetaBlockWriter,
      (Node.Serialize other g w).2.block_id = w.block_id ∧
      (∃ bytes, (Node.Serialize other g w).2.data = w.data ++ bytes) ∧
      (Node.Serialize other g w).1.1 = w.block_id ∧
      (Node.Serialize other g w).1.2 < (Node.Serialize other g w).2.data.length ∧
      (w.block_id < 18446744073709551616 →
        (Node.Serialize other g w).2.data.length < 18446744073709551616 →
        ∀ post art, art.blocks w.block_id = (Node.Serialize other g w).2.data ++ post →
        ∀ fuel, g.depth ≤ fuel →
        ∃ g1, Node.loadAll otherD art fuel (Node.Serialize other g w).1.1
            (Node.Serialize other g w).1.2 = some (.ok g1) ∧ g1.shape = g.shape) := by
  induction d with
  | zero =>
    intro g hd
    rw [Node.depth_eq] at hd
    omega
  | succ d ih =>
    intro g hd hg w
    obtain ⟨hN4, hO⟩ := (Node.IsGraph_iff other otherD g).mp hg
    by_cases ht : g.type = .N4
    · obtain ⟨hc4, hlen, hpl, hp, hk, hkb, hcl, -, hch⟩ := hN4 ht
      obtain ⟨c1, c2, c3⟩ := Node.IsGraph.slots other otherD _ _ hch
      have hdg := Node.depth_eq g
      exact Node.Serialize_loadAll_step other otherD g ht hc4 hlen hpl hp hk hkb hcl c2 c3
        (fun c hc => ih c (le_trans (Node.depth_le_of_mem _ c hc) (by omega)) (c1 c hc)) w
    · obtain ⟨s1, s2, s3, s4, s5⟩ := hO ht w
      rw [Node.Serialize_of_other other g w ht]
      refine ⟨s1, s2, s3, s4, fun _ _ post art hart fuel hf => ?_⟩
      obtain ⟨c1, hd1, hs1⟩ := s5 post art hart
      have hdg := Node.depth_eq g
      obtain ⟨f, rfl⟩ : ∃ f, fuel = f + 1 := ⟨fuel - 1, by omega⟩
      refine ⟨c1, ?_, hs1⟩
      unfold Node.loadAll
      rw [hd1]
      simp only
      unfold Node.forceAll
      rw [if_neg (by rw [Node.type_of_shape_eq c1 g hs1]; exact ht)]

theorem exampleLeaf_stored (p : List Nat) (hp : p.length ≤ 1) (hb : ∀ b, b ∈ p → b < 256) :
    Node.Stored exampleLeafSerialize exampleLeafDeserialize (exampleLeaf p) := by
  intro w
  have hdata : (exampleLeafSerialize (exampleLeaf p) w).2.data =
      w.data ++ [4, p.length, arrGet p 0 0] := by
    have h1 : p.length % 256 = p.length := Nat.mod_eq_of_lt (by omega)
    have h2 : arrGet p 0 0 % 256 = arrGet p 0 0 := by
      apply Nat.mod_eq_of_lt
      match p, hb with
      | [], _ => simp [arrGet]
      | b :: _, hb => simpa [arrGet] using hb b (by simp)
    simp [exampleLeafSerialize, exampleLeaf, MetaBlockWriter.Write, toBytes, Node.type,
      Node.prefix_length, Node.prefix_bytes, NodeType.toByte, h1, h2]
  refine ⟨rfl, ⟨_, hdata⟩, rfl, ?_, ?_⟩
  · rw [hdata]
    simp [exampleLeafSerialize, MetaBlockWriter.offset]
  · intro post art hart
    rw [hdata] at hart
    refine ⟨exampleLeaf p, ?_, rfl⟩
    show Node.Deserialize exampleLeafDeserialize art w.block_id w.data.length = _
    have e0 : window (w.data ++ [4, p.length, arrGet p 0 0] ++ post) w.data.length 1 = [4] :=
      Node4.window_of_eq _ w.data [4] ([p.length, arrGet p 0 0] ++ post) _ 1 (by simp) rfl rfl
    have e1 : window (w.data ++ [4, p.length, arrGet p 0 0] ++ post) (w.data.length + 1) 1 =
        [p.length] :=
      Node4.window_of_eq _ (w.data ++ [4]) [p.length] ([arrGet p 0 0] ++ post) _ 1 (by simp)
        (by simp) rfl
    have e2 : window (w.data ++ [4, p.length, arrGet p 0 0] ++ post) (w.data.length + 1 + 1) 1 =
        [arrGet p 0 0] :=
      Node4.window_of_eq _ (w.data ++ [4, p.length]) [arrGet p 0 0] post _ 1 (by simp)
        (by simp) rfl
    have hlen : (w.data ++ [4, p.length, arrGet p 0 0] ++ post).length =
        w.data.length + 3 + post.length := by
      simp only [List.length_append, List.length_cons, List.length_nil]
    unfold Node.Deserialize
    rw [hart, MetaBlockReader.Read_ok _ _ 1 (by rw [hlen]; omega)]
    simp only
    rw [e0, if_neg (by decide)]
    unfold exampleLeafDeserialize
    rw [MetaBlockReader.Read_ok _ _ 1 (by rw [hlen]; omega)]
    simp only
    rw [MetaBlockReader.Read_ok _ _ 1 (by rw [hlen]; omega)]
    simp only
    rw [e1, e2]
    match p, hp with
    | [], _ => rfl
    | [b], _ => rfl
    | _ :: _ :: _, hp => simp at hp

theorem exampleLeaf_isGraph (p : List Nat) (hp : p.length ≤ 1) (hb : ∀ b, b ∈ p → b < 256) :
    (exampleLeaf p).IsGraph exampleLeafSerialize exampleLeafDeserialize :=
  (Node.IsGraph_iff _ _ _).mpr
    ⟨fun h => by simp [exampleLeaf, Node.type] at h, fun _ => exampleLeaf_stored p hp hb⟩

theorem exampleNode4_isGraph :
    exampleNode4.IsGraph exampleLeafSerialize exampleLeafDeserialize := by
  refine (Node.IsGraph_iff _ _ _).mpr ⟨fun _ => ⟨by decide, rfl, by decide, ?_, rfl, ?_, rfl, rfl, ?_⟩,
    fun h => absurd rfl h⟩
  · intro b hb
    simp [exampleNode4, Node.prefix_bytes] at hb
  · intro b hb
    simp only [exampleNode4, Node.key, List.mem_cons, List.mem_singleton, List.not_mem_nil,
      or_false] at hb
    omega
  · simp only [exampleNode4, Node.child, Node.count, Node.IsGraph.children, and_true]
    exact ⟨exampleLeaf_isGraph [] (by decide) (by simp),
      exampleLeaf_isGraph [0x05] (by decide) (by simp)⟩

theorem exampleTree_isGraph :
    exampleTree.IsGraph exampleLeafSerialize exampleLeafDeserialize := by
  refine (Node.IsGraph_iff _ _ _).mpr ⟨fun _ => ⟨by decide, rfl, by decide, ?_, rfl, ?_, rfl, rfl, ?_⟩,
    fun h => absurd rfl h⟩
  · intro b hb
    simp only [exampleTree, Node.prefix_bytes, List.mem_singleton] at hb
    omega
  · intro b hb
    simp only [exampleTree, Node.key, List.mem_cons, List.mem_singleton, List.not_mem_nil,
      or_false] at hb
    omega
  · simp only [exampleTree, Node.child, Node.count, Node.IsGraph.children, and_true]
    exact ⟨exampleNode4_isGraph, exampleLeaf_isGraph [9] (by decide) (by simp)⟩

namespace Node4

/-- C6: round trip. For every graph under a Node4 built in memory, the nodes of the other
variants being stored and given back by their own `Serialize` and `Deserialize`, and for a
writer whose block id and final offset are `idx_t` values: deserializing from the address
`Serialize` returned and then forcing the materialization of every child (with fuel for the
height of the graph) yields a node of the same shape, that is the same tag, count, prefix
length, prefix bytes, keys and, recursively, children. At the level of the Node4,
`Node4::Deserialize` applied to what `Node4::Serialize` wrote after the tag returns the
written count, prefix and keys, no child, and as `block_offsets` the addresses `Serialize`
obtained for the children, and it ends at the end of the record. The `prefix_length` of the
node read is the one its constructor leaves for the length read: `Node4::Deserialize` does
not assign the field. -/
theorem Serialize_roundtrip (other : Node → MetaBlockWriter → (Nat × Nat) × MetaBlockWriter)
    (otherD : Nat → MetaBlockReader → Except Fault Node) (g : Node) (w : MetaBlockWriter)
    (ht : g.type = .N4) (hg : g.IsGraph other otherD) (hb : w.block_id < 18446744073709551616)
    (hl : (Serialize other g w).2.data.length < 18446744073709551616) :
    (∀ fuel, g.depth ≤ fuel →
      ∃ g1, Node.loadAll otherD (Serialize other g w).2.store fuel
          (Serialize other g w).1.1 (Serialize other g w).1.2 = some (.ok g1) ∧
        g1.shape = g.shape) ∧
    Deserialize ⟨(Serialize other g w).2.data, (Serialize other g w).1.2 + 1⟩ =
      .ok (lazyNode g (Node.Serialize.children other g.child w).1,
        ⟨(Serialize other g w).2.data, (Serialize other g w).2.data.length⟩) := by
  obtain ⟨hc4, hlen, hpl, hp, hk, hkb, hcl, hbo, hch⟩ :=
    ((Node.IsGraph_iff other otherD g).mp hg).1 ht
  obtain ⟨a1, -, -, -, a5⟩ :=
    Node.Serialize_loadAll_graph other otherD g.depth g (le_refl _) hg w
  rw [Node.Serialize_of_N4 other g w ht] at a1 a5
  refine ⟨fun fuel hf => ?_, ?_⟩
  · refine a5 hb hl [] _ ?_ fuel hf
    simp [MetaBlockWriter.store, a1]
  · obtain ⟨c1, -, -⟩ := Node.IsGraph.slots other otherD _ _ hch
    have hP := fun c (hc : some c ∈ g.child) (w : MetaBlockWriter) =>
      Node.Serialize_loadAll_graph other otherD c.depth c (le_refl _) (c1 c hc) w
    obtain ⟨-, -, r3, r4⟩ := Node.Serialize.children_addresses other otherD g.child hP w
    have hrl := recordBytes_length g (Node.Serialize.children other g.child w).1 hk
      (by rw [r3, hcl])
    unfold Serialize at hl ⊢
    simp only [Serialize.writeRecord_eq, MetaBlockWriter.offset] at hl ⊢
    rw [List.length_append, hrl] at hl
    obtain ⟨q1, -⟩ := r4 hb (by omega)
    have h := (Deserialize_record g (Node.Serialize.children other g.child w).1
      (Node.Serialize.children other g.child w).2.data [] ht (by omega) hpl hlen hp hk hkb
      (by rw [r3, hcl]) q1).2
    simp only [List.append_nil] at h
    rw [h, List.length_append]

set_option maxRecDepth 100000 in
/-- Witness of C6: the example graph of height 3, a Node4 over a Node4 over two leaves and
over a leaf, written by a writer on block 3 that holds 8 bytes already, the leaves by the
`Serialize` of the examples. -/
theorem Serialize_roundtrip_witness :
    exampleTree.type = .N4 ∧
    exampleTree.IsGraph exampleLeafSerialize exampleLeafDeserialize ∧
    (∃ g1, Node.loadAll exampleLeafDeserialize
        (Serialize exampleLeafSerialize exampleTree ⟨3, [1, 2, 3, 4, 5, 6, 7, 8]⟩).2.store
        3 (Serialize exampleLeafSerialize exampleTree ⟨3, [1, 2, 3, 4, 5, 6, 7, 8]⟩).1.1
        (Serialize exampleLeafSerialize exampleTree ⟨3, [1, 2, 3, 4, 5, 6, 7, 8]⟩).1.2 =
        some (.ok g1) ∧ g1.shape = exampleTree.shape) ∧
    Deserialize
      ⟨(Serialize exampleLeafSerialize exampleTree ⟨3, [1, 2, 3, 4, 5, 6, 7, 8]⟩).2.data,
        (Serialize exampleLeafSerialize exampleTree ⟨3, [1, 2, 3, 4, 5, 6, 7, 8]⟩).1.2 + 1⟩ =
      .ok (lazyNode exampleTree
          (Node.Serialize.children exampleLeafSerialize exampleTree.child
            ⟨3, [1, 2, 3, 4, 5, 6, 7, 8]⟩).1,
        ⟨(Serialize exampleLeafSerialize exampleTree ⟨3, [1, 2, 3, 4, 5, 6, 7, 8]⟩).2.data,
          (Serialize exampleLeafSerialize exampleTree
            ⟨3, [1, 2, 3, 4, 5, 6, 7, 8]⟩).2.data.length⟩) :=
  ⟨rfl, exampleTree_isGraph,
    (Serialize_roundtrip exampleLeafSerialize exampleLeafDeserialize exampleTree
      ⟨3, [1, 2, 3, 4, 5, 6, 7, 8]⟩ rfl exampleTree_isGraph (by decide) (by decide)).1 3
      (by decide),
    (Serialize_roundtrip exampleLeafSerialize exampleLeafDeserialize exampleTree
      ⟨3, [1, 2, 3, 4, 5, 6, 7, 8]⟩ rfl exampleTree_isGraph (by decide) (by decide)).2⟩

end Node4

/-! ### GetChild -/

namespace Node4

/-- C11: at a valid position, `Node4::GetChild` on a materialized child returns that
child and the node as it was, whatever the store holds (it is not read); on a child known
only by its block offset it deserializes from `block_offsets[pos]`, a failure of which it
passes on, and otherwise puts the result in `child[pos]` and changes no other field, so
that a second `GetChild(pos)` returns the same child and the same node on every store. -/
theorem GetChild_caches (other : Nat → MetaBlockReader → Except Fault Node) (n : Node)
    (pos : Nat) (hl : Layout n) (hc : n.count ≤ 4) (hpos : pos < n.count) :
    (∀ c, n.childAt pos = some c → ∀ art, GetChild other art n pos = .ok (n, c)) ∧
    (n.childAt pos = none → ∀ art,
      (∀ e, Node.Deserialize other art (n.offsetAt pos).1 (n.offsetAt pos).2 = .error e →
        GetChild other art n pos = .error e) ∧
      (∀ c, Node.Deserialize other art (n.offsetAt pos).1 (n.offsetAt pos).2 = .ok c →
        GetChild other art n pos = .ok (n.setChild pos (some c), c) ∧
        (n.setChild pos (some c)).childAt pos = some c ∧
        (∀ j, j ≠ pos → (n.setChild pos (some c)).childAt j = n.childAt j) ∧
        (n.setChild pos (some c)).type = n.type ∧
        (n.setChild pos (some c)).count = n.count ∧
        (n.setChild pos (some c)).prefix_length = n.prefix_length ∧
        (n.setChild pos (some c)).prefix_bytes = n.prefix_bytes ∧
        (n.setChild pos (some c)).key = n.key ∧
        (n.setChild pos (some c)).block_offsets = n.block_offsets ∧
        ∀ art2, GetChild other art2 (n.setChild pos (some c)) pos =
          .ok (n.setChild pos (some c), c))) := by
  have hcl := hl.child_len
  refine ⟨fun c hcp art => ?_, fun hnone art => ⟨fun e he => ?_, fun c hd => ?_⟩⟩
  · unfold GetChild
    rw [if_neg (by omega), hcp]
  · unfold GetChild
    rw [if_neg (by omega), hnone]
    simp only
    rw [he]
  · have hset : (n.setChild pos (some c)).childAt pos = some c := by
      rw [Node.childAt_setChild, if_pos ⟨rfl, by omega⟩]
    refine ⟨?_, hset, fun j hj => ?_, by simp, by simp, by simp, by simp, by simp, by simp,
      fun art2 => ?_⟩
    · unfold GetChild
      rw [if_neg (by omega), hnone]
      simp only
      rw [hd]
    · rw [Node.childAt_setChild, if_neg (fun h => hj h.1.symm)]
    · unfold GetChild
      rw [if_neg (by simpa using (by omega : ¬ ¬ pos < n.count)), hset]

/-- Witness of C11: position 1 of the example node, whose child is materialized, on every
store; and position 0 of the node with two children known only by their block offsets, on
the example store: the child is read from `block_offsets[0]`, put in `child[0]`, and a
second `GetChild(0)` returns it on every store. -/
theorem GetChild_caches_witness :
    Layout exampleNode4 ∧ 1 < exampleNode4.count ∧
    (∀ art, GetChild (fun _ _ => .error .read_failure) art exampleNode4 1 =
      .ok (exampleNode4, exampleLeaf [0x05])) ∧
    Layout exampleLazyPair ∧ 0 < exampleLazyPair.count ∧ exampleLazyPair.childAt 0 = none ∧
    GetChild (fun _ _ => .error .read_failure) exampleStore exampleLazyPair 0 =
      .ok (exampleLazyPair.setChild 0 (some (lazyNode (create 0)
          (List.replicate 4 (INVALID_INDEX, INVALID_INDEX)))),
        lazyNode (create 0) (List.replicate 4 (INVALID_INDEX, INVALID_INDEX))) ∧
    (exampleLazyPair.setChild 0 (some (lazyNode (create 0)
        (List.replicate 4 (INVALID_INDEX, INVALID_INDEX))))).block_offsets =
      exampleLazyPair.block_offsets ∧
    ∀ art2, GetChild (fun _ _ => .error .read_failure) art2
        (exampleLazyPair.setChild 0 (some (lazyNode (create 0)
          (List.replicate 4 (INVALID_INDEX, INVALID_INDEX))))) 0 =
      .ok (exampleLazyPair.setChild 0 (some (lazyNode (create 0)
          (List.replicate 4 (INVALID_INDEX, INVALID_INDEX)))),
        lazyNode (create 0) (List.replicate 4 (INVALID_INDEX, INVALID_INDEX))) :=
  ⟨⟨rfl, rfl, rfl, rfl⟩, by decide,
    (GetChild_caches (fun _ _ => .error .read_failure) exampleNode4 1 ⟨rfl, rfl, rfl, rfl⟩
      (by decide) (by decide)).1 (exampleLeaf [0x05]) rfl,
    ⟨rfl, rfl, rfl, rfl⟩, by decide, rfl,
    ((((GetChild_caches (fun _ _ => .error .read_failure) exampleLazyPair 0
      ⟨rfl, rfl, rfl, rfl⟩ (by decide) (by decide)).2 rfl exampleStore).2
        (lazyNode (create 0) (List.replicate 4 (INVALID_INDEX, INVALID_INDEX))) rfl).1),
    ((((GetChild_caches (fun _ _ => .error .read_failure) exampleLazyPair 0
      ⟨rfl, rfl, rfl, rfl⟩ (by decide) (by decide)).2 rfl exampleStore).2
        (lazyNode (create 0) (List.replicate 4 (INVALID_INDEX, INVALID_INDEX)))
        rfl).2.2.2.2.2.2.2.2.1),
    ((((GetChild_caches (fun _ _ => .error .read_failure) exampleLazyPair 0
      ⟨rfl, rfl, rfl, rfl⟩ (by decide) (by decide)).2 rfl exampleStore).2
        (lazyNode (create 0) (List.replicate 4 (INVALID_INDEX, INVALID_INDEX)))
        rfl).2.2.2.2.2.2.2.2.2)⟩

end Node4

/-! ### The order of serialization -/

theorem Node.Serialize.children_length
    (other : Node → MetaBlockWriter → (Nat × Nat) × MetaBlockWriter)
    (ch : List (Option Node)) (w : MetaBlockWriter) :
    (Node.Serialize.children other ch w).1.length = ch.length := by
  induction ch generalizing w with
  | nil => simp [Node.Serialize.children]
  | cons x rest ih =>
    cases x with
    | none => simp [Node.Serialize.children, ih]
    | some c => simp [Node.Serialize.children, ih]

theorem Node.Serialize.children_absent
    (other : Node → MetaBlockWriter → (Nat × Nat) × MetaBlockWriter)
    (ch : List (Option Node)) (w : MetaBlockWriter) (i : Nat) (h : ch[i]? = some none) :
    arrGet (Node.Serialize.children other ch w).1 i (0, 0) = (INVALID_INDEX, INVALID_INDEX) := by
  induction ch generalizing w i with
  | nil => simp at h
  | cons x rest ih =>
    cases i with
    | zero =>
      have hx : x = none := by simpa using h
      subst hx
      simp [Node.Serialize.children, arrGet]
    | succ i =>
      have h2 : rest[i]? = some none := by simpa using h
      cases x with
      | none =>
        have := ih w i h2
        simpa [Node.Serialize.children, arrGet] using this
      | some c =>
        have := ih (Node.Serialize other c w).2 i h2
        simpa [Node.Serialize.children, arrGet] using this

/-- The address kept for a present child is the one its `Serialize` returns on the writer
that the slots before it left. -/
theorem Node.Serialize.children_present
    (other : Node → MetaBlockWriter → (Nat × Nat) × MetaBlockWriter)
    (ch : List (Option Node)) (w : MetaBlockWriter) (i : Nat) (c : Node)
    (h : ch[i]? = some (some c)) :
    arrGet (Node.Serialize.children other ch w).1 i (0, 0) =
      (Node.Serialize other c (Node.Serialize.children other (ch.take i) w).2).1 := by
  induction ch generalizing w i with
  | nil => simp at h
  | cons x rest ih =>
    cases i with
    | zero =>
      have hx : x = some c := by simpa using h
      subst hx
      simp [Node.Serialize.children, arrGet]
    | succ i =>
      have h2 : rest[i]? = some (some c) := by simpa using h
      cases x with
      | none =>
        have := ih w i h2
        simpa [Node.Serialize.children, arrGet] using this
      | some c0 =>
        have := ih (Node.Serialize other c0 w).2 i h2
        simpa [Node.Serialize.children, arrGet] using this

theorem Node4.Serialize_eq (other : Node → MetaBlockWriter → (Nat × Nat) × MetaBlockWriter)
    (n : Node) (w : MetaBlockWriter) :
    Node4.Serialize other n w =
      (((Node.Serialize.children other n.child w).2.block_id,
          (Node.Serialize.children other n.child w).2.data.length),
        ⟨(Node.Serialize.children other n.child w).2.block_id,
          (Node.Serialize.children other n.child w).2.data ++
            Node4.recordBytes n (Node.Serialize.children other n.child w).1⟩) := by
  unfold Node4.Serialize
  simp only [Node4.Serialize.writeRecord_eq, MetaBlockWriter.offset]

/-- Where the record of a graph of Node4 nodes lies: in the writer's block, at or after
the writer's position, and before the end of what was written. -/
theorem Node.Serialize_position
    (other : Node → MetaBlockWriter → (Nat × Nat) × MetaBlockWriter) (g : Node)
    (hg : g.IsNode4Graph) (w : MetaBlockWriter) :
    (Node.Serialize other g w).2.block_id = w.block_id ∧
    (∃ bytes, (Node.Serialize other g w).2.data = w.data ++ bytes) ∧
    (Node.Serialize other g w).1.1 = w.block_id ∧
    w.data.length ≤ (Node.Serialize other g w).1.2 ∧
    (Node.Serialize other g w).1.2 < (Node.Serialize other g w).2.data.length := by
  obtain ⟨a1, a2, a3, a4, -⟩ := Node.Serialize_loadAll other
    (fun _ _ => .error .read_failure) g.depth g (le_refl _) hg w
  refine ⟨a1, a2, a3, ?_, a4⟩
  obtain ⟨ht, -, -, -, -, -, -, -, -, hch⟩ := (Node.IsNode4Graph_iff g).mp hg
  obtain ⟨c1, -, -⟩ := Node.IsNode4Graph.children_slots _ _ hch
  have hP := fun c (hc : some c ∈ g.child) (w : MetaBlockWriter) =>
    Node.Serialize_loadAll other (fun _ _ => .error .read_failure) c.depth c (le_refl _)
      (c1 c hc) w
  obtain ⟨-, ⟨b, r2⟩, -, -⟩ := Node.Serialize.children_addresses other
    (fun _ _ => .error .read_failure) g.child hP w
  rw [Node.Serialize_of_N4 other g w ht, Node4.Serialize_eq]
  simp only
  rw [r2, List.length_append]
  omega

theorem Node.Serialize.children_order
    (other : Node → MetaBlockWriter → (Nat × Nat) × MetaBlockWriter)
    (ch : List (Option Node)) (hg : ∀ c, some c ∈ ch → c.IsNode4Graph) (w : MetaBlockWriter) :
    (Node.Serialize.children other ch w).2.block_id = w.block_id ∧
    w.data.length ≤ (Node.Serialize.children other ch w).2.data.length ∧
    (∀ i c, ch[i]? = some (some c) →
      (arrGet (Node.Serialize.children other ch w).1 i (0, 0)).1 = w.block_id ∧
      w.data.length ≤ (arrGet (Node.Serialize.children other ch w).1 i (0, 0)).2 ∧
      (arrGet (Node.Serialize.children other ch w).1 i (0, 0)).2 <
        (Node.Serialize.children other ch w).2.data.length) ∧
    (∀ i j c d, i < j → ch[i]? = some (some c) → ch[j]? = some (some d) →
      (arrGet (Node.Serialize.children other ch w).1 i (0, 0)).2 <
        (arrGet (Node.Serialize.children other ch w).1 j (0, 0)).2) := by
  induction ch generalizing w with
  | nil =>
    refine ⟨rfl, le_refl _, fun i c h => ?_, fun i j c d _ h => ?_⟩
    · simp at h
    · simp at h
  | cons x rest ih =>
    have ihr := ih (fun c hc => hg c (List.mem_cons_of_mem _ hc))
    cases x with
    | none =>
      obtain ⟨r1, r2, r3, r4⟩ := ihr w
      refine ⟨by simpa [Node.Serialize.children] using r1,
        by simpa [Node.Serialize.children] using r2, fun i c h => ?_, fun i j c d hij hi hj => ?_⟩
      · cases i with
        | zero => simp at h
        | succ i =>
          have := r3 i c (by simpa using h)
          simpa [Node.Serialize.children, arrGet] using this
      · cases i with
        | zero => simp at hi
        | succ i =>
          cases j with
          | zero => omega
          | succ j =>
            have := r4 i j c d (by omega) (by simpa using hi) (by simpa using hj)
            simpa [Node.Serialize.children, arrGet] using this
    | some c0 =>
      obtain ⟨p1, ⟨b, p2⟩, p3, p4, p5⟩ :=
        Node.Serialize_position other c0 (hg c0 (List.mem_cons_self _ _)) w
      obtain ⟨r1, r2, r3, r4⟩ := ihr (Node.Serialize other c0 w).2
      have hlen : w.data.length ≤ (Node.Serialize other c0 w).2.data.length := by
        rw [p2, List.length_append]
        omega
      refine ⟨by simpa [Node.Serialize.children, p1] using r1,
        by simpa [Node.Serialize.children] using le_trans hlen r2,
        fun i c h => ?_, fun i j c d hij hi hj => ?_⟩
      · cases i with
        | zero =>
          simp only [Node.Serialize.children, arrGet, List.getD_cons_zero]
          exact ⟨p3, p4, lt_of_lt_of_le p5 r2⟩
        | succ i =>
          obtain ⟨q1, q2, q3⟩ := r3 i c (by simpa using h)
          simp only [Node.Serialize.children, arrGet, List.getD_cons_succ]
          simp only [arrGet] at q1 q2 q3
          exact ⟨by rw [q1, p1], le_trans hlen q2, q3⟩
      · cases j with
        | zero => omega
        | succ j =>
          obtain ⟨-, q2, -⟩ := r3 j d (by simpa using hj)
          simp only [arrGet] at q2
          cases i with
          | zero =>
            simp only [Node.Serialize.children, arrGet, List.getD_cons_zero,
              List.getD_cons_succ]
            exact lt_of_lt_of_le p5 q2
          | succ i =>
            have := r4 i j c d (by omega) (by simpa using hi) (by simpa using hj)
            simpa [Node.Serialize.children, arrGet] using this

namespace Node4

/-- C12: `Node4::Serialize` returns the writer position `(block_id, offset)` it captures
after the loop over the child slots and before its own record: what it appends after
that position is exactly the record. A present child in slot `i` is serialized on the
writer left by the slots before it (slot order), and in a graph of Node4 nodes the
address of every child lies in the same block before the address of the node itself, and
the address of a child in an earlier slot before the one of a child in a later slot
(post-order). -/
theorem Serialize_post_order (other : Node → MetaBlockWriter → (Nat × Nat) × MetaBlockWriter)
    (n : Node) (w : MetaBlockWriter) :
    (Serialize other n w).1 =
      ((Node.Serialize.children other n.child w).2.block_id,
        (Node.Serialize.children other n.child w).2.offset) ∧
    (Serialize other n w).2.data =
      (Node.Serialize.children other n.child w).2.data ++
        recordBytes n (Node.Serialize.children other n.child w).1 ∧
    (∀ i c, n.child[i]? = some (some c) →
      arrGet (Node.Serialize.children other n.child w).1 i (0, 0) =
        (Node.Serialize other c (Node.Serialize.children other (n.child.take i) w).2).1) ∧
    (n.IsNode4Graph →
      (∀ i c, n.child[i]? = some (some c) →
        (arrGet (Node.Serialize.children other n.child w).1 i (0, 0)).1 =
          (Serialize other n w).1.1 ∧
        (arrGet (Node.Serialize.children other n.child w).1 i (0, 0)).2 <
          (Serialize other n w).1.2) ∧
      (∀ i j c d, i < j → n.child[i]? = some (some c) → n.child[j]? = some (some d) →
        (arrGet (Node.Serialize.children other n.child w).1 i (0, 0)).2 <
          (arrGet (Node.Serialize.children other n.child w).1 j (0, 0)).2)) := by
  refine ⟨by rw [Serialize_eq]; rfl, by rw [Serialize_eq],
    fun i c h => Node.Serialize.children_present other n.child w i c h, fun hg => ?_⟩
  obtain ⟨-, -, -, -, -, -, -, -, -, hch⟩ := (Node.IsNode4Graph_iff n).mp hg
  obtain ⟨c1, -, -⟩ := Node.IsNode4Graph.children_slots _ _ hch
  obtain ⟨r1, -, r3, r4⟩ := Node.Serialize.children_order other n.child c1 w
  rw [Serialize_eq]
  refine ⟨fun i c h => ?_, r4⟩
  obtain ⟨q1, -, q3⟩ := r3 i c h
  exact ⟨by rw [q1, r1], q3⟩

/-- The slots from `count` on of a reachable node hold no child. -/
theorem Reachable.unused_null (node16Insert : Node → Nat → Option Node → Node) (n : Node)
    (h : Reachable node16Insert n) : ∀ i, n.count ≤ i → n.childAt i = none := by
  induction h with
  | empty L =>
    intro i _
    rcases i with _ | _ | _ | _ | i <;> rfl
  | insert n k c hr hcount hk ih =>
    obtain ⟨hl, -, -, hm⟩ := Reachable.invariant node16Insert n hr
    have hkl := hl.key_len
    have hcl := hl.child_len
    obtain ⟨g1, -, g3, -⟩ := Insert.place_slots n k (some c) (by omega) (by omega) hm
    obtain ⟨-, hp2, -, -⟩ := Insert.findPos_spec n k n.count 0 (by omega) (Nat.zero_le _)
    have hII : Insert node16Insert n k (some c) = Insert.place n k (some c) := by
      unfold Insert
      rw [if_pos hcount]
    rw [hII]
    intro i hi
    have hcnt : (Insert.place n k (some c)).count = n.count + 1 := by rw [g1]; omega
    rw [hcnt] at hi
    rw [g3 i, if_neg (by omega), if_neg (by omega)]
    exact ih i (by omega)
  | erase n pos n1 hr hpos hne he ih =>
    obtain ⟨hl, hc4, -, -⟩ := Reachable.invariant node16Insert n hr
    have hkl := hl.key_len
    have hcl := hl.child_len
    obtain ⟨s1, -, -⟩ := Erase.shifted_slots n pos (by omega) (by omega) hc4 hpos
    rw [Erase_eq n pos hc4 hpos, if_neg (by rw [s1]; exact hne)] at he
    have he2 := Except.ok.inj he
    subst he2
    intro i hi
    rw [s1] at hi
    rw [Erase.shift_left_childAt _ _ _ _ (by simp; omega) (by simp; omega)]
    simp only [Node.count_setCount, Node.childAt_setCount, Node.childAt_setChild]
    split_ifs <;> first | rfl | omega | exact ih i (by omega)

/-- C13: the record `Node4::Serialize` appends for the node itself is the tag (1 byte), the
count (2 bytes), the prefix length (4 bytes), `prefix_length` prefix bytes, the 4 key
bytes of all slots, then one pair of 8-byte values for each of the 4 slots; it is
`75 + prefix_length` bytes long whatever the count. The pair of a slot without a
materialized child is the invalid pair, which is the case of every slot from `count` on
of a node built in memory by `Insert` and `Erase`. -/
theorem Serialize_record_layout
    (other : Node → MetaBlockWriter → (Nat × Nat) × MetaBlockWriter) (n : Node)
    (w : MetaBlockWriter) (hl : Layout n) :
    (Serialize other n w).2.data =
      (Node.Serialize.children other n.child w).2.data ++
        (toBytes 1 n.type.toByte ++ (toBytes 2 n.count ++ (toBytes 4 n.prefix_length ++
          ((List.range n.prefix_length).flatMap
              (fun i => toBytes 1 (arrGet n.prefix_bytes i 0)) ++
            (n.key.flatMap (fun key_v => toBytes 1 key_v) ++
              (Node.Serialize.children other n.child w).1.flatMap
                (fun offsets => toBytes 8 offsets.1 ++ toBytes 8 offsets.2)))))) ∧
    ((List.range n.prefix_length).flatMap
      (fun i => toBytes 1 (arrGet n.prefix_bytes i 0))).length = n.prefix_length ∧
    (n.key.flatMap (fun key_v => toBytes 1 key_v)).length = 4 ∧
    (Node.Serialize.children other n.child w).1.length = 4 ∧
    ((Node.Serialize.children other n.child w).1.flatMap
      (fun offsets => toBytes 8 offsets.1 ++ toBytes 8 offsets.2)).length = 64 ∧
    (Serialize other n w).2.data.length =
      (Node.Serialize.children other n.child w).2.data.length + (75 + n.prefix_length) ∧
    (∀ i, i < 4 → n.childAt i = none →
      arrGet (Node.Serialize.children other n.child w).1 i (0, 0) =
        (INVALID_INDEX, INVALID_INDEX)) ∧
    (∀ node16Insert, Reachable node16Insert n → ∀ i, n.count ≤ i → i < 4 →
      arrGet (Node.Serialize.children other n.child w).1 i (0, 0) =
        (INVALID_INDEX, INVALID_INDEX)) := by
  have hkl := hl.key_len
  have hcl := hl.child_len
  have hol : (Node.Serialize.children other n.child w).1.length = 4 := by
    rw [Node.Serialize.children_length, hcl]
  have hrl := recordBytes_length n (Node.Serialize.children other n.child w).1 hkl hol
  have h1 : ∀ m, ((List.range m).flatMap
      (fun i => toBytes 1 (arrGet n.prefix_bytes i 0))).length = m := by
    intro m
    induction m with
    | zero => rfl
    | succ m ih => rw [List.range_succ, List.flatMap_append]; simp [toBytes_length, ih]
  have h2 : ∀ l : List Nat, (l.flatMap (fun key_v => toBytes 1 key_v)).length = l.length := by
    intro l
    induction l with
    | nil => rfl
    | cons x l ih => simp [toBytes_length, ih]; omega
  have h3 : ∀ l : List (Nat × Nat), (l.flatMap
      (fun offsets => toBytes 8 offsets.1 ++ toBytes 8 offsets.2)).length = 16 * l.length := by
    intro l
    induction l with
    | nil => rfl
    | cons x l ih => simp [toBytes_length, ih]; omega
  have hnone : ∀ i, i < 4 → n.childAt i = none →
      arrGet (Node.Serialize.children other n.child w).1 i (0, 0) =
        (INVALID_INDEX, INVALID_INDEX) := by
    intro i hi hn
    apply Node.Serialize.children_absent
    rw [Node.getElem?_child n i (by omega), hn]
  refine ⟨by rw [Serialize_eq]; rfl, h1 _, by rw [h2, hkl], hol, by rw [h3, hol], ?_, hnone,
    fun f hr i hi h4 => hnone i h4 (Reachable.unused_null f n hr i hi)⟩
  rw [Serialize_eq]
  simp only [List.length_append, hrl]

/-- Witness of C13: the record of the example node, serialized on an empty block 3, is
75 bytes after what its two leaves wrote. -/
theorem Serialize_record_layout_witness :
    Layout exampleNode4 ∧
    (Serialize (fun _ w => ((0, 0), w)) exampleNode4 ⟨3, []⟩).2.data.length =
      (Node.Serialize.children (fun _ w => ((0, 0), w)) exampleNode4.child ⟨3, []⟩).2.data.length
        + (75 + exampleNode4.prefix_length) :=
  ⟨⟨rfl, rfl, rfl, rfl⟩,
    (Serialize_record_layout (fun _ w => ((0, 0), w)) exampleNode4 ⟨3, []⟩
      ⟨rfl, rfl, rfl, rfl⟩).2.2.2.2.2.1⟩

end Node4

/-! ### Capacity and collapse -/

namespace Node4

/-- C14: every Node4 reachable from an empty Node4 by `Insert` and `Erase` holds at most 4
children. Below capacity `Insert` leaves a Node4 with one child more, still at most 4;
at capacity it does not touch the count of the Node4 and places no fifth entry in it: the
entry goes to `Node16::Insert` on the Node16 with count 4 that takes the slot. -/
theorem Reachable.count_le_capacity (node16Insert : Node → Nat → Option Node → Node)
    (n : Node) (h : Reachable node16Insert n) (k : Nat) (c : Option Node) :
    n.count ≤ 4 ∧
    (n.count < 4 →
      (Insert node16Insert n k c).type = .N4 ∧
      (Insert node16Insert n k c).count = n.count + 1 ∧
      (Insert node16Insert n k c).count ≤ 4) ∧
    (n.count = 4 →
      Insert node16Insert n k c = node16Insert (Insert.grow n).2 k c ∧
      (Insert.grow n).2.type = .N16 ∧ (Insert.grow n).2.count = 4 ∧
      (Insert.grow n).1.count = 4 ∧ (Insert.grow n).1.key = n.key) := by
  obtain ⟨hl, hc4, -, hm⟩ := Reachable.invariant node16Insert n h
  have hkl := hl.key_len
  have hcl := hl.child_len
  refine ⟨hc4, fun hlt => ?_, fun h4 => ?_⟩
  · obtain ⟨g1, -, -, g4, -⟩ := Insert.place_slots n k c (by omega) (by omega) hm
    have hII : Insert node16Insert n k c = Insert.place n k c := by
      unfold Insert
      rw [if_pos hlt]
    rw [hII, g1, g4]
    exact ⟨hl.type_eq, by omega, by omega⟩
  · obtain ⟨b1, b2, -, -, -, -⟩ := Insert.grow_base n
    refine ⟨?_, ?_, ?_, ?_, ?_⟩
    · unfold Insert
      rw [if_neg (by omega)]
    · rw [Insert.grow_eq]
      simpa using b1
    · rw [Insert.grow_eq]
      simpa using b2
    · rw [Insert.grow_eq]
      simpa using h4
    · rw [Insert.grow_eq]
      simp

/-- Witness of C14: the Node4 with three children gets a fourth and stays a Node4 with
count 4; the full Node4 hands a fifth entry to `Node16::Insert` on a Node16 with count 4
and keeps its own count. -/
theorem Reachable.count_le_capacity_witness :
    Reachable (fun n _ _ => n) exampleBuilt3 ∧ Reachable (fun n _ _ => n) exampleBuilt4 ∧
    exampleBuilt3.count = 3 ∧ exampleBuilt4.count = 4 ∧
    ((Insert (fun n _ _ => n) exampleBuilt3 0x18 (some (exampleLeaf [4]))).type = .N4 ∧
      (Insert (fun n _ _ => n) exampleBuilt3 0x18 (some (exampleLeaf [4]))).count =
        exampleBuilt3.count + 1 ∧
      (Insert (fun n _ _ => n) exampleBuilt3 0x18 (some (exampleLeaf [4]))).count ≤ 4) ∧
    (exampleBuilt4.count ≤ 4 ∧
      Insert (fun n _ _ => n) exampleBuilt4 0x40 (some (exampleLeaf [5])) =
        (Insert.grow exampleBuilt4).2 ∧
      (Insert.grow exampleBuilt4).2.type = .N16 ∧ (Insert.grow exampleBuilt4).2.count = 4 ∧
      (Insert.grow exampleBuilt4).1.count = 4 ∧
      (Insert.grow exampleBuilt4).1.key = exampleBuilt4.key) :=
  ⟨exampleBuilt3_reachable, exampleBuilt4_reachable, rfl, rfl,
    (Reachable.count_le_capacity (fun n _ _ => n) exampleBuilt3 exampleBuilt3_reachable 0x18
      (some (exampleLeaf [4]))).2.1 (by decide),
    (Reachable.count_le_capacity (fun n _ _ => n) exampleBuilt4 exampleBuilt4_reachable 0x40
      (some (exampleLeaf [5]))).1,
    (Reachable.count_le_capacity (fun n _ _ => n) exampleBuilt4 exampleBuilt4_reachable 0x40
      (some (exampleLeaf [5]))).2.2 rfl⟩

/-- C15, as stated, fails: after the first `Insert` into an empty Node4 the slot holds a
Node4 with exactly one child. -/
theorem Insert_into_empty_counterexample :
    Reachable (fun n _ _ => n)
      (Insert (fun n _ _ => n) (create 0) 7 (some (exampleLeaf []))) ∧
    (Insert (fun n _ _ => n) (create 0) 7 (some (exampleLeaf []))).type = .N4 ∧
    (Insert (fun n _ _ => n) (create 0) 7 (some (exampleLeaf []))).count = 1 :=
  ⟨Reachable.insert _ 7 (exampleLeaf []) (Reachable.empty 0) (by decide) (by decide), rfl, rfl⟩

/-- C15, amended: on a Node4 reachable from an empty Node4, a completed `Erase` at a valid
position never leaves that Node4 in the slot with exactly one child: from a count other
than 2 it leaves the Node4 with one child less and not with one child, from count 2 it
puts the surviving child in the slot. `Insert` does not collapse: below capacity the
Node4 has exactly one child afterwards exactly when it had none before. -/
theorem Reachable.single_child (node16Insert : Node → Nat → Option Node → Node) (n : Node)
    (h : Reachable node16Insert n) (k : Nat) (c : Node) (pos : Nat) :
    (n.count < 4 →
      ((Insert node16Insert n k (some c)).count = 1 ↔ n.count = 0)) ∧
    (pos < n.count → n.count ≠ 2 →
      ∃ n1, Erase n (pos : Int) = .ok n1 ∧ n1.type = .N4 ∧ n1.count = n.count - 1 ∧
        n1.count ≠ 1) ∧
    (pos < n.count → n.count = 2 →
      ∃ s r, n.childAt (1 - pos) = some s ∧ Erase n (pos : Int) = .ok r ∧
        r.type = s.type ∧ r.count = s.count ∧ r.key = s.key ∧ r.child = s.child) := by
  obtain ⟨hl, hc4, -, hm⟩ := Reachable.invariant node16Insert n h
  have hkl := hl.key_len
  have hcl := hl.child_len
  refine ⟨fun hlt => ?_, fun hpos hne => ?_, fun hpos h2 => ?_⟩
  · obtain ⟨g1, -⟩ := Insert.place_slots n k (some c) (by omega) (by omega) hm
    have hII : Insert node16Insert n k (some c) = Insert.place n k (some c) := by
      unfold Insert
      rw [if_pos hlt]
    rw [hII, g1]
    omega
  · obtain ⟨s1, -, -⟩ := Erase.shifted_slots n pos (by omega) (by omega) hc4 hpos
    obtain ⟨f1, -⟩ := Erase.shift_left_fields (n.count - 1 - pos) pos
      ((n.setChild pos none).setCount (n.count - 1))
    refine ⟨_, ?_, ?_, s1, ?_⟩
    · rw [Erase_eq n pos hc4 hpos, if_neg (by rw [s1]; omega)]
    · rw [f1]
      simpa using hl.type_eq
    · rw [s1]
      omega
  · obtain ⟨s1, -, s3⟩ := Erase.shifted_slots n pos (by omega) (by omega) hc4 hpos
    obtain ⟨s, hs⟩ := Option.isSome_iff_exists.mp (hm (1 - pos) (by omega))
    have hsurv : (Erase.shift (n.count - 1 - pos) pos
        ((n.setChild pos none).setCount (n.count - 1))).childAt 0 = some s := by
      rw [s3 0 (by omega)]
      by_cases hp : pos = 0
      · rw [if_neg (by omega), ← hs, hp]
      · rw [if_pos (by omega), ← hs]
        congr 1
        omega
    refine ⟨s, Erase.collapse (Erase.shift (n.count - 1 - pos) pos
      ((n.setChild pos none).setCount (n.count - 1))) s, hs, ?_, ?_, ?_, ?_, ?_⟩
    · rw [Erase_eq n pos hc4 hpos, if_pos (by rw [s1]; omega), hsurv]
    all_goals simp [Erase.collapse]

/-- Witness of C15, amended: `Erase` at position 0 of the Node4 with the two leaves under
0x10 and 0x20 puts the leaf of 0x20 in the slot, `Erase` at position 1 of the Node4 with
three children leaves a Node4 with two, and the first `Insert` into the empty Node4 leaves
one child. -/
theorem Reachable.single_child_witness :
    Reachable (fun n _ _ => n) exampleBuilt2 ∧ Reachable (fun n _ _ => n) exampleBuilt3 ∧
    exampleBuilt2.count = 2 ∧ exampleBuilt3.count = 3 ∧
    (∃ s r, exampleBuilt2.childAt (1 - 0) = some s ∧
      Erase exampleBuilt2 ((0 : Nat) : Int) = .ok r ∧
      r.type = s.type ∧ r.count = s.count ∧ r.key = s.key ∧ r.child = s.child) ∧
    Erase exampleBuilt2 ((0 : Nat) : Int) = .ok (.mk .NLeaf 0 2 [0x20, 2] [] [] []) ∧
    (∃ n1, Erase exampleBuilt3 ((1 : Nat) : Int) = .ok n1 ∧ n1.type = .N4 ∧
      n1.count = exampleBuilt3.count - 1 ∧ n1.count ≠ 1) ∧
    ((Insert (fun n _ _ => n) (create 0) 7 (some (exampleLeaf []))).count = 1 ↔
      (create 0).count = 0) :=
  ⟨exampleBuilt2_reachable, exampleBuilt3_reachable, rfl, rfl,
    (Reachable.single_child (fun n _ _ => n) exampleBuilt2 exampleBuilt2_reachable 7
      (exampleLeaf []) 0).2.2 (by decide) rfl,
    rfl,
    (Reachable.single_child (fun n _ _ => n) exampleBuilt3 exampleBuilt3_reachable 7
      (exampleLeaf []) 1).2.1 (by decide) (by decide),
    (Reachable.single_child (fun n _ _ => n) (create 0) (Reachable.empty 0) 7
      (exampleLeaf []) 0).1 (by decide)⟩

end Node4

/-! ### Corrupt records, invalid positions and children known only by their offsets -/

namespace Node4

/-- C16, as stated, fails: from a record whose count field is 5, `Node4::Deserialize`
returns a Node4 with count 5. -/
theorem Deserialize_corrupt_counterexample :
    ∃ n r, Deserialize ⟨exampleCorruptRecord, 0⟩ = .ok (n, r) ∧ n.type = .N4 ∧
      n.count = 5 ∧ 4 < n.count := by
  rw [Deserialize_eq, if_pos (by decide)]
  exact ⟨_, _, rfl, rfl, by decide, by decide⟩

/-- C16, amended: `Node4::Deserialize` reports a read failure, and returns no node,
exactly when the block ends before the `74 + prefix_length` bytes of the record; it does
not validate the header: whenever those bytes are there it returns a Node4 whose count is
the 16-bit value read, whatever that value is. -/
theorem Deserialize_no_validation (data : List Nat) (o : Nat) :
    (Deserialize ⟨data, o⟩ = .error .read_failure ↔
      ¬ (o + 6 ≤ data.length ∧
        o + 74 + fromBytes (window data (o + 2) 4) ≤ data.length)) ∧
    ((o + 6 ≤ data.length ∧ o + 74 + fromBytes (window data (o + 2) 4) ≤ data.length) →
      ∃ n r, Deserialize ⟨data, o⟩ = .ok (n, r) ∧ n.type = .N4 ∧
        n.count = fromBytes (window data o 2)) := by
  rw [Deserialize_eq]
  by_cases hc : o + 6 ≤ data.length ∧
      o + 74 + fromBytes (window data (o + 2) 4) ≤ data.length
  · rw [if_pos hc]
    refine ⟨⟨fun h => (by cases h), fun h => absurd hc h⟩, fun _ => ⟨_, _, rfl, rfl, rfl⟩⟩
  · rw [if_neg hc]
    exact ⟨⟨fun _ => hc, fun _ => rfl⟩, fun h => absurd h hc⟩

/-- C17: `Node4::Erase` at position -1 of the example node, which has 2 children, passes
the assertion, because -1 is below the count as an `int`, and goes on to `child[-1]`; no
negative position fails the assertion, while every position at or above the count
does. -/
theorem Erase_negative_position :
    Erase exampleNode4 (-1) = .error .out_of_bounds ∧
    Erase exampleNode4 2 = .error .assertion_failure ∧
    (∀ (n : Node) (pos : Int), pos < 0 → Erase n pos = .error .out_of_bounds) ∧
    (∀ (n : Node) (pos : Int), (n.count : Int) ≤ pos →
      Erase n pos = .error .assertion_failure) := by
  refine ⟨rfl, rfl, fun n pos h => ?_, fun n pos h => ?_⟩
  · unfold Erase
    rw [if_neg (by omega), if_pos h]
  · unfold Erase
    rw [if_pos (by omega)]

/-- C18: for a Node4 whose occupied child in slot 0 is known only by its block offset
`(3, 8)`, `Node4::Serialize` writes the invalid pair in slot 0, and what
`Node4::Deserialize` reads back from the record has the invalid pair as
`block_offsets[0]`: the address of the child is lost. -/
theorem Serialize_drops_offsets
    (other : Node → MetaBlockWriter → (Nat × Nat) × MetaBlockWriter) (w : MetaBlockWriter) :
    0 < exampleLazyNode4.count ∧ exampleLazyNode4.childAt 0 = none ∧
    exampleLazyNode4.offsetAt 0 = (3, 8) ∧
    arrGet (Node.Serialize.children other exampleLazyNode4.child w).1 0 (0, 0) =
      (INVALID_INDEX, INVALID_INDEX) ∧
    ∃ n r, Deserialize ⟨(Serialize other exampleLazyNode4 w).2.data,
        (Serialize other exampleLazyNode4 w).1.2 + 1⟩ = .ok (n, r) ∧
      n.count = exampleLazyNode4.count ∧ n.key = exampleLazyNode4.key ∧
      n.offsetAt 0 = (INVALID_INDEX, INVALID_INDEX) := by
  have hch : Node.Serialize.children other exampleLazyNode4.child w =
      ([(INVALID_INDEX, INVALID_INDEX), (INVALID_INDEX, INVALID_INDEX),
        (INVALID_INDEX, INVALID_INDEX), (INVALID_INDEX, INVALID_INDEX)], w) := rfl
  refine ⟨by decide, rfl, rfl, by rw [hch]; rfl, ?_⟩
  have h := (Deserialize_record exampleLazyNode4
    [(INVALID_INDEX, INVALID_INDEX), (INVALID_INDEX, INVALID_INDEX),
      (INVALID_INDEX, INVALID_INDEX), (INVALID_INDEX, INVALID_INDEX)] w.data [] rfl
    (by decide) (by decide) rfl (by intro b hb; cases hb) rfl
    (by decide) rfl (by decide)).2
  rw [Serialize_eq, hch]
  simp only [List.append_nil] at h
  exact ⟨_, _, h, rfl, rfl, rfl⟩

/-- C19: on a Node4 whose three children are known only by their block offsets, `Insert`
of byte 5 overwrites the key 0x10 in slot 0 instead of shifting, so that 0x10 is not
found any more; and `Erase` at position 0 shifts the keys but not the block offsets, so
that 0x20 is found at position 0, where the block offset is still the one stored for
0x10, not the one stored for 0x20. -/
theorem Insert_Erase_lose_offsets :
    GetChildPos exampleLazyNode4 0x10 = 0 ∧ exampleLazyNode4.offsetAt 0 = (3, 8) ∧
    GetChildPos exampleLazyNode4 0x20 = 1 ∧ exampleLazyNode4.offsetAt 1 = (3, 83) ∧
    (Insert (fun n _ _ => n) exampleLazyNode4 5 (some (exampleLeaf []))).count = 4 ∧
    (Insert (fun n _ _ => n) exampleLazyNode4 5 (some (exampleLeaf []))).liveKeys =
      [5, 0x20, 0x30, 0] ∧
    GetChildPos (Insert (fun n _ _ => n) exampleLazyNode4 5 (some (exampleLeaf []))) 0x10 =
      INVALID_INDEX ∧
    ∃ n1, Erase exampleLazyNode4 0 = .ok n1 ∧ n1.count = 2 ∧ n1.liveKeys = [0x20, 0x30] ∧
      GetChildPos n1 0x20 = 0 ∧ n1.childAt 0 = none ∧ n1.offsetAt 0 = (3, 8) := by
  refine ⟨by decide, rfl, by decide, rfl, by decide, by decide, by decide, ?_⟩
  exact ⟨_, rfl, by decide, by decide, by decide, rfl, rfl⟩

/-- C20: the Node16 that node16.hpp declares has 16 keys and 16 child references and 4
block offsets, and so has the Node16 that `Node4::Insert` builds from a full Node4:
position 4 has a key and a child and no block offset. -/
theorem Node16_block_offsets :
    (∀ compression_length, (Node16.create compression_length).key.length = 16 ∧
      (Node16.create compression_length).child.length = 16 ∧
      (Node16.create compression_length).block_offsets.length = 4) ∧
    (∀ n : Node, (Insert.grow n).2.key.length = 16 ∧ (Insert.grow n).2.child.length = 16 ∧
      (Insert.grow n).2.block_offsets.length = 4 ∧
      (Insert.grow n).2.block_offsets[4]? = none) := by
  refine ⟨fun L => ⟨rfl, rfl, rfl⟩, fun n => ?_⟩
  obtain ⟨-, -, -, -, b5, b6⟩ := Insert.grow_base n
  have hbo : (Node.CopyPrefix n ((Node16.create n.prefix_length).setCount 4)).block_offsets.length
      = 4 := rfl
  rw [Insert.grow_eq]
  refine ⟨by simpa using b5, by simpa using b6, by simpa using hbo, ?_⟩
  apply List.getElem?_eq_none
  simp only [Node.block_offsets_setChild, Node.block_offsets_setKey, hbo]
  omega

end Node4

/-! ### The collapse of a node whose children are known only by their offsets -/

namespace Node4

/-- C21: the node `exampleLazyPair` is what `Node4::Deserialize` returns for its record,
with two children known only by their block offsets; `Node4::Erase` at position 0, and
at position 1, reaches the collapse with a null `child[0]` and dereferences it. So does
`Erase` at a valid position of every Node4 with two children whose surviving child is not
materialized. -/
theorem Erase_collapse_null_child :
    (∀ pre post : List Nat,
      Deserialize ⟨pre ++ (recordBytes exampleLazyPair exampleLazyPair.block_offsets ++ post),
          pre.length + 1⟩ =
        .ok (exampleLazyPair,
          ⟨pre ++ (recordBytes exampleLazyPair exampleLazyPair.block_offsets ++ post),
            pre.length + (recordBytes exampleLazyPair exampleLazyPair.block_offsets).length⟩)) ∧
    exampleLazyPair.count = 2 ∧
    Erase exampleLazyPair 0 = .error .null_dereference ∧
    Erase exampleLazyPair 1 = .error .null_dereference ∧
    (∀ (n : Node) (pos : Nat), Layout n → n.count = 2 → pos < 2 → n.childAt (1 - pos) = none →
      Erase n (pos : Int) = .error .null_dereference) := by
  refine ⟨fun pre post => ?_, rfl, rfl, rfl, fun n pos hl hcount hpos hnone => ?_⟩
  · exact (Deserialize_record exampleLazyPair exampleLazyPair.block_offsets pre post rfl
      (by decide) (by decide) rfl (by intro b hb; cases hb) rfl (by decide) rfl
      (by decide)).2
  · have hkl := hl.key_len
    have hcl := hl.child_len
    obtain ⟨s1, -, s3⟩ := Erase.shifted_slots n pos (by omega) (by omega) (by omega)
      (by omega)
    have hsurv : (Erase.shift (n.count - 1 - pos) pos
        ((n.setChild pos none).setCount (n.count - 1))).childAt 0 = none := by
      rw [s3 0 (by omega)]
      by_cases hp : pos = 0
      · rw [if_neg (by omega), ← hnone, hp]
      · rw [if_pos (by omega), ← hnone]
        congr 1
        omega
    rw [Erase_eq n pos (by omega) (by omega), if_pos (by rw [s1]; omega), hsurv]

end Node4

/-! ### Streaming LEAD and LAG -/

theorem ext_of_arrGet {α : Type} (junk : α) (l1 l2 : List α) (hlen : l1.length = l2.length)
    (h : ∀ i, i < l1.length → arrGet l1 i junk = arrGet l2 i junk) : l1 = l2 := by
  apply List.ext_getElem hlen
  intro i h1 h2
  have := h i h1
  simpa [arrGet, List.getD_eq_getElem, h1, h2] using this

theorem arrGet_append {α : Type} (junk : α) (l1 l2 : List α) (j : Nat) :
    arrGet (l1 ++ l2) j junk =
      if j < l1.length then arrGet l1 j junk else arrGet l2 (j - l1.length) junk := by
  unfold arrGet
  by_cases h : j < l1.length
  · rw [if_pos h, List.getD_append _ _ _ _ h]
  · rw [if_neg h, List.getD_append_right _ _ _ _ (by omega)]

theorem arrGet_take {α : Type} (junk : α) (l : List α) (k j : Nat) (h : j < k) :
    arrGet (l.take k) j junk = arrGet l j junk := by
  unfold arrGet
  simp [List.getD_eq_getElem?_getD, List.getElem?_take, h]

theorem arrGet_drop {α : Type} (junk : α) (l : List α) (k j : Nat) :
    arrGet (l.drop k) j junk = arrGet l (k + j) junk := by
  unfold arrGet
  simp [List.getD_eq_getElem?_getD, List.getElem?_drop]

theorem VectorOperations.Copy_fold {α : Type} (junk : α) (source target : List α)
    (source_offset target_offset m : Nat) :
    ((List.range m).foldl
      (fun t i => arrSet t (target_offset + i) (arrGet source (source_offset + i) junk))
      target).length = target.length ∧
    ∀ j, arrGet ((List.range m).foldl
        (fun t i => arrSet t (target_offset + i) (arrGet source (source_offset + i) junk))
        target) j junk =
      if target_offset ≤ j ∧ j < target_offset + m ∧ j < target.length then
        arrGet source (source_offset + (j - target_offset)) junk
      else arrGet target j junk := by
  induction m with
  | zero =>
    refine ⟨rfl, fun j => ?_⟩
    rw [if_neg (by omega)]
    rfl
  | succ m ih =>
    obtain ⟨ih1, ih2⟩ := ih
    rw [List.range_succ, List.foldl_append]
    refine ⟨by simpa using ih1, fun j => ?_⟩
    simp only [List.foldl_cons, List.foldl_nil, arrGet_arrSet, ih1, ih2]
    split_ifs <;> first | rfl | omega | (congr 1; omega)

theorem VectorOperations.Copy_get {α : Type} (junk : α) (source target : List α)
    (source_count source_offset target_offset : Nat) :
    (VectorOperations.Copy junk source target source_count source_offset
      target_offset).length = target.length ∧
    ∀ j, arrGet (VectorOperations.Copy junk source target source_count source_offset
        target_offset) j junk =
      if target_offset ≤ j ∧ j < target_offset + (source_count - source_offset) ∧
          j < target.length then
        arrGet source (source_offset + (j - target_offset)) junk
      else arrGet target j junk :=
  VectorOperations.Copy_fold junk source target source_offset target_offset
    (source_count - source_offset)

namespace StreamingWindowState

/-- A chunk with at least as many rows as are buffered: the result is the buffered rows
followed by the first rows of the chunk, and the last rows of the chunk are buffered. -/
theorem LeadLagState.Execute_full {V : Type} (junk : Bool × V) (s : LeadLagState V)
    (input result : List (Bool × V)) (hprev : s.prev.length = s.buffered)
    (hcount : s.buffered ≤ input.length) (hres : result.length = input.length) :
    (LeadLagState.Execute junk s input result).2 =
      s.prev ++ input.take (input.length - s.buffered) ∧
    (LeadLagState.Execute junk s input result).1.prev =
      input.drop (input.length - s.buffered) ∧
    (LeadLagState.Execute junk s input result).1.buffered = s.buffered := by
  unfold LeadLagState.Execute
  simp only [if_neg (show ¬ input.length < s.buffered by omega)]
  obtain ⟨a1, a2⟩ := VectorOperations.Copy_get junk s.prev result
    (min s.buffered input.length) 0 0
  obtain ⟨b1, b2⟩ := VectorOperations.Copy_get junk input
    (VectorOperations.Copy junk s.prev result (min s.buffered input.length) 0 0)
    (input.length - s.buffered) 0 s.buffered
  obtain ⟨c1, c2⟩ := VectorOperations.Copy_get junk input (FlatVector.ValidityReset s.prev)
    input.length (input.length - s.buffered) 0
  have hreset : (FlatVector.ValidityReset s.prev).length = s.buffered := by
    simp [FlatVector.ValidityReset, hprev]
  refine ⟨?_, ?_, by first | rfl | trivial⟩
  · apply ext_of_arrGet junk
    · rw [b1, a1, hres, List.length_append, List.length_take, hprev]
      omega
    · intro j hj
      rw [b1, a1, hres] at hj
      rw [b2 j, a2 j, a1, hres, arrGet_append, hprev]
      by_cases h1 : j < s.buffered
      · rw [if_neg (by omega), if_pos ⟨by omega, by omega, by omega⟩, if_pos h1]
        congr 1
        omega
      · rw [if_pos ⟨by omega, by omega, by omega⟩, if_neg h1, arrGet_take _ _ _ _ (by omega)]
        congr 1
        omega
  · apply ext_of_arrGet junk
    · rw [c1, hreset, List.length_drop]
      omega
    · intro j hj
      rw [c1, hreset] at hj
      rw [c2 j, hreset, if_pos ⟨by omega, by omega, by omega⟩, arrGet_drop]
      congr 1

/-- When every chunk has at least as many rows as are buffered, the results of `Execute`
over the chunks are the buffered rows followed by the rows of the chunks, without the
last rows. -/
theorem LeadLagState.run_full {V : Type} (junk : Bool × V)
    (chunks : List (List (Bool × V))) (s : LeadLagState V)
    (hprev : s.prev.length = s.buffered)
    (hchunks : ∀ c, c ∈ chunks → s.buffered ≤ c.length) :
    LeadLagState.run junk s chunks =
      (s.prev ++ chunks.flatten).take chunks.flatten.length := by
  induction chunks generalizing s with
  | nil => simp [LeadLagState.run]
  | cons c rest ih =>
    have hc := hchunks c (List.mem_cons_self _ _)
    obtain ⟨e1, e2, e3⟩ := LeadLagState.Execute_full junk s c (List.replicate c.length junk)
      hprev hc (by simp)
    have hlen2 : (LeadLagState.Execute junk s c (List.replicate c.length junk)).1.prev.length =
        (LeadLagState.Execute junk s c (List.replicate c.length junk)).1.buffered := by
      rw [e2, e3, List.length_drop]
      omega
    unfold LeadLagState.run
    rw [ih _ hlen2 (fun d hd => by rw [e3]; exact hchunks d (List.mem_cons_of_mem _ hd)),
      e1, e2]
    have hA : (s.prev ++ c.take (c.length - s.buffered)).length = c.length := by
      rw [List.length_append, List.length_take, hprev]
      omega
    have hsplit : s.prev ++ (c :: rest).flatten =
        (s.prev ++ c.take (c.length - s.buffered)) ++
          (c.drop (c.length - s.buffered) ++ rest.flatten) := by
      simp only [List.flatten_cons, List.append_assoc]
      congr 1
      rw [← List.append_assoc, List.take_append_drop]
    have hl : (c :: rest).flatten.length =
        (s.prev ++ c.take (c.length - s.buffered)).length + rest.flatten.length := by
      rw [hA]
      simp
    rw [hsplit, hl, List.take_append]

end StreamingWindowState

namespace StreamingWindowState

/-- With a constant offset `n` and chunks of at least `n` rows each, the results of
`Execute` over the chunks are the input shifted by `n` rows. -/
theorem LeadLagState.run_shifted {V : Type} (junk : Bool × V) (n : Nat)
    (hn : n < 18446744073709551616) (d : Bool × V) (chunks : List (List (Bool × V)))
    (hchunks : ∀ c, c ∈ chunks → n ≤ c.length) :
    LeadLagState.run junk (LeadLagState.create junk (n : Int) d) chunks =
      shiftedBy n d chunks.flatten := by
  have hb : ((n : Int) % 18446744073709551616).toNat = n := by omega
  have h := LeadLagState.run_full junk chunks (LeadLagState.create junk (n : Int) d)
    (by simp [LeadLagState.create]) (by simpa [LeadLagState.create, hb] using hchunks)
  rw [h]
  simp [LeadLagState.create, shiftedBy, hb]

/-- C22: with the constant offset 3, which `ComputeOffset` accepts, the default 0 and the
input 10, 11, 12, 13 in two chunks of two rows, the results of `Execute` are 0, 0 and
0, 0, while the input shifted by 3 rows is 0, 0, 0, 10: after the first chunk `prev`
holds 0, 0, 10 where the last three rows seen are 0, 10, 11. -/
theorem LeadLagState.Execute_short_chunks :
    LeadLagState.ComputeOffset 2048 (.value 3) false = (true, 3) ∧
    ∀ junk : Bool × Nat,
      (LeadLagState.Execute junk (LeadLagState.create junk 3 (true, 0))
        [(true, 10), (true, 11)] [junk, junk]).1.prev = [(true, 0), (true, 0), (true, 10)] ∧
      LeadLagState.run junk (LeadLagState.create junk 3 (true, 0))
        [[(true, 10), (true, 11)], [(true, 12), (true, 13)]] =
        [(true, 0), (true, 0), (true, 0), (true, 0)] ∧
      shiftedBy 3 (true, 0) [(true, 10), (true, 11), (true, 12), (true, 13)] =
        [(true, 0), (true, 0), (true, 0), (true, 10)] :=
  ⟨rfl, fun _ => ⟨rfl, rfl, rfl⟩⟩

end StreamingWindowState

end duckdb
